import Mathlib

/-!
# jd: an order-preserving JSON document model

A shallow embedding of `jd.go`: the value tree (`Object`), the visitor
protocol (`Accept`), ordered-map iteration (`Foreach`), the recursive-descent
builder (`readMap`, `readArray`, `readObject`, `LoadObject`) over a token
stream, the compact printer (`jsonSimplePrinter`), the accessors (the six
casts, `Map`, `Len`, `Index`), the canonical numeric value (`Number`), and a
model of the standard library's decoder on a text for the round trip.
-/

namespace jd

/-! ## Data model -/

/-- An IEEE-754 binary64 value, given by its three bit fields: one sign bit,
eleven exponent bits and fifty-two fraction bits (Go's `float64`). -/
structure Float64 where
  sign : Bool
  expo : Fin 2048
  frac : Fin 4503599627370496
deriving DecidableEq, Repr

/-- The value tree. `array` carries `jsonArrayImpl.values`; `map` carries
`jsonMapImpl.valuelist` (the `jsonPair`s in list order) and
`jsonMapImpl.valuesmap` (the key index; a list element is named by its
position in `valuelist`, which never changes because the list is append-only). -/
inductive Object where
  | null : Object
  | bool (value : Bool) : Object
  | string (value : String) : Object
  | number (value : Float64) : Object
  | array (values : List Object) : Object
  | map (valuelist : List (String × Object)) (valuesmap : List (String × Nat)) : Object
deriving Repr

def TYPE_NULL : Nat := 0x0001
def TYPE_BOOL : Nat := 0x0002
def TYPE_NUMBER : Nat := 0x0004
def TYPE_STRING : Nat := 0x0010
def TYPE_ARRAY : Nat := 0x0100
def TYPE_MAP : Nat := 0x0200

/-- The method `Type` of the six implementations. -/
def Object.Type : Object → Nat
  | .null => TYPE_NULL
  | .bool _ => TYPE_BOOL
  | .string _ => TYPE_STRING
  | .number _ => TYPE_NUMBER
  | .array _ => TYPE_ARRAY
  | .map _ _ => TYPE_MAP

/-! ## Visitor protocol -/

/-- The interface `Visitor`. A callback may have effects on the visitor, so
each one takes the visitor's state and returns its status code together with
the new state. Leaf callbacks receive the leaf's payload, composite callbacks
the node. -/
structure Visitor (σ : Type) where
  VisitNull : σ → Int × σ
  VisitBool : Bool → σ → Int × σ
  VisitString : String → σ → Int × σ
  VisitNumber : Float64 → σ → Int × σ
  EnterArray : Object → σ → Int × σ
  VisitArrayItem : Int → Object → σ → Int × σ
  LeaveArray : Object → σ → Int × σ
  EnterMap : Object → σ → Int × σ
  VisitMapItem : Int → String → Object → σ → Int × σ
  LeaveMap : Object → σ → Int × σ

/-- The loop of `jsonMapImpl.Accept` from list element `elem` on: `index` is
the counter before the increment, `leave` is the code after the loop. -/
def mapAcceptLoop {σ : Type} (item : Int → String → Object → σ → Int × σ)
    (leave : σ → Int × σ) : List (String × Object) → Int → σ → Int × σ
  | [], _, s => leave s
  | elem :: next, index, s =>
    let index := index + 1
    let (r, s) := item index elem.1 elem.2 s
    if 0 ≠ r then (r, s) else mapAcceptLoop item leave next index s

/-- The `range` loop of `jsonArrayImpl.Accept` over the remaining values,
`index` being the position of the first of them. -/
def arrayAcceptLoop {σ : Type} (item : Int → Object → σ → Int × σ)
    (leave : σ → Int × σ) : List Object → Int → σ → Int × σ
  | [], _, s => leave s
  | v :: rest, index, s =>
    let (r, s) := item index v s
    if 0 ≠ r then (r, s) else arrayAcceptLoop item leave rest (index + 1) s

/-- The method `Accept` of the six implementations. -/
def Accept {σ : Type} (o : Object) (visitor : Visitor σ) (s : σ) : Int × σ :=
  match o with
  | .null => visitor.VisitNull s
  | .bool value => visitor.VisitBool value s
  | .string value => visitor.VisitString value s
  | .number value => visitor.VisitNumber value s
  | .array values =>
    let (r, s) := visitor.EnterArray o s
    if 0 ≠ r then (r, s)
    else arrayAcceptLoop visitor.VisitArrayItem (visitor.LeaveArray o) values 0 s
  | .map valuelist _ =>
    let (r, s) := visitor.EnterMap o s
    if 0 ≠ r then (r, s)
    else mapAcceptLoop visitor.VisitMapItem (visitor.LeaveMap o) valuelist (-1) s

/-- The loop of `jsonMapImpl.Foreach`; the function has no result, so only the
callback's state comes back. -/
def mapForeachLoop {σ : Type} (f : Int → String → Object → σ → Int × σ) :
    List (String × Object) → Int → σ → σ
  | [], _, s => s
  | elem :: next, index, s =>
    let index := index + 1
    let (r, s) := f index elem.1 elem.2 s
    if 0 ≠ r then s else mapForeachLoop f next index s

/-- The method `jsonMapImpl.Foreach` (on any other kind there is no such
method; the state is returned untouched). -/
def Object.Foreach {σ : Type} (m : Object) (f : Int → String → Object → σ → Int × σ)
    (s : σ) : σ :=
  match m with
  | .map valuelist _ => mapForeachLoop f valuelist (-1) s
  | _ => s

/-! ## Token stream

`encoding/json`'s `Decoder` is an external collaborator. The builder uses two
of its methods, `More` and `Token`; what it can observe of a decoder is the
sequence of items the decoder hands out, one per `Token` call. -/

/-- A Go `error` value: one produced by the decoder (or its reader), or one
made by `fmt.Errorf` in this package, with its message. -/
inductive Error where
  | decoder (msg : String) : Error
  | errorf (msg : String) : Error
deriving DecidableEq, Repr

/-- The dynamic types of a `json.Token`: `Delim`, `bool`, `float64`,
`Number`, `string` and `nil`. -/
inductive Token where
  | Delim (c : Char) : Token
  | bool (b : Bool) : Token
  | float64 (f : Float64) : Token
  | Number (lit : String) : Token
  | string (s : String) : Token
  | nil : Token
deriving DecidableEq, Repr

/-- What one `Token` call yields: a token, or a decoder error. For an error
the item also says what `More` answers in front of it: `true` for malformed
bytes (only `Token` notices them), `false` for a failed read or a delimiter
that closes nothing. -/
inductive Item where
  | tok (t : Token) : Item
  | err (msg : String) (more : Bool) : Item
deriving DecidableEq, Repr

/-- A decoder, as the items it has yet to hand out. At the end of the list the
input is exhausted. -/
abbrev Decoder := List Item

/-- The method `Decoder.More`: `err == nil && c != ']' && c != '}'` on the next
non-blank byte. -/
def Decoder.More : Decoder → Bool
  | [] => false
  | .tok (.Delim c) :: _ => !(c = ']' || c = '}')
  | .tok _ :: _ => true
  | .err _ more :: _ => more

/-- The method `Decoder.Token`; at the end of the input it fails with `io.EOF`. -/
def Decoder.Token : Decoder → Except Error Token × Decoder
  | [] => (.error (.decoder "EOF"), [])
  | .tok t :: d => (.ok t, d)
  | .err msg _ :: d => (.error (.decoder msg), d)

/-! ## Builder -/

/-- What a builder function leaves behind: the error it returns or, beside a
nil error, the value it returns, and the decoder. The builder itself looks at
nothing else; what `readObject` hands back as its value beside an error is told
by `readObjectResults`. -/
abbrev Result := Except Error Object × Decoder

/-- The map index `valuesmap[k]` with its `ok` flag. -/
def mapIndex (valuesmap : List (String × Nat)) (k : String) : Option Nat :=
  valuesmap.lookup k

/-- The assignment `valuesmap[k] = elem`. -/
def mapAssign (valuesmap : List (String × Nat)) (k : String) (elem : Nat) :
    List (String × Nat) :=
  if (valuesmap.lookup k).isSome then
    valuesmap.map (fun p => if p.1 = k then (k, elem) else p)
  else valuesmap ++ [(k, elem)]

/-- The body of `readMap` from the `for d.More()` loop on, for the map built
so far. `readObject` is the function the loop calls for the values; each
iteration uses one unit of `fuel`, and `none` means the fuel ran out. -/
def readMapLoop (readObject : Decoder → Option Result) :
    Nat → List (String × Object) → List (String × Nat) → Decoder → Option Result
  | 0, _, _, _ => none
  | fuel + 1, valuelist, valuesmap, d =>
    if d.More then
      match d.Token with
      | (.error err, d) => some (.error err, d)
      | (.ok t, d) =>
        match t with
        | .string k =>
          match readObject d with
          | none => none
          | some (.error err, d) => some (.error err, d)
          | some (.ok v, d) =>
            if (mapIndex valuesmap k).isSome then
              some (.error (.errorf ("Item with the same key has been exist: " ++ k)), d)
            else
              readMapLoop readObject fuel (valuelist ++ [(k, v)])
                (mapAssign valuesmap k valuelist.length) d
        | _ => some (.error (.errorf "Except string"), d)
    else
      some (.ok (.map valuelist valuesmap), d.Token.2)

/-- The function `readMap`. -/
def readMap (readObject : Decoder → Option Result) (fuel : Nat) (d : Decoder) :
    Option Result :=
  readMapLoop readObject fuel [] [] d

/-- The body of `readArray` from the `for d.More()` loop on, for the values
appended so far. -/
def readArrayLoop (readObject : Decoder → Option Result) :
    Nat → List Object → Decoder → Option Result
  | 0, _, _ => none
  | fuel + 1, values, d =>
    if d.More then
      match readObject d with
      | none => none
      | some (.error err, d) => some (.error err, d)
      | some (.ok v, d) => readArrayLoop readObject fuel (values ++ [v]) d
    else
      some (.ok (.array values), d.Token.2)

/-- The function `readArray`. -/
def readArray (readObject : Decoder → Option Result) (fuel : Nat) (d : Decoder) :
    Option Result :=
  readArrayLoop readObject fuel [] d

/-- The function `readObject`; `fuel` bounds the nesting depth and the length
of every loop below, and `none` means it ran out. -/
def readObject : Nat → Decoder → Option Result
  | 0, _ => none
  | fuel + 1, d =>
    match d.Token with
    | (.error err, d) => some (.error err, d)
    | (.ok t, d) =>
      match t with
      | .Delim c =>
        if c = '{' then readMap (readObject fuel) fuel d
        else if c = '[' then readArray (readObject fuel) fuel d
        else some (.error (.errorf ("Unexpect delim: " ++ c.toString)), d)
      | .string value => some (.ok (.string value), d)
      | .bool value => some (.ok (.bool value), d)
      | .float64 value => some (.ok (.number value), d)
      | .nil => some (.ok .null, d)
      | .Number _ => some (.error (.errorf "Unexpect token"), d)

/-- The function `LoadObject` on the decoder made from the reader: one
`readObject` call, with fuel that never runs out (`LoadObject_isSome`). -/
def LoadObject (d : Decoder) : Option Result :=
  readObject (d.length + 1) d

/-! ## Observing a traversal -/

/-- One callback invocation, with its arguments. -/
inductive Call where
  | VisitNull : Call
  | VisitBool (v : Bool) : Call
  | VisitString (v : String) : Call
  | VisitNumber (v : Float64) : Call
  | EnterArray (a : Object) : Call
  | VisitArrayItem (index : Int) (value : Object) : Call
  | LeaveArray (a : Object) : Call
  | EnterMap (m : Object) : Call
  | VisitMapItem (index : Int) (key : String) (value : Object) : Call
  | LeaveMap (m : Object) : Call
deriving Repr

/-- Make the invocation `c` on `visitor`. -/
def Call.run {σ : Type} (visitor : Visitor σ) : Call → σ → Int × σ
  | .VisitNull => visitor.VisitNull
  | .VisitBool v => visitor.VisitBool v
  | .VisitString v => visitor.VisitString v
  | .VisitNumber v => visitor.VisitNumber v
  | .EnterArray a => visitor.EnterArray a
  | .VisitArrayItem index value => visitor.VisitArrayItem index value
  | .LeaveArray a => visitor.LeaveArray a
  | .EnterMap m => visitor.EnterMap m
  | .VisitMapItem index key value => visitor.VisitMapItem index key value
  | .LeaveMap m => visitor.LeaveMap m

/-- Make the invocations `cs` one after the other, whatever they return: the
status codes in order, and the visitor's state at the end. -/
def replay {σ : Type} (visitor : Visitor σ) : List Call → σ → List Int × σ
  | [], s => ([], s)
  | c :: cs, s =>
    let (r, s) := c.run visitor s
    let (rs, s) := replay visitor cs s
    (r :: rs, s)

/-- The visitor `visitor` with a log: every callback first appends its own
invocation to the log and then does what `visitor` does. -/
def recording {σ : Type} (visitor : Visitor σ) : Visitor (σ × List Call) where
  VisitNull := fun s => ((visitor.VisitNull s.1).1, (visitor.VisitNull s.1).2, s.2 ++ [.VisitNull])
  VisitBool := fun v s =>
    ((visitor.VisitBool v s.1).1, (visitor.VisitBool v s.1).2, s.2 ++ [.VisitBool v])
  VisitString := fun v s =>
    ((visitor.VisitString v s.1).1, (visitor.VisitString v s.1).2, s.2 ++ [.VisitString v])
  VisitNumber := fun v s =>
    ((visitor.VisitNumber v s.1).1, (visitor.VisitNumber v s.1).2, s.2 ++ [.VisitNumber v])
  EnterArray := fun a s =>
    ((visitor.EnterArray a s.1).1, (visitor.EnterArray a s.1).2, s.2 ++ [.EnterArray a])
  VisitArrayItem := fun i v s =>
    ((visitor.VisitArrayItem i v s.1).1, (visitor.VisitArrayItem i v s.1).2,
      s.2 ++ [.VisitArrayItem i v])
  LeaveArray := fun a s =>
    ((visitor.LeaveArray a s.1).1, (visitor.LeaveArray a s.1).2, s.2 ++ [.LeaveArray a])
  EnterMap := fun m s =>
    ((visitor.EnterMap m s.1).1, (visitor.EnterMap m s.1).2, s.2 ++ [.EnterMap m])
  VisitMapItem := fun i k v s =>
    ((visitor.VisitMapItem i k v s.1).1, (visitor.VisitMapItem i k v s.1).2,
      s.2 ++ [.VisitMapItem i k v])
  LeaveMap := fun m s =>
    ((visitor.LeaveMap m s.1).1, (visitor.LeaveMap m s.1).2, s.2 ++ [.LeaveMap m])

/-- The item invocations for the entries `valuelist`, the first of which sits
at position `start`: entry `i` gives `VisitMapItem (start + i) key value`. -/
def mapItemCalls : List (String × Object) → Nat → List Call
  | [], _ => []
  | elem :: next, start => .VisitMapItem start elem.1 elem.2 :: mapItemCalls next (start + 1)

/-- The item invocations for the values `values`, the first of which sits at
position `start`. -/
def arrayItemCalls : List Object → Nat → List Call
  | [], _ => []
  | v :: rest, start => .VisitArrayItem start v :: arrayItemCalls rest (start + 1)

/-- A visitor that counts the callbacks it receives: callback number `n`
(from zero) returns `code`, every other one returns zero. -/
def abortAt (n : Nat) (code : Int) : Visitor Nat where
  VisitNull := fun s => (if s = n then code else 0, s + 1)
  VisitBool := fun _ s => (if s = n then code else 0, s + 1)
  VisitString := fun _ s => (if s = n then code else 0, s + 1)
  VisitNumber := fun _ s => (if s = n then code else 0, s + 1)
  EnterArray := fun _ s => (if s = n then code else 0, s + 1)
  VisitArrayItem := fun _ _ s => (if s = n then code else 0, s + 1)
  LeaveArray := fun _ s => (if s = n then code else 0, s + 1)
  EnterMap := fun _ s => (if s = n then code else 0, s + 1)
  VisitMapItem := fun _ _ _ s => (if s = n then code else 0, s + 1)
  LeaveMap := fun _ s => (if s = n then code else 0, s + 1)

/-- The map `{"a":null,"b":true,"c":"x"}` as `readMap` builds it. -/
def exampleMap : Object :=
  .map [("a", .null), ("b", .bool true), ("c", .string "x")] [("a", 0), ("b", 1), ("c", 2)]

/-- The array `[null,true,"x"]`. -/
def exampleArray : Object :=
  .array [.null, .bool true, .string "x"]

/-! ## Documents as token streams -/

/-- The key index `readMap` builds for the entries `valuelist` when the first
of them is appended at position `start`: each key with its position. -/
def keyIndex : List (String × Object) → Nat → List (String × Nat)
  | [], _ => []
  | elem :: next, start => (elem.1, start) :: keyIndex next (start + 1)

mutual
/-- The items a well-formed document hands out for the tree `t`, in document
order: its delimiters, keys and primitives. -/
def tokens : Object → Decoder
  | .null => [.tok .nil]
  | .bool value => [.tok (.bool value)]
  | .string value => [.tok (.string value)]
  | .number value => [.tok (.float64 value)]
  | .array values => .tok (.Delim '[') :: (tokensOfValues values ++ [.tok (.Delim ']')])
  | .map valuelist _ => .tok (.Delim '{') :: (tokensOfEntries valuelist ++ [.tok (.Delim '}')])
/-- The items of the elements of an array, one element after the other. -/
def tokensOfValues : List Object → Decoder
  | [] => []
  | v :: rest => tokens v ++ tokensOfValues rest
/-- The items of the entries of a map: each key, then its value. -/
def tokensOfEntries : List (String × Object) → Decoder
  | [] => []
  | (k, v) :: next => .tok (.string k) :: (tokens v ++ tokensOfEntries next)
end

mutual
/-- A tree is well formed when in each of its maps the keys are pairwise
distinct and `valuesmap` indexes `valuelist`: key `i` points at entry `i`. -/
def Object.WF : Object → Bool
  | .null => true
  | .bool _ => true
  | .string _ => true
  | .number _ => true
  | .array values => WFValues values
  | .map valuelist valuesmap =>
    decide ((valuelist.map Prod.fst).Nodup) && decide (valuesmap = keyIndex valuelist 0)
      && WFEntries valuelist
/-- All elements are well formed. -/
def WFValues : List Object → Bool
  | [] => true
  | v :: rest => v.WF && WFValues rest
/-- All entry values are well formed. -/
def WFEntries : List (String × Object) → Bool
  | [] => true
  | (_, v) :: next => v.WF && WFEntries next
end

/-- The tree of `{"a":1,"b":[true,null,"x"]}`; the number 1 has the bit
fields sign 0, exponent 1023, fraction 0. -/
def exampleDoc : Object :=
  .map [("a", .number ⟨false, 1023, 0⟩), ("b", .array [.bool true, .null, .string "x"])]
    [("a", 0), ("b", 1)]

/-! ## Fuel -/

/-- What the loops need of the function they call for the values: it never
hands back more input than it was given, and a value costs at least one item. -/
def Consumes (ro : Decoder → Option Result) (bound : Nat) : Prop :=
  ∀ d, d.length < bound →
    (∃ r, ro d = some r) ∧
    (∀ r, ro d = some r → r.2.length ≤ d.length) ∧
    (∀ v d1, ro d = some (.ok v, d1) → d1.length < d.length)

/-- The loop of `readArray` as it runs inside `LoadObject`, from the loop head
at `d` with `values` appended so far. -/
def arrayLoop (values : List Object) (d : Decoder) : Option Result :=
  readArrayLoop LoadObject (d.length + 1) values d

/-- The loop of `readMap` as it runs inside `LoadObject`, from the loop head at
`d` with the map built so far. -/
def mapLoop (valuelist : List (String × Object)) (valuesmap : List (String × Nat))
    (d : Decoder) : Option Result :=
  readMapLoop LoadObject (d.length + 1) valuelist valuesmap d

/-- `ArrayAt d0 values d`: the loop of `readArray`, entered with the decoder at
`d0`, comes to its loop head with the decoder at `d`, having appended `values`. -/
inductive ArrayAt (d0 : Decoder) : List Object → Decoder → Prop where
  | start : ArrayAt d0 [] d0
  | next {values : List Object} {d d1 : Decoder} {v : Object} :
      ArrayAt d0 values d → d.More = true → LoadObject d = some (.ok v, d1) →
      ArrayAt d0 (values ++ [v]) d1

/-- `MapAt d0 valuelist d`: the loop of `readMap`, entered with the decoder at
`d0`, comes to its loop head with the decoder at `d`, having inserted the
entries `valuelist`. -/
inductive MapAt (d0 : Decoder) : List (String × Object) → Decoder → Prop where
  | start : MapAt d0 [] d0
  | next {valuelist : List (String × Object)} {d d1 d2 : Decoder} {k : String} {v : Object} :
      MapAt d0 valuelist d → d.More = true → d.Token = (.ok (.string k), d1) →
      LoadObject d1 = some (.ok v, d2) → k ∉ valuelist.map Prod.fst →
      MapAt d0 (valuelist ++ [(k, v)]) d2

/-- `Builds D d`: the `readObject` call on the decoder at `D` is, or comes to
make, directly or through nested arrays and maps, the `readObject` call on the
decoder at `d`. -/
inductive Builds (D : Decoder) : Decoder → Prop where
  | self : Builds D D
  | element {d1 d0 d : Decoder} {values : List Object} :
      Builds D d1 → d1.Token = (.ok (.Delim '['), d0) → ArrayAt d0 values d →
      d.More = true → Builds D d
  | value {d1 d0 d d2 : Decoder} {valuelist : List (String × Object)} {k : String} :
      Builds D d1 → d1.Token = (.ok (.Delim '{'), d0) → MapAt d0 valuelist d →
      d.More = true → d.Token = (.ok (.string k), d2) → Builds D d2

/-- The double 1.0. -/
def one : Float64 := ⟨false, 1023, 0⟩

/-- The double 2.0. -/
def two : Float64 := ⟨false, 1024, 0⟩

/-- The items of `[{"a":1,"a":2}]`. -/
def duplicateStream : Decoder :=
  [.tok (.Delim '['), .tok (.Delim '{'), .tok (.string "a"), .tok (.float64 one),
    .tok (.string "a"), .tok (.float64 two), .tok (.Delim '}'), .tok (.Delim ']')]

/-- The items of the cut-off text `{"a":1,"a":`, after which the input ends. -/
def duplicateCutStream : Decoder :=
  [.tok (.Delim '{'), .tok (.string "a"), .tok (.float64 one), .tok (.string "a")]

/-! ## Observing `Foreach` -/

/-- The `Foreach` callback `f` with a log: it appends its arguments to the log
and then does what `f` does. -/
def recordingF {σ : Type} (f : Int → String → Object → σ → Int × σ) :
    Int → String → Object → σ × List (Int × String × Object) →
      Int × σ × List (Int × String × Object) :=
  fun i k v s => ((f i k v s.1).1, (f i k v s.1).2, s.2 ++ [(i, k, v)])

/-- The argument triples for the entries `valuelist`, the first of which sits
at position `start`: entry `i` gives `(start + i, key, value)`. -/
def foreachCalls : List (String × Object) → Nat → List (Int × String × Object)
  | [], _ => []
  | elem :: next, start => ((start : Int), elem.1, elem.2) :: foreachCalls next (start + 1)

/-- Call `f` on the triples `cs` one after the other, whatever it returns: the
status codes in order, and the state at the end. -/
def replayF {σ : Type} (f : Int → String → Object → σ → Int × σ) :
    List (Int × String × Object) → σ → List Int × σ
  | [], s => ([], s)
  | c :: cs, s =>
    let (r, s) := f c.1 c.2.1 c.2.2 s
    let (rs, s) := replayF f cs s
    (r :: rs, s)

/-- A stateless `Foreach` callback that returns `code` on every call. -/
def constantCallback (code : Int) : Int → String → Object → Unit → Int × Unit :=
  fun _ _ _ s => (code, s)

/-- A `Foreach` callback that counts its calls: call number `n` (from zero)
returns `code`, every other one returns zero. -/
def stopAt (n : Nat) (code : Int) : Int → String → Object → Nat → Int × Nat :=
  fun _ _ _ s => (if s = n then code else 0, s + 1)

/-! ## Numbers

`float64` arithmetic, as far as `jsonNumberImpl.Number` uses it: conversion to
`int64`, conversion back, subtraction and comparison with zero. -/

/-- What the Go implementation at hand decides, and the `fmt` package:
`convert` is the result of `int64(x)` where the Go specification leaves it
implementation-dependent (`x` is NaN, infinite or out of range), and
`formatFloat` is the text `%v` gives for a `float64`. -/
structure Platform where
  convert : Float64 → Int
  formatFloat : Float64 → String

/-- Not NaN and not infinite. -/
def Float64.isFinite (x : Float64) : Bool := decide (x.expo.val < 2047)

/-- Not a number. -/
def Float64.isNaN (x : Float64) : Bool := decide (x.expo.val = 2047) && decide (x.frac.val ≠ 0)

/-- The integer significand of a finite double: the fraction bits, with the
hidden bit unless the double is subnormal or zero. -/
def Float64.mantissa (x : Float64) : Nat :=
  if x.expo.val = 0 then x.frac.val else 4503599627370496 + x.frac.val

/-- The power of two that weighs the last significand bit of a finite double. -/
def Float64.exponent (x : Float64) : Int :=
  if x.expo.val = 0 then -1074 else (x.expo.val : Int) - 1075

/-- The signed significand. -/
def Float64.signed (x : Float64) : Int :=
  if x.sign then -(x.mantissa : Int) else (x.mantissa : Int)

/-- The exact value of a finite double: `± mantissa * 2 ^ exponent`. -/
def Float64.toRat (x : Float64) : ℚ :=
  (x.signed : ℚ) * (2 : ℚ) ^ x.exponent

/-- A finite double cut to an integer, towards zero. -/
def Float64.trunc (x : Float64) : Int :=
  let n : Nat :=
    if 0 ≤ x.exponent then x.mantissa * 2 ^ x.exponent.toNat
    else x.mantissa / 2 ^ (-x.exponent).toNat
  if x.sign then -(n : Int) else (n : Int)

/-- An integer brought into the range of `int64`. -/
def wrapInt64 (i : Int) : Int :=
  (i + 9223372036854775808) % 18446744073709551616 - 9223372036854775808

/-- The conversion `int64(x)`: truncation towards zero where the result fits,
the platform's choice otherwise. -/
def int64 (p : Platform) (x : Float64) : Int :=
  if x.isFinite = true ∧ -9223372036854775808 ≤ x.trunc ∧ x.trunc < 9223372036854775808 then
    x.trunc
  else wrapInt64 (p.convert x)

/-- The significand `n` without its last `s` bits, rounded to nearest, ties to
even. -/
def roundShift (n s : Nat) : Nat :=
  let q := n / 2 ^ s
  let r := n % 2 ^ s
  let h := 2 ^ (s - 1)
  if r > h ∨ (r = h ∧ q % 2 = 1) then q + 1 else q

/-- The double with sign `neg`, significand `m ≤ 2 ^ 53` and last-bit weight
`2 ^ e`; infinite if the exponent is out of range. -/
def pack (neg : Bool) (m : Nat) (e : Int) : Float64 :=
  if m < 4503599627370496 then ⟨neg, 0, (m : Fin 4503599627370496)⟩
  else
    let e2 : Int := if m = 9007199254740992 then e + 1 else e
    let m2 : Nat := if m = 9007199254740992 then 4503599627370496 else m
    if 2047 ≤ e2 + 1075 then ⟨neg, 2047, 0⟩
    else ⟨neg, ((e2 + 1075).toNat : Fin 2048), ((m2 - 4503599627370496 : Nat) : Fin 4503599627370496)⟩

/-- The position of the leading bit of `n`, looked for in `fuel` halvings. -/
def log2Fuel : Nat → Nat → Nat
  | 0, _ => 0
  | fuel + 1, n => if n < 2 then 0 else log2Fuel fuel (n / 2) + 1

/-- The position of the leading bit of `n`: `2 ^ log2 n ≤ n < 2 ^ (log2 n + 1)`
for `n ≠ 0`. -/
def log2 (n : Nat) : Nat := log2Fuel n n

/-- The double nearest to `± n * 2 ^ e`, ties to even. -/
def roundDyadic (neg : Bool) (n : Nat) (e : Int) : Float64 :=
  if n = 0 then ⟨neg, 0, 0⟩
  else
    let e2 : Int := max (e + (log2 n : Int) - 52) (-1074)
    let m : Nat := if e2 ≤ e then n * 2 ^ (e - e2).toNat else roundShift n (e2 - e).toNat
    pack neg m e2

/-- The conversion `float64(i)` of an integer. -/
def float64 (i : Int) : Float64 :=
  roundDyadic (decide (i < 0)) i.natAbs 0

/-- The double `+0`. -/
def Float64.zero : Float64 := ⟨false, 0, 0⟩

/-- The subtraction `x - y` of two doubles. -/
def Float64.sub (x y : Float64) : Float64 :=
  if x.isNaN || y.isNaN then ⟨false, 2047, 1⟩
  else if !x.isFinite then
    if !y.isFinite && x.sign == y.sign then ⟨false, 2047, 1⟩ else x
  else if !y.isFinite then ⟨!y.sign, 2047, 0⟩
  else
    let e : Int := min x.exponent y.exponent
    let r : Int := x.signed * 2 ^ (x.exponent - e).toNat - y.signed * 2 ^ (y.exponent - e).toNat
    if r = 0 then ⟨x.sign && !y.sign, 0, 0⟩
    else roundDyadic (decide (r < 0)) r.natAbs e

/-- The comparison `x != y` of two doubles: NaN differs from everything, and
the two zeros are equal. -/
def Float64.ne (x y : Float64) : Bool :=
  x.isNaN || y.isNaN ||
    (!(x.isFinite && y.isFinite && decide (x.mantissa = 0) && decide (y.mantissa = 0))
      && decide (x ≠ y))

/-- What `Number()` returns in its `interface{}`: an `int64` or a `float64`. -/
inductive NumberValue where
  | int64 (i : Int) : NumberValue
  | float64 (f : Float64) : NumberValue
deriving DecidableEq, Repr

/-- The method `jsonNumberImpl.Number`. -/
def Number (p : Platform) (value : Float64) : NumberValue :=
  let i64 := int64 p value
  let fraction := value.sub (float64 i64)
  if fraction.ne Float64.zero then .float64 value else .int64 i64

/-- The character of a decimal digit. -/
def digitChar (d : Nat) : Char := Char.ofNat (48 + d)

/-- The decimal digits of `n`, most significant first, found in at most `fuel`
divisions. -/
def decimal : Nat → Nat → List Nat
  | 0, _ => []
  | fuel + 1, n => if n < 10 then [n] else decimal fuel (n / 10) ++ [n % 10]

/-- The decimal text of a natural number. -/
def formatNat (n : Nat) : String := String.mk ((decimal (n + 1) n).map digitChar)

/-- The text of `%v` for an `int64`: decimal digits, with a minus sign if
negative. -/
def formatInt (i : Int) : String :=
  if i < 0 then "-" ++ formatNat i.natAbs else formatNat i.natAbs

/-- The method `jsonNumberImpl.String`: `fmt.Sprintf("%v", u.Number())`. -/
def numberString (p : Platform) (value : Float64) : String :=
  match Number p value with
  | .int64 i => formatInt i
  | .float64 f => p.formatFloat f

/-- The double 5.0. -/
def five : Float64 := ⟨false, 1025, 1125899906842624⟩

/-- The double 5.5. -/
def fiveAndHalf : Float64 := ⟨false, 1025, 1688849860263936⟩

/-- The double `2 ^ 63`. -/
def twoPow63 : Float64 := ⟨false, 1086, 0⟩

/-- A platform that converts what does not fit to the least `int64` (as amd64
does), and whose `%v` gives `5.5` for the double 5.5; the texts of the other
doubles are left blank. -/
def examplePlatform : Platform where
  convert := fun _ => -9223372036854775808
  formatFloat := fun f => if f = fiveAndHalf then "5.5" else ""

/-! ## Printer -/

/-- The method `jsonBoolImpl.String`. -/
def boolString (value : Bool) : String :=
  if value then "true" else "false"

/-- The callbacks of `jsonSimplePrinter` on the sink `w`, the text written so
far; a write appends. `accept` stands for the calls `value.Accept(p)` the item
callbacks make on the printer itself. -/
def printerWith (p : Platform) (accept : Object → String → Int × String) : Visitor String where
  VisitNull := fun w => (0, w ++ "null")
  VisitBool := fun v w => (0, w ++ boolString v)
  VisitString := fun v w => (0, w ++ "\"" ++ v ++ "\"")
  VisitNumber := fun v w => (0, w ++ numberString p v)
  EnterArray := fun _ w => (0, w ++ "[")
  VisitArrayItem := fun index value w =>
    let w := if 0 ≠ index then w ++ "," else w
    (0, (accept value w).2)
  LeaveArray := fun _ w => (0, w ++ "]")
  EnterMap := fun _ w => (0, w ++ "\x7b")
  VisitMapItem := fun index key value w =>
    let w := if 0 ≠ index then w ++ "," else w
    let w := w ++ "\"" ++ key ++ "\":"
    (0, (accept value w).2)
  LeaveMap := fun _ w => (0, w ++ "\x7d")

/-- The visitor `jsonSimplePrinter`. Its item callbacks call `Accept` with the
printer itself; `fuel` bounds how deep these calls nest (below that depth
nothing is written). -/
def jsonSimplePrinter (p : Platform) : Nat → Visitor String
  | 0 => printerWith p (fun _ w => (0, w))
  | fuel + 1 => printerWith p (fun value w => Accept value (jsonSimplePrinter p fuel) w)

mutual
/-- How deep arrays and maps nest in a tree. -/
def depth : Object → Nat
  | .null => 0
  | .bool _ => 0
  | .string _ => 0
  | .number _ => 0
  | .array values => depthOfValues values + 1
  | .map valuelist _ => depthOfEntries valuelist + 1
/-- The greatest depth among the elements. -/
def depthOfValues : List Object → Nat
  | [] => 0
  | v :: rest => max (depth v) (depthOfValues rest)
/-- The greatest depth among the entry values. -/
def depthOfEntries : List (String × Object) → Nat
  | [] => 0
  | (_, v) :: next => max (depth v) (depthOfEntries next)
end

/-- The texts joined by single commas. -/
def joinComma : List String → String
  | [] => ""
  | [a] => a
  | a :: b :: rest => a ++ "," ++ joinComma (b :: rest)

mutual
/-- The compact JSON text of a tree: no blanks, a comma only between
siblings, strings and keys between double quotes and otherwise verbatim. -/
def compact (p : Platform) : Object → String
  | .null => "null"
  | .bool value => if value then "true" else "false"
  | .string value => "\"" ++ value ++ "\""
  | .number value => numberString p value
  | .array values => "[" ++ joinComma (compactValues p values) ++ "]"
  | .map valuelist _ => "\x7b" ++ joinComma (compactEntries p valuelist) ++ "\x7d"
/-- The compact texts of the elements. -/
def compactValues (p : Platform) : List Object → List String
  | [] => []
  | v :: rest => compact p v :: compactValues p rest
/-- The compact texts of the entries, `"key":value`. -/
def compactEntries (p : Platform) : List (String × Object) → List String
  | [] => []
  | (k, v) :: next => ("\"" ++ k ++ "\":" ++ compact p v) :: compactEntries p next
end

/-- What the item callbacks write for siblings with the texts `texts`, the
first of which has index `index`: a comma before each one but index 0. -/
def itemsText : List String → Nat → String
  | [], _ => ""
  | a :: rest, index => (if index = 0 then "" else ",") ++ a ++ itemsText rest (index + 1)

/-- The significand `m` and last-bit weight `2 ^ e` are those of a finite
double: a normal one, or a subnormal one (or zero). -/
def Representable (m : Nat) (e : Int) : Prop :=
  (4503599627370496 ≤ m ∧ m < 9007199254740992 ∧ -1074 ≤ e ∧ e ≤ 971)
    ∨ (m < 4503599627370496 ∧ e = -1074)

/-! ## The decoder on a text

`json.NewDecoder` and the decoder's `Token` and `More` belong to the standard
library, not to this package. What follows is a model of them on a text: the
items the decoder hands out, call after call, with the token states of
`Decoder.Token` (which value, comma, colon or closing delimiter may come next),
the string and number literals of JSON, and numbers read as the nearest double. -/

/-- The decoder's `tokenState`. -/
inductive TokenState where
  | TopValue | ArrayStart | ArrayValue | ArrayComma
  | ObjectStart | ObjectKey | ObjectColon | ObjectValue | ObjectComma
deriving DecidableEq, Repr

/-- The decoder's `tokenValueAllowed`. -/
def TokenState.valueAllowed : TokenState → Bool
  | .TopValue => true
  | .ArrayStart => true
  | .ArrayValue => true
  | .ObjectValue => true
  | _ => false

/-- The decoder's `tokenValueEnd`. -/
def TokenState.valueEnd : TokenState → TokenState
  | .ArrayStart => .ArrayComma
  | .ArrayValue => .ArrayComma
  | .ObjectValue => .ObjectComma
  | s => s

/-- Blank, tab, carriage return or line feed. -/
def isSpace (c : Char) : Bool :=
  c = ' ' || c = '\t' || c = '\r' || c = '\n'

/-- The text from its first non-blank character on. -/
def skipSpace : List Char → List Char
  | [] => []
  | c :: cs => if isSpace c then skipSpace cs else c :: cs

/-- The value of a hexadecimal digit. -/
def hexDigit (c : Char) : Option Nat :=
  if c.isDigit then some (c.toNat - 48)
  else if 97 ≤ c.toNat ∧ c.toNat ≤ 102 then some (c.toNat - 87)
  else if 65 ≤ c.toNat ∧ c.toNat ≤ 70 then some (c.toNat - 55)
  else none

/-- The value of four hexadecimal digits. -/
def hex4 (a b c d : Char) : Option Nat :=
  match hexDigit a, hexDigit b, hexDigit c, hexDigit d with
  | some x, some y, some z, some w => some (((x * 16 + y) * 16 + z) * 16 + w)
  | _, _, _, _ => none

/-- The character a one-letter escape stands for. -/
def unescape (e : Char) : Option Char :=
  if e = '"' then some '"'
  else if e = '\\' then some '\\'
  else if e = '/' then some '/'
  else if e = 'b' then some (Char.ofNat 8)
  else if e = 'f' then some (Char.ofNat 12)
  else if e = 'n' then some '\n'
  else if e = 'r' then some '\r'
  else if e = 't' then some '\t'
  else none

/-- The character an escape sequence stands for, after its backslash, and the
text after the sequence: a one-letter escape, or `u` and four hexadecimal
digits, where a surrogate pair gives one character and a lone surrogate gives
the replacement character. -/
def scanEscape : List Char → Option (Char × List Char)
  | [] => none
  | e :: rest1 =>
    if e = 'u' then
      match rest1 with
      | h1 :: h2 :: h3 :: h4 :: rest2 =>
        match hex4 h1 h2 h3 h4 with
        | none => none
        | some n =>
          if 55296 ≤ n ∧ n < 57344 then
            match rest2 with
            | b :: u :: l1 :: l2 :: l3 :: l4 :: rest3 =>
              match hex4 l1 l2 l3 l4 with
              | some n2 =>
                if b = '\\' ∧ u = 'u' ∧ n < 56320 ∧ 56320 ≤ n2 ∧ n2 < 57344 then
                  some (Char.ofNat (65536 + (n - 55296) * 1024 + (n2 - 56320)), rest3)
                else some (Char.ofNat 65533, rest2)
              | none => some (Char.ofNat 65533, rest2)
            | _ => some (Char.ofNat 65533, rest2)
          else some (Char.ofNat n, rest2)
      | _ => none
    else
      match unescape e with
      | none => none
      | some ch => some (ch, rest1)

/-- A string literal after its opening quote, read in at most `fuel` steps. -/
def scanStringFuel : Nat → List Char → Option (List Char × List Char)
  | 0, _ => none
  | _ + 1, [] => none
  | fuel + 1, c :: rest =>
    if c = '"' then some ([], rest)
    else if c = '\\' then
      match scanEscape rest with
      | none => none
      | some (ch, rest1) => (scanStringFuel fuel rest1).map (fun r => (ch :: r.1, r.2))
    else if c.toNat < 32 then none
    else (scanStringFuel fuel rest).map (fun r => (c :: r.1, r.2))

/-- A string literal after its opening quote: its content, unescaped, and the
text after the closing quote. A control character, an unknown escape or the end
of the text before the closing quote is an error. -/
def scanString (cs : List Char) : Option (List Char × List Char) :=
  scanStringFuel cs.length cs

/-- The text after the literal `lit`, if the text starts with it. -/
def dropLiteral : List Char → List Char → Option (List Char)
  | [], cs => some cs
  | _ :: _, [] => none
  | l :: lit, c :: cs => if l = c then dropLiteral lit cs else none

/-- The longest run of decimal digits at the start of the text, as digit
values, and the text after it. -/
def scanDigits : List Char → List Nat × List Char
  | [] => ([], [])
  | c :: cs =>
    if c.isDigit then ((c.toNat - 48) :: (scanDigits cs).1, (scanDigits cs).2)
    else ([], c :: cs)

/-- The number with the decimal digits `ds`, most significant first. -/
def digitsValue (ds : List Nat) : Nat :=
  ds.foldl (fun acc d => 10 * acc + d) 0

/-- A number literal: the value `± digits * 10 ^ scale`. -/
structure NumberLiteral where
  neg : Bool
  digits : Nat
  scale : Int
deriving DecidableEq, Repr

/-- The exponent part of a number literal, if there is one, added to `scale`. -/
def scanExponent (neg : Bool) (digits : Nat) (scale : Int) (cs : List Char) :
    Option (NumberLiteral × List Char) :=
  match cs with
  | [] => some (⟨neg, digits, scale⟩, [])
  | e :: rest =>
    if e = 'e' ∨ e = 'E' then
      match rest with
      | [] => none
      | s :: rest1 =>
        let body := if s = '+' ∨ s = '-' then rest1 else s :: rest1
        if (scanDigits body).1 = [] then none
        else
          let x : Int := digitsValue (scanDigits body).1
          some (⟨neg, digits, scale + (if s = '-' then -x else x)⟩, (scanDigits body).2)
    else some (⟨neg, digits, scale⟩, e :: rest)

/-- The fraction part of a number literal, if there is one, then the exponent. -/
def scanFraction (neg : Bool) (ip : List Nat) (cs : List Char) :
    Option (NumberLiteral × List Char) :=
  match cs with
  | [] => some (⟨neg, digitsValue ip, 0⟩, [])
  | c :: rest =>
    if c = '.' then
      if (scanDigits rest).1 = [] then none
      else
        scanExponent neg (digitsValue (ip ++ (scanDigits rest).1))
          (-((scanDigits rest).1.length : Int)) (scanDigits rest).2
    else scanExponent neg (digitsValue ip) 0 (c :: rest)

/-- The integer part of a number literal after the sign: a single `0`, or
digits that do not start with `0`; then the rest of the literal. -/
def scanInteger (neg : Bool) (cs : List Char) : Option (NumberLiteral × List Char) :=
  match cs with
  | [] => none
  | c :: rest =>
    if c = '0' then scanFraction neg [0] rest
    else if c.isDigit then scanFraction neg (scanDigits (c :: rest)).1 (scanDigits (c :: rest)).2
    else none

/-- A number literal at the start of the text, by the grammar of JSON. -/
def scanNumber (cs : List Char) : Option (NumberLiteral × List Char) :=
  match cs with
  | [] => none
  | c :: rest => if c = '-' then scanInteger true rest else scanInteger false (c :: rest)

/-- The double nearest to `± a / b`, ties to even: the quotient is taken with
more bits than a double holds, and a last bit tells whether a remainder was
left. -/
def roundRatio (neg : Bool) (a b : Nat) : Float64 :=
  let t := 56 + log2 b
  let q := a * 2 ^ t / b
  let sticky := if a * 2 ^ t % b = 0 then 0 else 1
  roundDyadic neg (2 * q + sticky) (-((t + 1 : Nat) : Int))

/-- The double nearest to the value of a number literal (`strconv.ParseFloat`). -/
def NumberLiteral.toFloat64 (l : NumberLiteral) : Float64 :=
  if 0 ≤ l.scale then roundDyadic l.neg (l.digits * 10 ^ l.scale.toNat) 0
  else roundRatio l.neg l.digits (10 ^ (-l.scale).toNat)

/-- The decoder's `Decode` at a string, a number or a literal name: the token
and the text after it; `none` is a syntax error or a number out of range. -/
def decodeValue (cs : List Char) : Option (Token × List Char) :=
  match cs with
  | [] => none
  | c :: rest =>
    if c = '"' then (scanString rest).map (fun r => (.string (String.mk r.1), r.2))
    else if c = 't' then (dropLiteral "true".data cs).map (fun r => (.bool true, r))
    else if c = 'f' then (dropLiteral "false".data cs).map (fun r => (.bool false, r))
    else if c = 'n' then (dropLiteral "null".data cs).map (fun r => (.nil, r))
    else
      match scanNumber cs with
      | none => none
      | some (l, r) => if l.toFloat64.isFinite then some (.float64 l.toFloat64, r) else none

/-- The items after the decoder's `tokenError` at the character `c`. `sep`
says that the call has passed a comma or a colon, in which case `More` answered
`true` before it; otherwise `More` answers by the character. The decoder does
not move on, so a closing delimiter out of place answers every later call the
same way; one item per enclosing aggregate is as many as a build can read. -/
def tokenError (c : Char) (depth : Nat) (sep : Bool) : List Item :=
  if sep then [.err ("invalid character " ++ c.toString) true]
  else if c = ']' ∨ c = '}' then
    List.replicate (depth + 1) (.err ("invalid character " ++ c.toString) false)
  else [.err ("invalid character " ++ c.toString) true]

/-- The items the decoder hands out on the text `cs`, in token state `state`
with the saved states `stack`; `sep` says that a comma or colon has been passed
since the last item. Every step takes a character, and `fuel` bounds the steps.
After a syntax error in a value nothing more is read. -/
def lex : Nat → TokenState → List TokenState → Bool → List Char → List Item
  | 0, _, _, _, _ => []
  | fuel + 1, state, stack, sep, cs =>
    match skipSpace cs with
    | [] => if sep then [.err "EOF" true] else []
    | c :: rest =>
      if c = '[' then
        if state.valueAllowed then
          .tok (.Delim '[') :: lex fuel .ArrayStart (state :: stack) false rest
        else tokenError c stack.length sep
      else if c = ']' then
        if state = .ArrayStart ∨ state = .ArrayComma then
          .tok (.Delim ']') :: lex fuel (stack.headD .TopValue).valueEnd stack.tail false rest
        else tokenError c stack.length sep
      else if c = '{' then
        if state.valueAllowed then
          .tok (.Delim '{') :: lex fuel .ObjectStart (state :: stack) false rest
        else tokenError c stack.length sep
      else if c = '}' then
        if state = .ObjectStart ∨ state = .ObjectComma then
          .tok (.Delim '}') :: lex fuel (stack.headD .TopValue).valueEnd stack.tail false rest
        else tokenError c stack.length sep
      else if c = ':' then
        if state = .ObjectColon then lex fuel .ObjectValue stack true rest
        else tokenError c stack.length sep
      else if c = ',' then
        if state = .ArrayComma then lex fuel .ArrayValue stack true rest
        else if state = .ObjectComma then lex fuel .ObjectKey stack true rest
        else tokenError c stack.length sep
      else if c = '"' ∧ (state = .ObjectStart ∨ state = .ObjectKey) then
        match scanString rest with
        | none => [.err "invalid string" true]
        | some (s, rest) => .tok (.string (String.mk s)) :: lex fuel .ObjectColon stack false rest
      else if state.valueAllowed then
        match decodeValue (c :: rest) with
        | none => [.err "invalid value" true]
        | some (t, rest) => .tok t :: lex fuel state.valueEnd stack false rest
      else tokenError c stack.length sep

/-- The decoder `json.NewDecoder` makes on the text `x`. -/
def NewDecoder (x : String) : Decoder :=
  lex (x.length + 1) .TopValue [] false x.data

/-! ## Round trip -/

/-- What the simple printer leaves in an empty sink for the tree `t`. -/
def Print (p : Platform) (t : Object) : String :=
  (Accept t (jsonSimplePrinter p (depth t)) "").2

mutual
/-- Recursive equality of trees: same kind, same boolean or string, same
canonical numeric value, same elements in the same order, same keys in the same
order with equal values. -/
def Equal (p : Platform) : Object → Object → Bool
  | .null, .null => true
  | .bool a, .bool b => a == b
  | .string a, .string b => a == b
  | .number a, .number b => decide (Number p a = Number p b)
  | .array as, .array bs => EqualValues p as bs
  | .map as _, .map bs _ => EqualEntries p as bs
  | _, _ => false
/-- Element-wise equality of arrays. -/
def EqualValues (p : Platform) : List Object → List Object → Bool
  | [], [] => true
  | a :: as, b :: bs => Equal p a b && EqualValues p as bs
  | _, _ => false
/-- Entry-wise equality of maps. -/
def EqualEntries (p : Platform) : List (String × Object) → List (String × Object) → Bool
  | [], [] => true
  | (k, a) :: as, (l, b) :: bs => (k == l) && Equal p a b && EqualEntries p as bs
  | _, _ => false
end

/-- A character the printer can write between quotes as it is: no double
quote, no backslash, no control character. -/
def plainChar (c : Char) : Bool :=
  c ≠ '"' && c ≠ '\\' && decide (32 ≤ c.toNat)

/-- The `%v` text of the double `f` is a number literal that reads back as
`f`. -/
def floatRereads (p : Platform) (f : Float64) : Bool :=
  match scanNumber (p.formatFloat f).data with
  | some (l, []) => decide (l.toFloat64 = f) && f.isFinite
  | _ => false

mutual
/-- The tree prints to a text that reads back: every string and key is made of
plain characters, and every number that prints as a double (not as an integer)
has a `%v` text that reads back as that double. -/
def Printable (p : Platform) : Object → Bool
  | .null => true
  | .bool _ => true
  | .string value => value.data.all plainChar
  | .number value =>
    match Number p value with
    | .int64 _ => true
    | .float64 f => floatRereads p f
  | .array values => PrintableValues p values
  | .map valuelist _ => PrintableEntries p valuelist
/-- All elements are printable. -/
def PrintableValues (p : Platform) : List Object → Bool
  | [] => true
  | v :: rest => Printable p v && PrintableValues p rest
/-- All keys are plain and all entry values printable. -/
def PrintableEntries (p : Platform) : List (String × Object) → Bool
  | [] => true
  | (k, v) :: next => k.data.all plainChar && Printable p v && PrintableEntries p next
end

mutual
/-- The tree as it is read back from its printed text: a number that prints as
the integer `i` comes back as `float64(i)`, everything else as it is. -/
def reread (p : Platform) : Object → Object
  | .null => .null
  | .bool value => .bool value
  | .string value => .string value
  | .number value =>
    match Number p value with
    | .int64 i => .number (float64 i)
    | .float64 f => .number f
  | .array values => .array (rereadValues p values)
  | .map valuelist valuesmap => .map (rereadEntries p valuelist) valuesmap
/-- The elements as read back. -/
def rereadValues (p : Platform) : List Object → List Object
  | [] => []
  | v :: rest => reread p v :: rereadValues p rest
/-- The entries as read back. -/
def rereadEntries (p : Platform) : List (String × Object) → List (String × Object)
  | [] => []
  | (k, v) :: next => (k, reread p v) :: rereadEntries p next
end

/-- The text ends here or goes on with a comma or a closing delimiter. -/
def Closes : List Char → Bool
  | [] => true
  | c :: _ => c = ',' || c = ']' || c = '}'

/-- The tree of `{"a":5.5,"b":[-0.0,"x"]}`. -/
def exampleNumbers : Object :=
  .map [("a", .number fiveAndHalf), ("b", .array [.number ⟨true, 0, 0⟩, .string "x"])]
    [("a", 0), ("b", 1)]

/-- The first character of a number literal: a minus sign or a digit. -/
def numberStart (c : Char) : Bool :=
  c = '-' || c.isDigit

/-! ## Accessors -/

/-- The cast methods of the embedded `jsonObjectImpl`, which every
implementation inherits unless it has its own: each returns `nil`. -/
def jsonObjectImpl.ToNull (_ : Object) : Option Object := none
def jsonObjectImpl.ToBool (_ : Object) : Option Object := none
def jsonObjectImpl.ToString (_ : Object) : Option Object := none
def jsonObjectImpl.ToNumber (_ : Object) : Option Object := none
def jsonObjectImpl.ToArray (_ : Object) : Option Object := none
def jsonObjectImpl.ToMap (_ : Object) : Option Object := none

/-- The method `ToNull`: `jsonNullImpl` returns the receiver, the others
inherit `jsonObjectImpl.ToNull`. `none` is the nil interface. -/
def Object.ToNull (o : Object) : Option Object :=
  match o with
  | .null => some o
  | _ => jsonObjectImpl.ToNull o

/-- The method `ToBool`: `jsonBoolImpl` returns the receiver. -/
def Object.ToBool (o : Object) : Option Object :=
  match o with
  | .bool _ => some o
  | _ => jsonObjectImpl.ToBool o

/-- The method `ToString`: `jsonStringImpl` returns the receiver. -/
def Object.ToString (o : Object) : Option Object :=
  match o with
  | .string _ => some o
  | _ => jsonObjectImpl.ToString o

/-- The method `ToNumber`: `jsonNumberImpl` returns the receiver. -/
def Object.ToNumber (o : Object) : Option Object :=
  match o with
  | .number _ => some o
  | _ => jsonObjectImpl.ToNumber o

/-- The method `ToArray`: `jsonArrayImpl` returns the receiver. -/
def Object.ToArray (o : Object) : Option Object :=
  match o with
  | .array _ => some o
  | _ => jsonObjectImpl.ToArray o

/-- The method `ToMap`: `jsonMapImpl` returns the receiver. -/
def Object.ToMap (o : Object) : Option Object :=
  match o with
  | .map _ _ => some o
  | _ => jsonObjectImpl.ToMap o

/-- The six casts of a value, in the order of the interface `Object`. -/
def casts (o : Object) : List (Option Object) :=
  [o.ToNull, o.ToBool, o.ToString, o.ToNumber, o.ToArray, o.ToMap]

/-- The method `jsonMapImpl.Map`: the index is asked for the list element of
`key`, and the value of the pair in that element is returned; `none` is `nil`. -/
def jsonMapImpl.Map (valuelist : List (String × Object)) (valuesmap : List (String × Nat))
    (key : String) : Option Object :=
  match mapIndex valuesmap key with
  | none => none
  | some v => (valuelist.get? v).map Prod.snd

/-- The method `jsonMapImpl.Len`: `len(m.valuesmap)`. -/
def jsonMapImpl.Len (_ : List (String × Object)) (valuesmap : List (String × Nat)) : Int :=
  valuesmap.length

/-- The method `jsonArrayImpl.Len`: `len(a.values)`. -/
def jsonArrayImpl.Len (values : List Object) : Int :=
  values.length

/-- A run-time panic of the Go program. -/
inductive Panic where
  | indexOutOfRange (index : Int) (length : Nat) : Panic
deriving DecidableEq, Repr

/-- The method `jsonArrayImpl.Index`: `nil` when `index >= len(a.values)`,
the indexing expression `a.values[index]` otherwise, which panics when the
index is negative. -/
def jsonArrayImpl.Index (values : List Object) (index : Int) : Except Panic (Option Object) :=
  if index ≥ values.length then .ok none
  else if index < 0 then .error (.indexOutOfRange index values.length)
  else .ok (values.get? index.toNat)

/-- The number of `VisitMapItem` calls in a list of calls. -/
def countMapItems : List Call → Nat
  | [] => 0
  | .VisitMapItem _ _ _ :: rest => countMapItems rest + 1
  | _ :: rest => countMapItems rest

/-! ## The results of `readObject` as Go values -/

/-- A value of the interface type `Object` in a caller's hands: the nil
interface, a tree, or a nil pointer of a concrete type held in the interface.
The last one compares unequal to `nil`; it is what the conversion of a nil
`*jsonMapImpl` or `*jsonArrayImpl` to `Object` gives. -/
inductive Interface where
  | nil : Interface
  | nilPointer (type : Nat) : Interface
  | object (o : Object) : Interface
deriving Repr

/-- The comparison `v == nil` of an interface value. -/
def Interface.isNil : Interface → Bool
  | .nil => true
  | _ => false

/-- The two results `(Object, error)` of a `return readMap(d)` or
`return readArray(d)` statement of `readObject`: the pointer result, nil
beside an error, is converted to the interface `Object`. -/
def asInterface (type : Nat) : Except Error Object → Interface × Option Error
  | .ok o => (.object o, none)
  | .error err => (.nilPointer type, some err)

/-- The function `readObject` with its two results as the caller receives
them (the builder itself only ever looks at the error, and at the value
beside a nil error: `LoadObject`). -/
def readObjectResults (d : Decoder) : Option ((Interface × Option Error) × Decoder) :=
  match d.Token with
  | (.error err, d) => some ((.nil, some err), d)
  | (.ok t, d) =>
    match t with
    | .Delim c =>
      if c = '{' then
        (readMap LoadObject (d.length + 1) d).map (fun r => (asInterface TYPE_MAP r.1, r.2))
      else if c = '[' then
        (readArray LoadObject (d.length + 1) d).map (fun r => (asInterface TYPE_ARRAY r.1, r.2))
      else some ((.nil, some (.errorf ("Unexpect delim: " ++ c.toString))), d)
    | .string value => some ((.object (.string value), none), d)
    | .bool value => some ((.object (.bool value), none), d)
    | .float64 value => some ((.object (.number value), none), d)
    | .nil => some ((.object .null, none), d)
    | .Number _ => some ((.nil, some (.errorf "Unexpect token")), d)

/-- The items of `{"a":1,"a":2}`. -/
def repeatedKeyStream : Decoder :=
  [.tok (.Delim '{'), .tok (.string "a"), .tok (.float64 one), .tok (.string "a"),
    .tok (.float64 two), .tok (.Delim '}')]

/-! ## The text of a double

`fmt`'s `%v` of a `float64` is `strconv.FormatFloat(f, 'g', -1, 64)`: the
fewest decimal digits that `strconv.ParseFloat` reads back as the same double,
laid out by `%e` when the decimal exponent is below -4 or at least 6 and by
`%f` otherwise. Both functions belong to the standard library; this is a model
of them. -/

/-- The digits without their trailing zeros. -/
def stripZeros (ds : List Nat) : List Nat :=
  (ds.reverse.dropWhile (fun d => decide (d = 0))).reverse

/-- The layout `%e` of strconv's `fmtE` for the digits `ds` with the decimal
point in front of digit `dp`: `d.ddde±dd`, the exponent with at least two
digits. -/
def fmtE (neg : Bool) (ds : List Nat) (dp : Int) : List Char :=
  let exp : Int := if ds = [] then 0 else dp - 1
  (if neg then ['-'] else [])
    ++ digitChar (ds.headD 0)
      :: ((if 1 < ds.length then '.' :: ds.tail.map digitChar else [])
        ++ 'e' :: (if exp < 0 then '-' else '+')
          :: (if exp.natAbs < 10 then ['0', digitChar exp.natAbs]
              else (decimal (exp.natAbs + 1) exp.natAbs).map digitChar))

/-- The layout `%f` of strconv's `fmtF` with `max (nd - dp) 0` digits after
the point: the integer part padded with zeros, or `0`, then the fraction. -/
def fmtF (neg : Bool) (ds : List Nat) (dp : Int) : List Char :=
  let prec : Nat := ((ds.length : Int) - dp).toNat
  (if neg then ['-'] else [])
    ++ (if 0 < dp then
          ((ds.take dp.toNat) ++ List.replicate (dp.toNat - ds.length) 0).map digitChar
        else ['0'])
    ++ (if 0 < prec then
          '.' :: (List.range prec).map (fun i =>
            if 0 ≤ dp + (i : Int) then digitChar (ds.getD (dp + (i : Int)).toNat 0)
            else '0')
        else [])

/-- The layout `%g` at the shortest precision: `%e` when the exponent is below
-4 or at least 6 (the `eprec` of the shortest conversion), `%f` otherwise. -/
def fmtG (neg : Bool) (ds : List Nat) (dp : Int) : List Char :=
  if dp - 1 < -4 ∨ 6 ≤ dp - 1 then fmtE neg ds dp else fmtF neg ds dp

/-- The text is a number literal that `ParseFloat` reads as the double `f`. -/
def readsBack (text : List Char) (f : Float64) : Bool :=
  match scanNumber text with
  | some (l, []) => decide (l.toFloat64 = f)
  | _ => false

/-- How many zeros follow the decimal point of `num / den < 1` before its
first digit, counted in at most `fuel` steps. -/
def leadingZeros : Nat → Nat → Nat → Nat
  | 0, _, _ => 0
  | fuel + 1, num, den => if den ≤ num * 10 then 0 else leadingZeros fuel (num * 10) den + 1

/-- The position `dp` of the decimal point of `num / den > 0`:
`10 ^ (dp - 1) ≤ num / den < 10 ^ dp`. -/
def decimalPoint (num den : Nat) : Int :=
  if den ≤ num then ((decimal (num / den + 1) (num / den)).length : Int)
  else -((leadingZeros 400 num den : Nat) : Int)

/-- The digits and decimal point of the natural number `c` taken at the scale
`10 ^ s`, trailing zeros dropped. -/
def digitsAt (c : Nat) (s : Int) : List Nat × Int :=
  (stripZeros (decimal (c + 1) c), s + ((decimal (c + 1) c).length : Int))

/-- The choice of strconv's `roundShortest` between the decimal below the
exact value and the one above it: the one whose text reads back as `f`; if
both do, the nearer one (`below`, `above` say on which side of the middle the
exact value lies), the even one at a tie. -/
def pick (f : Float64) (down up : List Nat × Int) (below above even : Bool) :
    Option (List Nat × Int) :=
  let okdown := readsBack (fmtG f.sign down.1 down.2) f
  let okup := readsBack (fmtG f.sign up.1 up.2) f
  if okdown && okup then
    if below then some down
    else if above then some up
    else if even then some down else some up
  else if okdown then some down
  else if okup then some up
  else none

/-- The `n`-digit decimal the shortest conversion settles on for the finite
non-zero double `f`, if there is one, among the two `n`-digit decimals around
the exact value `num / den`. -/
def candidate (f : Float64) (n : Nat) : Option (List Nat × Int) :=
  let num : Nat := if 0 ≤ f.exponent then f.mantissa * 2 ^ f.exponent.toNat else f.mantissa
  let den : Nat := if 0 ≤ f.exponent then 1 else 2 ^ (-f.exponent).toNat
  let s : Int := decimalPoint num den - n
  let N : Nat := if 0 ≤ s then num else num * 10 ^ (-s).toNat
  let D : Nat := if 0 ≤ s then den * 10 ^ s.toNat else den
  pick f (digitsAt (N / D) s) (digitsAt (N / D + 1) s)
    (decide (2 * (N % D) < D)) (decide (D < 2 * (N % D))) (decide ((N / D) % 2 = 0))

/-- The first digit count from `n` on, among `fuel` of them, that has a
candidate. -/
def shortestFrom (f : Float64) : Nat → Nat → Option (List Nat × Int)
  | 0, _ => none
  | fuel + 1, n => (candidate f n).orElse (fun _ => shortestFrom f fuel (n + 1))

/-- The exact value of a finite double as a number literal: an integer, times
a negative power of ten if the double has binary places. -/
def exactText (f : Float64) : List Char :=
  if 0 ≤ f.exponent then
    (formatInt (if f.sign then -((f.mantissa * 2 ^ f.exponent.toNat : Nat) : Int)
      else ((f.mantissa * 2 ^ f.exponent.toNat : Nat) : Int))).data
  else
    (formatInt (if f.sign then -((f.mantissa * 5 ^ (-f.exponent).toNat : Nat) : Int)
      else ((f.mantissa * 5 ^ (-f.exponent).toNat : Nat) : Int))).data
      ++ 'e' :: '-' :: (formatNat (-f.exponent).toNat).data

/-- The text `%v` gives for a `float64`. For a finite non-zero double the
shortest conversion looks for the fewest digits, from one to seventeen, that
read back as the double. Seventeen digits always do for a binary64; the exact
value in the last line stands behind that bound, so that the text reads back
whatever the search does. -/
def formatV (f : Float64) : String :=
  if f.isNaN then "NaN"
  else if !f.isFinite then (if f.sign then "-Inf" else "+Inf")
  else if f.mantissa = 0 then String.mk (fmtG f.sign [] 0)
  else
    match shortestFrom f 17 1 with
    | some c => String.mk (fmtG f.sign c.1 c.2)
    | none => String.mk (exactText f)

/-- A Go implementation with the conversion `convert` where the language
leaves `int64(x)` open, and with `fmt`'s `%v`. -/
def platform (convert : Float64 → Int) : Platform where
  convert := convert
  formatFloat := formatV

/-- The item is not the token of a NaN or an infinite double. -/
def Item.finite : Item → Bool
  | .tok (.float64 f) => f.isFinite
  | _ => true

mutual
/-- Every number in the tree is finite. -/
def Finite : Object → Bool
  | .null => true
  | .bool _ => true
  | .string _ => true
  | .number value => value.isFinite
  | .array values => FiniteValues values
  | .map valuelist _ => FiniteEntries valuelist
/-- Every number in the elements is finite. -/
def FiniteValues : List Object → Bool
  | [] => true
  | v :: rest => Finite v && FiniteValues rest
/-- Every number in the entry values is finite. -/
def FiniteEntries : List (String × Object) → Bool
  | [] => true
  | (_, v) :: next => Finite v && FiniteEntries next
end

mutual
/-- Every string and every key in the tree is made of plain characters: no
double quote, no backslash, no control character. -/
def PlainStrings : Object → Bool
  | .null => true
  | .bool _ => true
  | .string value => value.data.all plainChar
  | .number _ => true
  | .array values => PlainValues values
  | .map valuelist _ => PlainEntries valuelist
/-- All strings in the elements are plain. -/
def PlainValues : List Object → Bool
  | [] => true
  | v :: rest => PlainStrings v && PlainValues rest
/-- All keys and all strings in the entry values are plain. -/
def PlainEntries : List (String × Object) → Bool
  | [] => true
  | (k, v) :: next => k.data.all plainChar && PlainStrings v && PlainEntries next
end


/-! # Theorems -/

/-! ## Traversal -/

theorem replay_append {σ : Type} (visitor : Visitor σ) (a b : List Call) (s : σ) :
    replay visitor (a ++ b) s =
      ((replay visitor a s).1 ++ (replay visitor b (replay visitor a s).2).1,
        (replay visitor b (replay visitor a s).2).2) := by
  induction a generalizing s with
  | nil => simp [replay]
  | cons c cs ih => simp [replay, ih]

theorem replay_codes_length {σ : Type} (visitor : Visitor σ) (cs : List Call) (s : σ) :
    (replay visitor cs s).1.length = cs.length := by
  induction cs generalizing s with
  | nil => simp [replay]
  | cons c cs ih => simp [replay, ih]

theorem mapItemCalls_length (valuelist : List (String × Object)) (start : Nat) :
    (mapItemCalls valuelist start).length = valuelist.length := by
  induction valuelist generalizing start with
  | nil => simp [mapItemCalls]
  | cons e next ih => simp [mapItemCalls, ih]

theorem arrayItemCalls_length (values : List Object) (start : Nat) :
    (arrayItemCalls values start).length = values.length := by
  induction values generalizing start with
  | nil => simp [arrayItemCalls]
  | cons e next ih => simp [arrayItemCalls, ih]

theorem mapAcceptLoop_cons {σ : Type} (item : Int → String → Object → σ → Int × σ)
    (leave : σ → Int × σ) (e : String × Object) (next : List (String × Object))
    (index : Int) (s : σ) :
    mapAcceptLoop item leave (e :: next) index s =
      if 0 ≠ (item (index + 1) e.1 e.2 s).1 then item (index + 1) e.1 e.2 s
      else mapAcceptLoop item leave next (index + 1) (item (index + 1) e.1 e.2 s).2 := by
  simp only [mapAcceptLoop]

theorem arrayAcceptLoop_cons {σ : Type} (item : Int → Object → σ → Int × σ)
    (leave : σ → Int × σ) (v : Object) (rest : List Object) (index : Int) (s : σ) :
    arrayAcceptLoop item leave (v :: rest) index s =
      if 0 ≠ (item index v s).1 then item index v s
      else arrayAcceptLoop item leave rest (index + 1) (item index v s).2 := by
  simp only [arrayAcceptLoop]

theorem recording_VisitMapItem {σ : Type} (visitor : Visitor σ) (i : Int) (k : String)
    (v : Object) (s : σ) (log : List Call) :
    (recording visitor).VisitMapItem i k v (s, log) =
      ((visitor.VisitMapItem i k v s).1, (visitor.VisitMapItem i k v s).2,
        log ++ [.VisitMapItem i k v]) := rfl

theorem recording_VisitArrayItem {σ : Type} (visitor : Visitor σ) (i : Int)
    (v : Object) (s : σ) (log : List Call) :
    (recording visitor).VisitArrayItem i v (s, log) =
      ((visitor.VisitArrayItem i v s).1, (visitor.VisitArrayItem i v s).2,
        log ++ [.VisitArrayItem i v]) := rfl

/-- The map loop under a recording visitor, when the first `n` item callbacks
return zero and the next returns `r ≠ 0`: it stops there. -/
theorem mapAcceptLoop_stop {σ : Type} (visitor : Visitor σ) (leave : σ × List Call → Int × σ × List Call)
    (valuelist : List (String × Object)) (start : Nat) (n : Nat) (r : Int) (s : σ)
    (log : List Call) (hn : n < valuelist.length) (hr : r ≠ 0)
    (h : (replay visitor ((mapItemCalls valuelist start).take (n + 1)) s).1
      = List.replicate n 0 ++ [r]) :
    mapAcceptLoop (recording visitor).VisitMapItem leave valuelist ((start : Int) - 1) (s, log)
      = (r, (replay visitor ((mapItemCalls valuelist start).take (n + 1)) s).2,
          log ++ (mapItemCalls valuelist start).take (n + 1)) := by
  induction valuelist generalizing start n s log with
  | nil => simp at hn
  | cons e next ih =>
    rw [mapAcceptLoop_cons, recording_VisitMapItem, sub_add_cancel]
    cases n with
    | zero =>
      simp only [mapItemCalls, List.take_succ_cons, List.take_zero, replay, Call.run,
        List.replicate_zero, List.nil_append, List.cons.injEq, and_true] at h
      simp [mapItemCalls, replay, h, hr.symm, Call.run]
    | succ n =>
      simp only [mapItemCalls, List.take_succ_cons, replay, List.replicate_succ,
        List.cons_append, List.cons.injEq, Call.run] at h
      have h2 := ih (start + 1) n ((visitor.VisitMapItem (start : Int) e.1 e.2 s).2)
        (log ++ [Call.VisitMapItem start e.1 e.2]) (by simpa using hn) h.2
      have e1 : (((start + 1 : Nat) : Int) - 1) = (start : Int) := by push_cast; ring
      rw [e1] at h2
      simp only [h.1, ne_eq, not_true_eq_false, ↓reduceIte, mapItemCalls, List.take_succ_cons,
        replay, Call.run]
      rw [h2]
      simp

/-- The map loop under a recording visitor, when every item callback returns
zero: all items are visited and the code after the loop runs. -/
theorem mapAcceptLoop_all {σ : Type} (visitor : Visitor σ) (leave : σ × List Call → Int × σ × List Call)
    (valuelist : List (String × Object)) (start : Nat) (s : σ) (log : List Call)
    (h : (replay visitor (mapItemCalls valuelist start) s).1
      = List.replicate valuelist.length 0) :
    mapAcceptLoop (recording visitor).VisitMapItem leave valuelist ((start : Int) - 1) (s, log)
      = leave ((replay visitor (mapItemCalls valuelist start) s).2,
          log ++ mapItemCalls valuelist start) := by
  induction valuelist generalizing start s log with
  | nil => simp [mapAcceptLoop, mapItemCalls, replay]
  | cons e next ih =>
    rw [mapAcceptLoop_cons, recording_VisitMapItem, sub_add_cancel]
    simp only [mapItemCalls, replay, List.length_cons, List.replicate_succ,
      List.cons.injEq, Call.run] at h
    have h2 := ih (start + 1) ((visitor.VisitMapItem (start : Int) e.1 e.2 s).2)
      (log ++ [Call.VisitMapItem start e.1 e.2]) h.2
    have e1 : (((start + 1 : Nat) : Int) - 1) = (start : Int) := by push_cast; ring
    rw [e1] at h2
    simp only [h.1, ne_eq, not_true_eq_false, ↓reduceIte, mapItemCalls, replay, Call.run]
    rw [h2]
    simp

/-- The array loop under a recording visitor, when the first `n` item
callbacks return zero and the next returns `r ≠ 0`: it stops there. -/
theorem arrayAcceptLoop_stop {σ : Type} (visitor : Visitor σ) (leave : σ × List Call → Int × σ × List Call)
    (values : List Object) (start : Nat) (n : Nat) (r : Int) (s : σ)
    (log : List Call) (hn : n < values.length) (hr : r ≠ 0)
    (h : (replay visitor ((arrayItemCalls values start).take (n + 1)) s).1
      = List.replicate n 0 ++ [r]) :
    arrayAcceptLoop (recording visitor).VisitArrayItem leave values (start : Int) (s, log)
      = (r, (replay visitor ((arrayItemCalls values start).take (n + 1)) s).2,
          log ++ (arrayItemCalls values start).take (n + 1)) := by
  induction values generalizing start n s log with
  | nil => simp at hn
  | cons e next ih =>
    rw [arrayAcceptLoop_cons, recording_VisitArrayItem]
    cases n with
    | zero =>
      simp only [arrayItemCalls, List.take_succ_cons, List.take_zero, replay, Call.run,
        List.replicate_zero, List.nil_append, List.cons.injEq, and_true] at h
      simp [arrayItemCalls, replay, h, hr.symm, Call.run]
    | succ n =>
      simp only [arrayItemCalls, List.take_succ_cons, replay, List.replicate_succ,
        List.cons_append, List.cons.injEq, Call.run] at h
      have h2 := ih (start + 1) n ((visitor.VisitArrayItem (start : Int) e s).2)
        (log ++ [Call.VisitArrayItem start e]) (by simpa using hn) h.2
      have e1 : (((start + 1 : Nat) : Int)) = (start : Int) + 1 := by push_cast; ring
      rw [e1] at h2
      simp only [h.1, ne_eq, not_true_eq_false, ↓reduceIte, arrayItemCalls, List.take_succ_cons,
        replay, Call.run]
      rw [h2]
      simp

/-- The array loop under a recording visitor, when every item callback returns
zero: all items are visited and the code after the loop runs. -/
theorem arrayAcceptLoop_all {σ : Type} (visitor : Visitor σ) (leave : σ × List Call → Int × σ × List Call)
    (values : List Object) (start : Nat) (s : σ) (log : List Call)
    (h : (replay visitor (arrayItemCalls values start) s).1
      = List.replicate values.length 0) :
    arrayAcceptLoop (recording visitor).VisitArrayItem leave values (start : Int) (s, log)
      = leave ((replay visitor (arrayItemCalls values start) s).2,
          log ++ arrayItemCalls values start) := by
  induction values generalizing start s log with
  | nil => simp [arrayAcceptLoop, arrayItemCalls, replay]
  | cons e next ih =>
    rw [arrayAcceptLoop_cons, recording_VisitArrayItem]
    simp only [arrayItemCalls, replay, List.length_cons, List.replicate_succ,
      List.cons.injEq, Call.run] at h
    have h2 := ih (start + 1) ((visitor.VisitArrayItem (start : Int) e s).2)
      (log ++ [Call.VisitArrayItem start e]) h.2
    have e1 : (((start + 1 : Nat) : Int)) = (start : Int) + 1 := by push_cast; ring
    rw [e1] at h2
    simp only [h.1, ne_eq, not_true_eq_false, ↓reduceIte, arrayItemCalls, replay, Call.run]
    rw [h2]
    simp

/-- C2 (short-circuit). For a map or array node and any visitor, observed
through its call log: if `EnterMap`/`EnterArray` returns `r ≠ 0`, `Accept`
returns `r` and the only call made is that `Enter*`. If `Enter*` and the item
callbacks for children `0..i-1` return zero and the one for child `i` returns
`r ≠ 0`, `Accept` returns `r` and the calls made are exactly `Enter*` followed by
the item callbacks for children `0..i` in order; `Leave*` is not called. -/
theorem C2_short_circuit {σ : Type} (visitor : Visitor σ) (s : σ) :
    (∀ valuelist valuesmap r, r ≠ 0 →
      (visitor.EnterMap (.map valuelist valuesmap) s).1 = r →
      Accept (.map valuelist valuesmap) (recording visitor) (s, [])
        = (r, (visitor.EnterMap (.map valuelist valuesmap) s).2,
            [.EnterMap (.map valuelist valuesmap)]))
    ∧ (∀ valuelist valuesmap i r, i < valuelist.length → r ≠ 0 →
      (replay visitor (.EnterMap (.map valuelist valuesmap) ::
          (mapItemCalls valuelist 0).take (i + 1)) s).1 = List.replicate (i + 1) 0 ++ [r] →
      Accept (.map valuelist valuesmap) (recording visitor) (s, [])
        = (r, (replay visitor (.EnterMap (.map valuelist valuesmap) ::
              (mapItemCalls valuelist 0).take (i + 1)) s).2,
            .EnterMap (.map valuelist valuesmap) :: (mapItemCalls valuelist 0).take (i + 1)))
    ∧ (∀ values r, r ≠ 0 →
      (visitor.EnterArray (.array values) s).1 = r →
      Accept (.array values) (recording visitor) (s, [])
        = (r, (visitor.EnterArray (.array values) s).2, [.EnterArray (.array values)]))
    ∧ (∀ values i r, i < values.length → r ≠ 0 →
      (replay visitor (.EnterArray (.array values) ::
          (arrayItemCalls values 0).take (i + 1)) s).1 = List.replicate (i + 1) 0 ++ [r] →
      Accept (.array values) (recording visitor) (s, [])
        = (r, (replay visitor (.EnterArray (.array values) ::
              (arrayItemCalls values 0).take (i + 1)) s).2,
            .EnterArray (.array values) :: (arrayItemCalls values 0).take (i + 1))) := by
  refine ⟨?_, ?_, ?_, ?_⟩
  · intro valuelist valuesmap r hr h
    simp [Accept, recording, h, hr.symm]
  · intro valuelist valuesmap i r hi hr h
    simp only [replay, List.replicate_succ, List.cons_append, List.cons.injEq, Call.run] at h
    have h2 := mapAcceptLoop_stop visitor ((recording visitor).LeaveMap (.map valuelist valuesmap))
      valuelist 0 i r (visitor.EnterMap (.map valuelist valuesmap) s).2
      [.EnterMap (.map valuelist valuesmap)] hi hr h.2
    simp only [Nat.cast_zero, zero_sub] at h2
    simp only [Accept, replay, Call.run]
    change (if 0 ≠ (visitor.EnterMap (.map valuelist valuesmap) s).1 then _ else _) = _
    rw [if_neg (by simp [h.1])]
    exact h2
  · intro values r hr h
    simp [Accept, recording, h, hr.symm]
  · intro values i r hi hr h
    simp only [replay, List.replicate_succ, List.cons_append, List.cons.injEq, Call.run] at h
    have h2 := arrayAcceptLoop_stop visitor ((recording visitor).LeaveArray (.array values))
      values 0 i r (visitor.EnterArray (.array values) s).2
      [.EnterArray (.array values)] hi hr h.2
    simp only [Nat.cast_zero] at h2
    simp only [Accept, replay, Call.run]
    change (if 0 ≠ (visitor.EnterArray (.array values) s).1 then _ else _) = _
    rw [if_neg (by simp [h.1])]
    exact h2

/-- C2 at concrete inputs: a visitor whose `Enter*` returns 7, and one whose
second item callback returns 7, on a three-entry map and a three-element array. -/
theorem C2_short_circuit_witness :
    Accept exampleMap (recording (abortAt 0 7)) (0, []) = (7, 1, [.EnterMap exampleMap])
    ∧ Accept exampleMap (recording (abortAt 2 7)) (0, [])
      = (7, 3, [.EnterMap exampleMap, .VisitMapItem 0 "a" .null, .VisitMapItem 1 "b" (.bool true)])
    ∧ Accept exampleArray (recording (abortAt 0 7)) (0, []) = (7, 1, [.EnterArray exampleArray])
    ∧ Accept exampleArray (recording (abortAt 2 7)) (0, [])
      = (7, 3, [.EnterArray exampleArray, .VisitArrayItem 0 .null, .VisitArrayItem 1 (.bool true)]) :=
  ⟨(C2_short_circuit (abortAt 0 7) 0).1 _ _ 7 (by decide) rfl,
   (C2_short_circuit (abortAt 2 7) 0).2.1 _ _ 1 7 (by decide) (by decide) rfl,
   (C2_short_circuit (abortAt 0 7) 0).2.2.1 _ 7 (by decide) rfl,
   (C2_short_circuit (abortAt 2 7) 0).2.2.2 _ 1 7 (by decide) (by decide) rfl⟩

theorem mapItemCalls_getElem_opt (valuelist : List (String × Object)) (start i : Nat) :
    (mapItemCalls valuelist start)[i]? =
      valuelist[i]?.map (fun e => Call.VisitMapItem ((start + i : Nat) : Int) e.1 e.2) := by
  induction valuelist generalizing start i with
  | nil => simp [mapItemCalls]
  | cons e next ih =>
    cases i with
    | zero => simp [mapItemCalls]
    | succ i =>
      simp only [mapItemCalls, List.getElem?_cons_succ, ih]
      have : start + 1 + i = start + (i + 1) := by omega
      rw [this]

theorem arrayItemCalls_getElem_opt (values : List Object) (start i : Nat) :
    (arrayItemCalls values start)[i]? =
      values[i]?.map (fun v => Call.VisitArrayItem ((start + i : Nat) : Int) v) := by
  induction values generalizing start i with
  | nil => simp [arrayItemCalls]
  | cons e next ih =>
    cases i with
    | zero => simp [arrayItemCalls]
    | succ i =>
      simp only [arrayItemCalls, List.getElem?_cons_succ, ih]
      have : start + 1 + i = start + (i + 1) := by omega
      rw [this]

/-- C3 (complete traversal). For a map or array node with `n` children and a
visitor whose `Enter*` and `n` item callbacks all return zero, `Accept` makes
exactly these calls: `Enter*`, the item callback for children `0..n-1` in stored
order, `Leave*`; it returns what `Leave*` returns. The `i`-th item call carries
index `i` and the `i`-th stored child (for a map, its key and value). -/
theorem C3_complete_traversal {σ : Type} (visitor : Visitor σ) (s : σ) :
    (∀ valuelist valuesmap,
      (replay visitor (.EnterMap (.map valuelist valuesmap) :: mapItemCalls valuelist 0) s).1
        = List.replicate (valuelist.length + 1) 0 →
      Accept (.map valuelist valuesmap) (recording visitor) (s, [])
        = ((visitor.LeaveMap (.map valuelist valuesmap)
              (replay visitor (.EnterMap (.map valuelist valuesmap) ::
                mapItemCalls valuelist 0) s).2).1,
            (visitor.LeaveMap (.map valuelist valuesmap)
              (replay visitor (.EnterMap (.map valuelist valuesmap) ::
                mapItemCalls valuelist 0) s).2).2,
            .EnterMap (.map valuelist valuesmap) :: mapItemCalls valuelist 0
              ++ [.LeaveMap (.map valuelist valuesmap)]))
    ∧ (∀ values,
      (replay visitor (.EnterArray (.array values) :: arrayItemCalls values 0) s).1
        = List.replicate (values.length + 1) 0 →
      Accept (.array values) (recording visitor) (s, [])
        = ((visitor.LeaveArray (.array values)
              (replay visitor (.EnterArray (.array values) :: arrayItemCalls values 0) s).2).1,
            (visitor.LeaveArray (.array values)
              (replay visitor (.EnterArray (.array values) :: arrayItemCalls values 0) s).2).2,
            .EnterArray (.array values) :: arrayItemCalls values 0
              ++ [.LeaveArray (.array values)]))
    ∧ (∀ (valuelist : List (String × Object)) (i : Nat) (h : i < valuelist.length),
      (mapItemCalls valuelist 0)[i]?
        = some (.VisitMapItem (i : Int) (valuelist.get ⟨i, h⟩).1 (valuelist.get ⟨i, h⟩).2))
    ∧ (∀ (values : List Object) (i : Nat) (h : i < values.length),
      (arrayItemCalls values 0)[i]? = some (.VisitArrayItem (i : Int) (values.get ⟨i, h⟩))) := by
  refine ⟨?_, ?_, ?_, ?_⟩
  · intro valuelist valuesmap h
    simp only [replay, List.replicate_succ, List.cons.injEq, Call.run] at h
    have h2 := mapAcceptLoop_all visitor ((recording visitor).LeaveMap (.map valuelist valuesmap))
      valuelist 0 (visitor.EnterMap (.map valuelist valuesmap) s).2
      [.EnterMap (.map valuelist valuesmap)] h.2
    simp only [Nat.cast_zero, zero_sub] at h2
    simp only [Accept, replay, Call.run]
    change (if 0 ≠ (visitor.EnterMap (.map valuelist valuesmap) s).1 then _ else _) = _
    rw [if_neg (by simp [h.1])]
    refine Eq.trans h2 ?_
    simp [recording]
  · intro values h
    simp only [replay, List.replicate_succ, List.cons.injEq, Call.run] at h
    have h2 := arrayAcceptLoop_all visitor ((recording visitor).LeaveArray (.array values))
      values 0 (visitor.EnterArray (.array values) s).2
      [.EnterArray (.array values)] h.2
    simp only [Nat.cast_zero] at h2
    simp only [Accept, replay, Call.run]
    change (if 0 ≠ (visitor.EnterArray (.array values) s).1 then _ else _) = _
    rw [if_neg (by simp [h.1])]
    refine Eq.trans h2 ?_
    simp [recording]
  · intro valuelist i h
    rw [mapItemCalls_getElem_opt]
    simp [List.getElem?_eq_getElem h]
  · intro values i h
    rw [arrayItemCalls_getElem_opt]
    simp [List.getElem?_eq_getElem h]

/-- C3 at concrete inputs: a visitor whose `Leave*` (the fifth callback)
returns 9 and whose other callbacks return zero, on a three-entry map and a
three-element array. -/
theorem C3_complete_traversal_witness :
    Accept exampleMap (recording (abortAt 4 9)) (0, [])
      = (9, 5, [.EnterMap exampleMap, .VisitMapItem 0 "a" .null, .VisitMapItem 1 "b" (.bool true),
          .VisitMapItem 2 "c" (.string "x"), .LeaveMap exampleMap])
    ∧ Accept exampleArray (recording (abortAt 4 9)) (0, [])
      = (9, 5, [.EnterArray exampleArray, .VisitArrayItem 0 .null, .VisitArrayItem 1 (.bool true),
          .VisitArrayItem 2 (.string "x"), .LeaveArray exampleArray]) :=
  ⟨(C3_complete_traversal (abortAt 4 9) 0).1 _ _ rfl,
   (C3_complete_traversal (abortAt 4 9) 0).2.1 _ rfl⟩

/-! ## Builder on well-formed documents -/

theorem readMapLoop_succ (ro : Decoder → Option Result) (fuel : Nat)
    (valuelist : List (String × Object)) (valuesmap : List (String × Nat)) (d : Decoder) :
    readMapLoop ro (fuel + 1) valuelist valuesmap d =
      if d.More then
        match d.Token with
        | (.error err, d) => some (.error err, d)
        | (.ok t, d) =>
          match t with
          | .string k =>
            match ro d with
            | none => none
            | some (.error err, d) => some (.error err, d)
            | some (.ok v, d) =>
              if (mapIndex valuesmap k).isSome then
                some (.error (.errorf ("Item with the same key has been exist: " ++ k)), d)
              else
                readMapLoop ro fuel (valuelist ++ [(k, v)])
                  (mapAssign valuesmap k valuelist.length) d
          | _ => some (.error (.errorf "Except string"), d)
      else
        some (.ok (.map valuelist valuesmap), d.Token.2) := by
  rfl

theorem readArrayLoop_succ (ro : Decoder → Option Result) (fuel : Nat)
    (values : List Object) (d : Decoder) :
    readArrayLoop ro (fuel + 1) values d =
      if d.More then
        match ro d with
        | none => none
        | some (.error err, d) => some (.error err, d)
        | some (.ok v, d) => readArrayLoop ro fuel (values ++ [v]) d
      else
        some (.ok (.array values), d.Token.2) := by
  rfl

theorem tokens_ne_nil (t : Object) : tokens t ≠ [] := by
  cases t <;> simp [tokens]

theorem tokens_more (t : Object) (rest : Decoder) : Decoder.More (tokens t ++ rest) = true := by
  cases t <;> simp [tokens, Decoder.More]

theorem keyIndex_append (a b : List (String × Object)) (start : Nat) :
    keyIndex (a ++ b) start = keyIndex a start ++ keyIndex b (start + a.length) := by
  induction a generalizing start with
  | nil => simp [keyIndex]
  | cons e next ih =>
    have h := ih (start + 1)
    have e1 : start + 1 + next.length = start + (next.length + 1) := by omega
    rw [e1] at h
    simp only [List.cons_append, keyIndex, List.length_cons, List.cons.injEq, true_and]
    exact h

theorem lookup_keyIndex_none (valuelist : List (String × Object)) (start : Nat) (k : String)
    (h : k ∉ valuelist.map Prod.fst) : (keyIndex valuelist start).lookup k = none := by
  induction valuelist generalizing start with
  | nil => simp [keyIndex]
  | cons e next ih =>
    simp only [List.map_cons, List.mem_cons, not_or] at h
    simp only [keyIndex, List.lookup_cons]
    have : (k == e.1) = false := by simpa using h.1
    rw [this]
    exact ih _ h.2

theorem lookup_keyIndex_isSome (valuelist : List (String × Object)) (start : Nat) (k : String)
    (h : k ∈ valuelist.map Prod.fst) : ((keyIndex valuelist start).lookup k).isSome = true := by
  induction valuelist generalizing start with
  | nil => simp at h
  | cons e next ih =>
    simp only [keyIndex, List.lookup_cons]
    by_cases hk : k = e.1
    · simp [hk]
    · have : (k == e.1) = false := by simpa using hk
      rw [this]
      simp only [List.map_cons, List.mem_cons, hk, false_or] at h
      exact ih _ h

theorem mapAssign_keyIndex (valuelist : List (String × Object)) (k : String) (v : Object)
    (h : k ∉ valuelist.map Prod.fst) :
    mapAssign (keyIndex valuelist 0) k valuelist.length = keyIndex (valuelist ++ [(k, v)]) 0 := by
  simp [mapAssign, lookup_keyIndex_none valuelist 0 k h, keyIndex_append, keyIndex]

theorem readObject_succ (fuel : Nat) (d : Decoder) :
    readObject (fuel + 1) d =
      match d.Token with
      | (.error err, d) => some (.error err, d)
      | (.ok t, d) =>
        match t with
        | .Delim c =>
          if c = '{' then readMap (readObject fuel) fuel d
          else if c = '[' then readArray (readObject fuel) fuel d
          else some (.error (.errorf ("Unexpect delim: " ++ c.toString)), d)
        | .string value => some (.ok (.string value), d)
        | .bool value => some (.ok (.bool value), d)
        | .float64 value => some (.ok (.number value), d)
        | .nil => some (.ok .null, d)
        | .Number _ => some (.error (.errorf "Unexpect token"), d) := by
  rfl

theorem tokensOfValues_length (values : List Object) :
    values.length ≤ (tokensOfValues values).length := by
  induction values with
  | nil => simp [tokensOfValues]
  | cons v rest ih =>
    have := List.length_pos.mpr (tokens_ne_nil v)
    simp only [tokensOfValues, List.length_cons, List.length_append]
    omega

theorem tokensOfEntries_length (entries : List (String × Object)) :
    entries.length ≤ (tokensOfEntries entries).length := by
  induction entries with
  | nil => simp [tokensOfEntries]
  | cons e next ih =>
    obtain ⟨k, v⟩ := e
    simp only [tokensOfEntries, List.length_cons, List.length_append]
    omega

mutual
/-- The builder on the items of a well-formed tree, followed by anything:
it returns the tree and leaves what follows unread. -/
theorem readObject_tokens : (t : Object) → t.WF = true → ∀ (fuel : Nat) (rest : Decoder),
    (tokens t).length < fuel → readObject fuel (tokens t ++ rest) = some (.ok t, rest)
  | .null, _, fuel, rest, hf => by
    obtain ⟨f, rfl⟩ : ∃ f, fuel = f + 1 := ⟨fuel - 1, by omega⟩
    simp [readObject_succ, tokens, Decoder.Token]
  | .bool _, _, fuel, rest, hf => by
    obtain ⟨f, rfl⟩ : ∃ f, fuel = f + 1 := ⟨fuel - 1, by omega⟩
    simp [readObject_succ, tokens, Decoder.Token]
  | .string _, _, fuel, rest, hf => by
    obtain ⟨f, rfl⟩ : ∃ f, fuel = f + 1 := ⟨fuel - 1, by omega⟩
    simp [readObject_succ, tokens, Decoder.Token]
  | .number _, _, fuel, rest, hf => by
    obtain ⟨f, rfl⟩ : ∃ f, fuel = f + 1 := ⟨fuel - 1, by omega⟩
    simp [readObject_succ, tokens, Decoder.Token]
  | .array values, hwf, fuel, rest, hf => by
    obtain ⟨f, rfl⟩ : ∃ f, fuel = f + 1 := ⟨fuel - 1, by omega⟩
    simp only [tokens, List.length_cons, List.length_append, List.length_singleton,
      List.length_nil] at hf
    simp only [Object.WF] at hwf
    have hl := tokensOfValues_length values
    have h := readArrayLoop_tokens values hwf f f [] rest (by omega) (by omega)
    simp only [readObject_succ, tokens, List.cons_append, Decoder.Token, List.append_assoc,
      List.singleton_append, readArray]
    simpa using h
  | .map valuelist valuesmap, hwf, fuel, rest, hf => by
    obtain ⟨f, rfl⟩ : ∃ f, fuel = f + 1 := ⟨fuel - 1, by omega⟩
    simp only [tokens, List.length_cons, List.length_append, List.length_singleton,
      List.length_nil] at hf
    simp only [Object.WF, Bool.and_eq_true, decide_eq_true_eq] at hwf
    obtain ⟨⟨hnd, hidx⟩, hwfe⟩ := hwf
    have hl := tokensOfEntries_length valuelist
    have h := readMapLoop_tokens valuelist hwfe f f [] rest (by simpa using hnd)
      (by omega) (by omega)
    simp only [readObject_succ, tokens, List.cons_append, Decoder.Token, List.append_assoc,
      List.singleton_append, readMap]
    subst hidx
    simpa [keyIndex] using h
/-- The array loop on the items of well-formed elements and the closing
bracket: it appends the elements in order. -/
theorem readArrayLoop_tokens : (values : List Object) → WFValues values = true →
    ∀ (f g : Nat) (acc : List Object) (rest : Decoder),
    (tokensOfValues values).length < f → values.length < g →
    readArrayLoop (readObject f) g acc (tokensOfValues values ++ .tok (.Delim ']') :: rest)
      = some (.ok (.array (acc ++ values)), rest)
  | [], _, f, g, acc, rest, _, hg => by
    obtain ⟨g, rfl⟩ : ∃ g', g = g' + 1 := ⟨g - 1, by omega⟩
    simp [readArrayLoop_succ, tokensOfValues, Decoder.More, Decoder.Token]
  | v :: vs, hwf, f, g, acc, rest, hf, hg => by
    obtain ⟨g, rfl⟩ : ∃ g', g = g' + 1 := ⟨g - 1, by simp at hg; omega⟩
    simp only [WFValues, Bool.and_eq_true] at hwf
    simp only [tokensOfValues, List.length_append] at hf
    have h1 := readObject_tokens v hwf.1 f (tokensOfValues vs ++ .tok (.Delim ']') :: rest)
      (by omega)
    have h2 := readArrayLoop_tokens vs hwf.2 f g (acc ++ [v]) rest (by omega)
      (by simp at hg; omega)
    simp only [readArrayLoop_succ, tokensOfValues, List.append_assoc, tokens_more, if_true, h1]
    simpa using h2
/-- The map loop on the items of well-formed entries with fresh keys and the
closing brace: it appends the entries in order and indexes them. -/
theorem readMapLoop_tokens : (entries : List (String × Object)) → WFEntries entries = true →
    ∀ (f g : Nat) (acc : List (String × Object)) (rest : Decoder),
    ((acc ++ entries).map Prod.fst).Nodup →
    (tokensOfEntries entries).length < f → entries.length < g →
    readMapLoop (readObject f) g acc (keyIndex acc 0)
        (tokensOfEntries entries ++ .tok (.Delim '}') :: rest)
      = some (.ok (.map (acc ++ entries) (keyIndex (acc ++ entries) 0)), rest)
  | [], _, f, g, acc, rest, _, _, hg => by
    obtain ⟨g, rfl⟩ : ∃ g', g = g' + 1 := ⟨g - 1, by omega⟩
    simp [readMapLoop_succ, tokensOfEntries, Decoder.More, Decoder.Token]
  | (k, v) :: next, hwf, f, g, acc, rest, hnd, hf, hg => by
    obtain ⟨g, rfl⟩ : ∃ g', g = g' + 1 := ⟨g - 1, by simp at hg; omega⟩
    simp only [WFEntries, Bool.and_eq_true] at hwf
    simp only [tokensOfEntries, List.length_cons, List.length_append] at hf
    have h1 := readObject_tokens v hwf.1 f (tokensOfEntries next ++ .tok (.Delim '}') :: rest)
      (by omega)
    have hk : k ∉ acc.map Prod.fst := by
      intro hmem
      rw [List.map_append, List.nodup_append] at hnd
      exact hnd.2.2 hmem (by simp)
    have h2 := readMapLoop_tokens next hwf.2 f g (acc ++ [(k, v)]) rest
      (by simpa using hnd) (by omega) (by simp at hg; omega)
    simp only [readMapLoop_succ, tokensOfEntries, List.cons_append, Decoder.More,
      Decoder.Token, List.append_assoc, if_true, h1, mapIndex,
      lookup_keyIndex_none acc 0 k hk, Option.isSome_none, Bool.false_eq_true, if_false,
      mapAssign_keyIndex acc k v hk]
    simpa using h2
end

/-! ## Fuel -/

theorem Token_length (d : Decoder) : (Decoder.Token d).2.length ≤ d.length := by
  cases d with
  | nil => simp [Decoder.Token]
  | cons i d => cases i <;> simp [Decoder.Token]

theorem Token_ok_length (d d1 : Decoder) (t : Token) (h : Decoder.Token d = (.ok t, d1)) :
    d1.length + 1 = d.length := by
  cases d with
  | nil => simp [Decoder.Token] at h
  | cons i d =>
    cases i with
    | tok t0 => simp only [Decoder.Token, Prod.mk.injEq] at h; simp [← h.2]
    | err m b => simp [Decoder.Token] at h

theorem Token_error_length (d d1 : Decoder) (e : Error) (h : Decoder.Token d = (.error e, d1)) :
    d1.length ≤ d.length := by
  have := Token_length d
  rw [h] at this
  exact this

theorem readArrayLoop_total (ro : Decoder → Option Result) (bound : Nat) (hro : Consumes ro bound) :
    ∀ (g : Nat) (values : List Object) (d : Decoder), d.length < g → d.length < bound →
      (∃ r, readArrayLoop ro g values d = some r) ∧
      (∀ r, readArrayLoop ro g values d = some r → r.2.length ≤ d.length) := by
  intro g
  induction g with
  | zero => intro values d hg; omega
  | succ g ih =>
    intro values d hg hb
    rw [readArrayLoop_succ]
    by_cases hm : d.More = true
    · simp only [hm, if_true]
      obtain ⟨⟨r, hr⟩, hlen, hok⟩ := hro d hb
      obtain ⟨res, d1⟩ := r
      cases res with
      | error e =>
        simp only [hr]
        exact ⟨⟨_, rfl⟩, fun r h => by cases h; exact hlen _ hr⟩
      | ok v =>
        have hlt := hok v d1 hr
        simp only [hr]
        obtain ⟨h1, h2⟩ := ih (values ++ [v]) d1 (by omega) (by omega)
        exact ⟨h1, fun r h => by have := h2 r h; omega⟩
    · simp only [hm, Bool.false_eq_true, if_false]
      exact ⟨⟨_, rfl⟩, fun r h => by cases h; exact Token_length d⟩

theorem readMapLoop_total (ro : Decoder → Option Result) (bound : Nat) (hro : Consumes ro bound) :
    ∀ (g : Nat) (valuelist : List (String × Object)) (valuesmap : List (String × Nat))
      (d : Decoder), d.length < g → d.length ≤ bound →
      (∃ r, readMapLoop ro g valuelist valuesmap d = some r) ∧
      (∀ r, readMapLoop ro g valuelist valuesmap d = some r → r.2.length ≤ d.length) := by
  intro g
  induction g with
  | zero => intro valuelist valuesmap d hg; omega
  | succ g ih =>
    intro valuelist valuesmap d hg hb
    rw [readMapLoop_succ]
    by_cases hm : d.More = true
    · simp only [hm, if_true]
      rcases hT : Decoder.Token d with ⟨res, d1⟩
      cases res with
      | error e =>
        exact ⟨⟨_, rfl⟩, fun r h => by cases h; exact Token_error_length d d1 e hT⟩
      | ok t =>
        have hd1 := Token_ok_length d d1 t hT
        cases t with
        | string k =>
          simp only
          obtain ⟨⟨r, hr⟩, hlen, hok⟩ := hro d1 (by omega)
          obtain ⟨res, d2⟩ := r
          cases res with
          | error e =>
            simp only [hr]
            have hl2 : d2.length ≤ d1.length := hlen _ hr
            exact ⟨⟨_, rfl⟩, fun r h => by cases h; show d2.length ≤ d.length; omega⟩
          | ok v =>
            have hlt := hok v d2 hr
            simp only [hr]
            by_cases hdup : (mapIndex valuesmap k).isSome = true
            · simp only [hdup, if_true]
              exact ⟨⟨_, rfl⟩, fun r h => by cases h; dsimp only; omega⟩
            · simp only [hdup, Bool.false_eq_true, if_false]
              obtain ⟨h1, h2⟩ := ih (valuelist ++ [(k, v)])
                (mapAssign valuesmap k valuelist.length) d2 (by omega) (by omega)
              exact ⟨h1, fun r h => by have := h2 r h; omega⟩
        | Delim c => exact ⟨⟨_, rfl⟩, fun r h => by cases h; dsimp only; omega⟩
        | bool b => exact ⟨⟨_, rfl⟩, fun r h => by cases h; dsimp only; omega⟩
        | float64 x => exact ⟨⟨_, rfl⟩, fun r h => by cases h; dsimp only; omega⟩
        | Number x => exact ⟨⟨_, rfl⟩, fun r h => by cases h; dsimp only; omega⟩
        | nil => exact ⟨⟨_, rfl⟩, fun r h => by cases h; dsimp only; omega⟩
    · simp only [hm, Bool.false_eq_true, if_false]
      exact ⟨⟨_, rfl⟩, fun r h => by cases h; exact Token_length d⟩

theorem readObject_consumes : ∀ f : Nat, Consumes (readObject f) f := by
  intro f
  induction f with
  | zero => intro d hd; omega
  | succ f ih =>
    intro d hd
    rw [readObject_succ]
    rcases hT : Decoder.Token d with ⟨res, d1⟩
    cases res with
    | error e =>
      have := Token_error_length d d1 e hT
      exact ⟨⟨_, rfl⟩, fun r h => by cases h; exact this, fun v d2 h => by cases h⟩
    | ok t =>
      have hd1 := Token_ok_length d d1 t hT
      cases t with
      | Delim c =>
        simp only
        by_cases h1 : c = '{'
        · simp only [h1, if_true, readMap]
          obtain ⟨⟨r, hr⟩, hlen⟩ := readMapLoop_total (readObject f) f ih f [] [] d1
            (by omega) (by omega)
          have := hlen r hr
          rw [hr]
          refine ⟨⟨_, rfl⟩, fun r h => by cases h; omega, fun v d2 h => ?_⟩
          cases h
          dsimp only at this
          omega
        · by_cases h2 : c = '['
          · simp only [h2, if_true, readArray]
            obtain ⟨⟨r, hr⟩, hlen⟩ := readArrayLoop_total (readObject f) f ih f [] d1
              (by omega) (by omega)
            have := hlen r hr
            rw [hr]
            refine ⟨⟨_, rfl⟩, fun r h => by cases h; omega, fun v d2 h => ?_⟩
            cases h
            dsimp only at this
            omega
          · simp only [h1, h2, if_false]
            exact ⟨⟨_, rfl⟩, fun r h => by cases h; dsimp only; omega, fun v d2 h => by cases h⟩
      | string s =>
        exact ⟨⟨_, rfl⟩, fun r h => by cases h; dsimp only; omega,
          fun v d2 h => by cases h; omega⟩
      | bool b =>
        exact ⟨⟨_, rfl⟩, fun r h => by cases h; dsimp only; omega,
          fun v d2 h => by cases h; omega⟩
      | float64 x =>
        exact ⟨⟨_, rfl⟩, fun r h => by cases h; dsimp only; omega,
          fun v d2 h => by cases h; omega⟩
      | nil =>
        exact ⟨⟨_, rfl⟩, fun r h => by cases h; dsimp only; omega,
          fun v d2 h => by cases h; omega⟩
      | Number x =>
        exact ⟨⟨_, rfl⟩, fun r h => by cases h; dsimp only; omega,
          fun v d2 h => by cases h⟩

/-- `LoadObject` always returns: the fuel it passes never runs out. -/
theorem LoadObject_isSome (d : Decoder) : ∃ r, LoadObject d = some r :=
  (readObject_consumes (d.length + 1) d (by omega)).1

theorem readArrayLoop_mono (ro ro2 : Decoder → Option Result)
    (h : ∀ d r, ro d = some r → ro2 d = some r) :
    ∀ (g g2 : Nat) (values : List Object) (d : Decoder) (r : Result), g ≤ g2 →
      readArrayLoop ro g values d = some r → readArrayLoop ro2 g2 values d = some r := by
  intro g
  induction g with
  | zero => intro g2 values d r _ hr; simp [readArrayLoop] at hr
  | succ g ih =>
    intro g2 values d r hg hr
    obtain ⟨g2, rfl⟩ : ∃ k, g2 = k + 1 := ⟨g2 - 1, by omega⟩
    rw [readArrayLoop_succ] at hr ⊢
    by_cases hm : d.More = true
    · simp only [hm, if_true] at hr ⊢
      rcases hro : ro d with _ | ⟨res, d1⟩
      · simp [hro] at hr
      · rw [h d _ hro]
        rw [hro] at hr
        cases res with
        | error e => exact hr
        | ok v => exact ih g2 _ _ _ (by omega) hr
    · simp only [hm, Bool.false_eq_true, if_false] at hr ⊢
      exact hr

theorem readMapLoop_mono (ro ro2 : Decoder → Option Result)
    (h : ∀ d r, ro d = some r → ro2 d = some r) :
    ∀ (g g2 : Nat) (valuelist : List (String × Object)) (valuesmap : List (String × Nat))
      (d : Decoder) (r : Result), g ≤ g2 →
      readMapLoop ro g valuelist valuesmap d = some r →
      readMapLoop ro2 g2 valuelist valuesmap d = some r := by
  intro g
  induction g with
  | zero => intro g2 valuelist valuesmap d r _ hr; simp [readMapLoop] at hr
  | succ g ih =>
    intro g2 valuelist valuesmap d r hg hr
    obtain ⟨g2, rfl⟩ : ∃ k, g2 = k + 1 := ⟨g2 - 1, by omega⟩
    rw [readMapLoop_succ] at hr ⊢
    by_cases hm : d.More = true
    · simp only [hm, if_true] at hr ⊢
      rcases hT : Decoder.Token d with ⟨res, d1⟩
      rw [hT] at hr
      cases res with
      | error e => exact hr
      | ok t =>
        cases t with
        | string k =>
          simp only at hr ⊢
          rcases hro : ro d1 with _ | ⟨res, d2⟩
          · simp [hro] at hr
          · rw [h d1 _ hro]
            rw [hro] at hr
            cases res with
            | error e => exact hr
            | ok v =>
              simp only at hr ⊢
              by_cases hdup : (mapIndex valuesmap k).isSome = true
              · simp only [hdup, if_true] at hr ⊢
                exact hr
              · simp only [hdup, Bool.false_eq_true, if_false] at hr ⊢
                exact ih g2 _ _ _ _ (by omega) hr
        | Delim c => exact hr
        | bool b => exact hr
        | float64 x => exact hr
        | Number x => exact hr
        | nil => exact hr
    · simp only [hm, Bool.false_eq_true, if_false] at hr ⊢
      exact hr

/-- More fuel does not change a result. -/
theorem readObject_mono : ∀ (f f2 : Nat) (d : Decoder) (r : Result), f ≤ f2 →
    readObject f d = some r → readObject f2 d = some r := by
  intro f
  induction f with
  | zero => intro f2 d r _ hr; simp [readObject] at hr
  | succ f ih =>
    intro f2 d r hf hr
    obtain ⟨f2, rfl⟩ : ∃ k, f2 = k + 1 := ⟨f2 - 1, by omega⟩
    rw [readObject_succ] at hr ⊢
    rcases hT : Decoder.Token d with ⟨res, d1⟩
    rw [hT] at hr
    cases res with
    | error e => exact hr
    | ok t =>
      cases t with
      | Delim c =>
        simp only at hr ⊢
        by_cases h1 : c = '{'
        · simp only [h1, if_true, readMap] at hr ⊢
          exact readMapLoop_mono _ _ (fun d r h => ih f2 d r (by omega) h) f f2 _ _ _ _
            (by omega) hr
        · by_cases h2 : c = '['
          · simp only [h2, if_true, readArray] at hr ⊢
            have h3 : ¬ ('[' = '{') := by decide
            simp only [h3, if_false] at hr ⊢
            exact readArrayLoop_mono _ _ (fun d r h => ih f2 d r (by omega) h) f f2 _ _ _
              (by omega) hr
          · simp only [h1, h2, if_false] at hr ⊢
            exact hr
      | string s => exact hr
      | bool b => exact hr
      | float64 x => exact hr
      | nil => exact hr
      | Number x => exact hr

/-- With enough fuel `readObject` is `LoadObject`. -/
theorem readObject_eq_LoadObject (f : Nat) (d : Decoder) (h : d.length < f) :
    readObject f d = LoadObject d := by
  obtain ⟨r, hr⟩ := LoadObject_isSome d
  rw [hr]
  exact readObject_mono (d.length + 1) f d r (by omega) hr

/-- C4 (builder correctness). For a tree `t` whose maps have pairwise distinct
keys (and carry the index of their entries), and any items `rest`: on the
stream `tokens t ++ rest` the builder returns `t` itself, without error, and
leaves exactly `rest` unread. This holds for `readObject` with any fuel above
the number of items of `t`, and for `LoadObject`. -/
theorem C4_builder_correct (t : Object) (rest : Decoder) (hwf : t.WF = true) :
    (∀ fuel, (tokens t).length < fuel →
      readObject fuel (tokens t ++ rest) = some (.ok t, rest))
    ∧ LoadObject (tokens t ++ rest) = some (.ok t, rest) :=
  ⟨fun fuel h => readObject_tokens t hwf fuel rest h,
   readObject_tokens t hwf _ rest (by simp only [List.length_append]; omega)⟩

/-- C4 on `{"a":1,"b":[true,null,"x"]}` followed by a further `null`. -/
theorem C4_builder_correct_witness :
    exampleDoc.WF = true
    ∧ LoadObject (tokens exampleDoc ++ [.tok .nil]) = some (.ok exampleDoc, [.tok .nil]) :=
  ⟨by decide, (C4_builder_correct exampleDoc [.tok .nil] (by decide)).2⟩

theorem LoadObject_consumes (b : Nat) : Consumes LoadObject b := by
  intro d _
  exact readObject_consumes (d.length + 1) d (by omega)

theorem readArrayLoop_congr (ro ro2 : Decoder → Option Result) (b : Nat)
    (hro : Consumes ro b) (heq : ∀ d, d.length < b → ro d = ro2 d) :
    ∀ (g : Nat) (values : List Object) (d : Decoder), d.length < b →
      readArrayLoop ro g values d = readArrayLoop ro2 g values d := by
  intro g
  induction g with
  | zero => intro values d _; rfl
  | succ g ih =>
    intro values d hb
    rw [readArrayLoop_succ, readArrayLoop_succ, ← heq d hb]
    by_cases hm : d.More = true
    · simp only [hm, if_true]
      rcases hr : ro d with _ | ⟨res, d1⟩
      · rfl
      · cases res with
        | error e => rfl
        | ok v =>
          have := (hro d hb).2.2 v d1 hr
          exact ih _ _ (by omega)
    · simp only [hm, Bool.false_eq_true, if_false]

theorem readMapLoop_congr (ro ro2 : Decoder → Option Result) (b : Nat)
    (hro : Consumes ro b) (heq : ∀ d, d.length < b → ro d = ro2 d) :
    ∀ (g : Nat) (valuelist : List (String × Object)) (valuesmap : List (String × Nat))
      (d : Decoder), d.length ≤ b →
      readMapLoop ro g valuelist valuesmap d = readMapLoop ro2 g valuelist valuesmap d := by
  intro g
  induction g with
  | zero => intro valuelist valuesmap d _; rfl
  | succ g ih =>
    intro valuelist valuesmap d hb
    rw [readMapLoop_succ, readMapLoop_succ]
    by_cases hm : d.More = true
    · simp only [hm, if_true]
      rcases hT : Decoder.Token d with ⟨res, d1⟩
      cases res with
      | error e => rfl
      | ok t =>
        have hd1 := Token_ok_length d d1 t hT
        cases t with
        | string k =>
          simp only
          rw [← heq d1 (by omega)]
          rcases hr : ro d1 with _ | ⟨res, d2⟩
          · rfl
          · cases res with
            | error e => rfl
            | ok v =>
              have := (hro d1 (by omega)).2.2 v d2 hr
              simp only
              rw [ih _ _ d2 (by omega)]
        | Delim c => rfl
        | bool b => rfl
        | float64 x => rfl
        | Number x => rfl
        | nil => rfl
    · simp only [hm, Bool.false_eq_true, if_false]

/-- The array loop does not depend on its fuel once there is enough of it. -/
theorem readArrayLoop_fuel (g : Nat) (values : List Object) (d : Decoder) (h : d.length < g) :
    readArrayLoop LoadObject g values d = arrayLoop values d := by
  obtain ⟨⟨r, hr⟩, _⟩ := readArrayLoop_total LoadObject (d.length + 1)
    (LoadObject_consumes _) (d.length + 1) values d (by omega) (by omega)
  rw [arrayLoop, hr]
  exact readArrayLoop_mono _ _ (fun _ _ h => h) _ _ _ _ _ (by omega) hr

/-- The map loop does not depend on its fuel once there is enough of it. -/
theorem readMapLoop_fuel (g : Nat) (valuelist : List (String × Object))
    (valuesmap : List (String × Nat)) (d : Decoder) (h : d.length < g) :
    readMapLoop LoadObject g valuelist valuesmap d = mapLoop valuelist valuesmap d := by
  obtain ⟨⟨r, hr⟩, _⟩ := readMapLoop_total LoadObject (d.length + 1)
    (LoadObject_consumes _) (d.length + 1) valuelist valuesmap d (by omega) (by omega)
  rw [mapLoop, hr]
  exact readMapLoop_mono _ _ (fun _ _ h => h) _ _ _ _ _ _ (by omega) hr

/-- One step of `LoadObject`, the fuel gone. -/
theorem LoadObject_eq (d : Decoder) :
    LoadObject d =
      match d.Token with
      | (.error err, d) => some (.error err, d)
      | (.ok t, d) =>
        match t with
        | .Delim c =>
          if c = '{' then mapLoop [] [] d
          else if c = '[' then arrayLoop [] d
          else some (.error (.errorf ("Unexpect delim: " ++ c.toString)), d)
        | .string value => some (.ok (.string value), d)
        | .bool value => some (.ok (.bool value), d)
        | .float64 value => some (.ok (.number value), d)
        | .nil => some (.ok .null, d)
        | .Number _ => some (.error (.errorf "Unexpect token"), d) := by
  rw [LoadObject, readObject_succ]
  rcases hT : Decoder.Token d with ⟨res, d1⟩
  cases res with
  | error e => rfl
  | ok t =>
    have hd1 := Token_ok_length d d1 t hT
    cases t with
    | Delim c =>
      simp only
      by_cases h1 : c = '{'
      · simp only [h1, if_true, readMap]
        rw [readMapLoop_congr (readObject d.length) LoadObject d.length
          (readObject_consumes _) (fun d2 h2 => readObject_eq_LoadObject _ d2 h2) _ _ _ d1
          (by omega)]
        exact readMapLoop_fuel _ _ _ _ (by omega)
      · by_cases h2 : c = '['
        · have h3 : ¬ ('[' = '{') := by decide
          simp only [h2, h3, if_true, if_false, readArray]
          rw [readArrayLoop_congr (readObject d.length) LoadObject d.length
            (readObject_consumes _) (fun d2 h2 => readObject_eq_LoadObject _ d2 h2) _ _ d1
            (by omega)]
          exact readArrayLoop_fuel _ _ _ (by omega)
        · simp only [h1, h2, if_false]
    | string s => rfl
    | bool b => rfl
    | float64 x => rfl
    | nil => rfl
    | Number x => rfl

/-- One iteration of the array loop, the fuel gone. -/
theorem arrayLoop_eq (values : List Object) (d : Decoder) :
    arrayLoop values d =
      if d.More then
        match LoadObject d with
        | none => none
        | some (.error err, d) => some (.error err, d)
        | some (.ok v, d) => arrayLoop (values ++ [v]) d
      else
        some (.ok (.array values), d.Token.2) := by
  rw [arrayLoop, readArrayLoop_succ]
  by_cases hm : d.More = true
  · simp only [hm, if_true]
    rcases hr : LoadObject d with _ | ⟨res, d1⟩
    · rfl
    · cases res with
      | error e => rfl
      | ok v =>
        have := (LoadObject_consumes (d.length + 1) d (by omega)).2.2 v d1 hr
        exact readArrayLoop_fuel _ _ _ (by omega)
  · simp only [hm, Bool.false_eq_true, if_false]

/-- One iteration of the map loop, the fuel gone. -/
theorem mapLoop_eq (valuelist : List (String × Object)) (valuesmap : List (String × Nat))
    (d : Decoder) :
    mapLoop valuelist valuesmap d =
      if d.More then
        match d.Token with
        | (.error err, d) => some (.error err, d)
        | (.ok t, d) =>
          match t with
          | .string k =>
            match LoadObject d with
            | none => none
            | some (.error err, d) => some (.error err, d)
            | some (.ok v, d) =>
              if (mapIndex valuesmap k).isSome then
                some (.error (.errorf ("Item with the same key has been exist: " ++ k)), d)
              else
                mapLoop (valuelist ++ [(k, v)]) (mapAssign valuesmap k valuelist.length) d
          | _ => some (.error (.errorf "Except string"), d)
      else
        some (.ok (.map valuelist valuesmap), d.Token.2) := by
  rw [mapLoop, readMapLoop_succ]
  by_cases hm : d.More = true
  · simp only [hm, if_true]
    rcases hT : Decoder.Token d with ⟨res, d1⟩
    cases res with
    | error e => rfl
    | ok t =>
      have hd1 := Token_ok_length d d1 t hT
      cases t with
      | string k =>
        simp only
        rcases hr : LoadObject d1 with _ | ⟨res, d2⟩
        · rfl
        · cases res with
          | error e => rfl
          | ok v =>
            have := (LoadObject_consumes (d1.length + 1) d1 (by omega)).2.2 v d2 hr
            simp only
            rw [readMapLoop_fuel _ _ _ _ (by omega)]
      | Delim c => rfl
      | bool b => rfl
      | float64 x => rfl
      | Number x => rfl
      | nil => rfl
  · simp only [hm, Bool.false_eq_true, if_false]

/-! ## Where a build stands -/

theorem LoadObject_open_map (d1 d0 : Decoder) (h : Decoder.Token d1 = (.ok (.Delim '{'), d0)) :
    LoadObject d1 = mapLoop [] [] d0 := by
  rw [LoadObject_eq, h]
  simp

theorem LoadObject_open_array (d1 d0 : Decoder) (h : Decoder.Token d1 = (.ok (.Delim '['), d0)) :
    LoadObject d1 = arrayLoop [] d0 := by
  rw [LoadObject_eq, h]
  have h3 : ¬ ('[' = '{') := by decide
  simp [h3]

theorem ArrayAt_loop {d0 d : Decoder} {values : List Object} (h : ArrayAt d0 values d) :
    arrayLoop [] d0 = arrayLoop values d := by
  induction h with
  | start => rfl
  | next _ hm hv ih =>
    rw [ih, arrayLoop_eq]
    simp [hm, hv]

theorem MapAt_nodup {d0 d : Decoder} {valuelist : List (String × Object)}
    (h : MapAt d0 valuelist d) : (valuelist.map Prod.fst).Nodup := by
  induction h with
  | start => simp
  | next _ _ _ _ hk ih =>
    rw [List.map_append, List.nodup_append]
    refine ⟨ih, by simp, ?_⟩
    intro a ha hb
    simp only [List.map_cons, List.map_nil, List.mem_singleton] at hb
    subst hb
    exact hk ha

theorem MapAt_loop {d0 d : Decoder} {valuelist : List (String × Object)}
    (h : MapAt d0 valuelist d) :
    mapLoop [] [] d0 = mapLoop valuelist (keyIndex valuelist 0) d := by
  induction h with
  | start => rfl
  | @next valuelist d d1 d2 k v _ hm hT hv hk ih =>
    rw [ih, mapLoop_eq]
    simp [hm, hT, hv, mapIndex, lookup_keyIndex_none valuelist 0 k hk,
      mapAssign_keyIndex valuelist k v hk]

/-- An error of a nested build is the error of every build around it. -/
theorem Builds_error {D d d1 : Decoder} {e : Error} (h : Builds D d)
    (he : LoadObject d = some (.error e, d1)) : LoadObject D = some (.error e, d1) := by
  induction h with
  | self => exact he
  | element _ hopen hat hm ih =>
    apply ih
    rw [LoadObject_open_array _ _ hopen, ArrayAt_loop hat, arrayLoop_eq]
    simp [hm, he]
  | value _ hopen hat hm hT ih =>
    apply ih
    rw [LoadObject_open_map _ _ hopen, MapAt_loop hat, mapLoop_eq]
    simp [hm, hT, he]

/-! ## Duplicate keys -/

/-- C5 (uniqueness), amended. Let the build of `D` come to a map literal (the
`{` is read at `d1`), let that map's loop stand at `d` with the entries
`valuelist` inserted, let the stream present there a key `k` that is among the
keys inserted, and let the value after the key build without error. Then the
build of the map, and the build of `D` around it, fail with the duplicate-key
error; no tree is returned, so the earlier entry is never overwritten. -/
theorem C5_duplicate_key (D d1 d0 d d2 d3 : Decoder) (valuelist : List (String × Object))
    (k : String) (v : Object)
    (hD : Builds D d1) (hopen : Decoder.Token d1 = (.ok (.Delim '{'), d0))
    (hat : MapAt d0 valuelist d) (hmore : d.More = true)
    (hkey : Decoder.Token d = (.ok (.string k), d2))
    (hdup : k ∈ valuelist.map Prod.fst)
    (hval : LoadObject d2 = some (.ok v, d3)) :
    LoadObject d1
      = some (.error (.errorf ("Item with the same key has been exist: " ++ k)), d3)
    ∧ LoadObject D
      = some (.error (.errorf ("Item with the same key has been exist: " ++ k)), d3) := by
  have h1 : LoadObject d1
      = some (.error (.errorf ("Item with the same key has been exist: " ++ k)), d3) := by
    rw [LoadObject_open_map _ _ hopen, MapAt_loop hat, mapLoop_eq]
    simp [hmore, hkey, hval, mapIndex, lookup_keyIndex_isSome valuelist 0 k hdup]
  exact ⟨h1, Builds_error hD h1⟩

/-- C5 on `[{"a":1,"a":2}]`: the map, and the array around it, fail with the
duplicate-key error. -/
theorem C5_duplicate_key_witness :
    LoadObject duplicateStream.tail
      = some (.error (.errorf ("Item with the same key has been exist: " ++ "a")),
          [.tok (.Delim '}'), .tok (.Delim ']')])
    ∧ LoadObject duplicateStream
      = some (.error (.errorf ("Item with the same key has been exist: " ++ "a")),
          [.tok (.Delim '}'), .tok (.Delim ']')]) :=
  C5_duplicate_key duplicateStream duplicateStream.tail (duplicateStream.drop 2)
    (duplicateStream.drop 4) (duplicateStream.drop 5) (duplicateStream.drop 6)
    [("a", .number one)] "a" (.number two)
    (@Builds.element _ _ _ _ [] Builds.self rfl ArrayAt.start rfl)
    rfl
    (@MapAt.next _ [] _ _ _ "a" (.number one) MapAt.start rfl rfl rfl
      (by simp))
    rfl rfl (by simp) rfl

/-- C5 as stated fails on the cut-off text `{"a":1,"a":`: the map literal
presents the key `a` a second time, and the build fails with the decoder's
end-of-input error, not with the duplicate-key error. -/
theorem C5_counterexample :
    MapAt duplicateCutStream.tail [("a", .number one)] [.tok (.string "a")]
    ∧ Decoder.More [.tok (.string "a")] = true
    ∧ Decoder.Token [.tok (.string "a")] = (.ok (.string "a"), [])
    ∧ "a" ∈ ([("a", Object.number one)] : List (String × Object)).map Prod.fst
    ∧ LoadObject duplicateCutStream = some (.error (.decoder "EOF"), []) :=
  ⟨@MapAt.next _ [] _ _ _ "a" (.number one) MapAt.start rfl rfl rfl
      (by simp),
    rfl, rfl, by simp, rfl⟩

/-! ## Foreach -/

theorem mapForeachLoop_cons {σ : Type} (f : Int → String → Object → σ → Int × σ)
    (e : String × Object) (next : List (String × Object)) (index : Int) (s : σ) :
    mapForeachLoop f (e :: next) index s =
      if 0 ≠ (f (index + 1) e.1 e.2 s).1 then (f (index + 1) e.1 e.2 s).2
      else mapForeachLoop f next (index + 1) (f (index + 1) e.1 e.2 s).2 := by
  simp only [mapForeachLoop]

theorem recordingF_apply {σ : Type} (f : Int → String → Object → σ → Int × σ) (i : Int)
    (k : String) (v : Object) (s : σ) (log : List (Int × String × Object)) :
    recordingF f i k v (s, log) = ((f i k v s).1, (f i k v s).2, log ++ [(i, k, v)]) := rfl

theorem foreachCalls_length (valuelist : List (String × Object)) (start : Nat) :
    (foreachCalls valuelist start).length = valuelist.length := by
  induction valuelist generalizing start with
  | nil => simp [foreachCalls]
  | cons e next ih => simp [foreachCalls, ih]

theorem foreachCalls_getElem_opt (valuelist : List (String × Object)) (start i : Nat) :
    (foreachCalls valuelist start)[i]? =
      valuelist[i]?.map (fun e => (((start + i : Nat) : Int), e.1, e.2)) := by
  induction valuelist generalizing start i with
  | nil => simp [foreachCalls]
  | cons e next ih =>
    cases i with
    | zero => simp [foreachCalls]
    | succ i =>
      simp only [foreachCalls, List.getElem?_cons_succ, ih]
      have : start + 1 + i = start + (i + 1) := by omega
      rw [this]

/-- The `Foreach` loop with a logging callback, when the first `n` calls
return zero and the next returns `r ≠ 0`: it stops there. -/
theorem mapForeachLoop_stop {σ : Type} (f : Int → String → Object → σ → Int × σ)
    (valuelist : List (String × Object)) (start : Nat) (n : Nat) (r : Int) (s : σ)
    (log : List (Int × String × Object)) (hn : n < valuelist.length) (hr : r ≠ 0)
    (h : (replayF f ((foreachCalls valuelist start).take (n + 1)) s).1
      = List.replicate n 0 ++ [r]) :
    mapForeachLoop (recordingF f) valuelist ((start : Int) - 1) (s, log)
      = ((replayF f ((foreachCalls valuelist start).take (n + 1)) s).2,
          log ++ (foreachCalls valuelist start).take (n + 1)) := by
  induction valuelist generalizing start n s log with
  | nil => simp at hn
  | cons e next ih =>
    rw [mapForeachLoop_cons, recordingF_apply, sub_add_cancel]
    cases n with
    | zero =>
      simp only [foreachCalls, List.take_succ_cons, List.take_zero, replayF,
        List.replicate_zero, List.nil_append, List.cons.injEq, and_true] at h
      simp [foreachCalls, replayF, h, hr.symm]
    | succ n =>
      simp only [foreachCalls, List.take_succ_cons, replayF, List.replicate_succ,
        List.cons_append, List.cons.injEq] at h
      have h2 := ih (start + 1) n ((f (start : Int) e.1 e.2 s).2)
        (log ++ [((start : Int), e.1, e.2)]) (by simpa using hn) h.2
      have e1 : (((start + 1 : Nat) : Int) - 1) = (start : Int) := by push_cast; ring
      rw [e1] at h2
      simp only [h.1, ne_eq, not_true_eq_false, ↓reduceIte, foreachCalls, List.take_succ_cons,
        replayF]
      rw [h2]
      simp

/-- The `Foreach` loop with a logging callback, when every call returns zero:
all entries are visited. -/
theorem mapForeachLoop_all {σ : Type} (f : Int → String → Object → σ → Int × σ)
    (valuelist : List (String × Object)) (start : Nat) (s : σ)
    (log : List (Int × String × Object))
    (h : (replayF f (foreachCalls valuelist start) s).1 = List.replicate valuelist.length 0) :
    mapForeachLoop (recordingF f) valuelist ((start : Int) - 1) (s, log)
      = ((replayF f (foreachCalls valuelist start) s).2,
          log ++ foreachCalls valuelist start) := by
  induction valuelist generalizing start s log with
  | nil => simp [mapForeachLoop, foreachCalls, replayF]
  | cons e next ih =>
    rw [mapForeachLoop_cons, recordingF_apply, sub_add_cancel]
    simp only [foreachCalls, replayF, List.length_cons, List.replicate_succ,
      List.cons.injEq] at h
    have h2 := ih (start + 1) ((f (start : Int) e.1 e.2 s).2)
      (log ++ [((start : Int), e.1, e.2)]) h.2
    have e1 : (((start + 1 : Nat) : Int) - 1) = (start : Int) := by push_cast; ring
    rw [e1] at h2
    simp only [h.1, ne_eq, not_true_eq_false, ↓reduceIte, foreachCalls, replayF]
    rw [h2]
    simp

theorem replayF_zero {σ : Type} (f : Int → String → Object → σ → Int × σ)
    (hf : ∀ i k v s, (f i k v s).1 = 0) (cs : List (Int × String × Object)) (s : σ) :
    (replayF f cs s).1 = List.replicate cs.length 0 := by
  induction cs generalizing s with
  | nil => simp [replayF]
  | cons c cs ih => simp [replayF, hf, ih, List.replicate_succ]

/-- C6 (order preservation). Let `readMap`, entered at `d0` after the `{` read
at `d1`, insert the entries `entries` in stream order and find no more items at
`d`. Then the build returns the map holding those entries, and `Foreach` on it
with a callback that always returns zero calls the callback exactly once per
entry, call `i` with the arguments `(i, kᵢ, vᵢ)`, in that order. Keys are
compared for equality only, and the map is a value no lookup changes. -/
theorem C6_order_preservation {σ : Type} (d1 d0 d : Decoder)
    (entries : List (String × Object))
    (hopen : Decoder.Token d1 = (.ok (.Delim '{'), d0))
    (hat : MapAt d0 entries d) (hend : d.More = false)
    (f : Int → String → Object → σ → Int × σ) (hf : ∀ i k v s, (f i k v s).1 = 0) (s : σ) :
    readMap LoadObject (d0.length + 1) d0
      = some (.ok (.map entries (keyIndex entries 0)), d.Token.2)
    ∧ LoadObject d1 = some (.ok (.map entries (keyIndex entries 0)), d.Token.2)
    ∧ ((Object.map entries (keyIndex entries 0)).Foreach (recordingF f) (s, [])).2
      = foreachCalls entries 0
    ∧ (foreachCalls entries 0).length = entries.length
    ∧ ∀ (i : Nat) (h : i < entries.length),
      (foreachCalls entries 0)[i]?
        = some ((i : Int), (entries.get ⟨i, h⟩).1, (entries.get ⟨i, h⟩).2) := by
  have h1 : mapLoop [] [] d0 = some (.ok (.map entries (keyIndex entries 0)), d.Token.2) := by
    rw [MapAt_loop hat, mapLoop_eq]
    simp [hend]
  refine ⟨h1, ?_, ?_, foreachCalls_length _ _, ?_⟩
  · rw [LoadObject_open_map _ _ hopen, h1]
  · have h2 := mapForeachLoop_all f entries 0 s []
      (by rw [replayF_zero f hf, foreachCalls_length])
    simp only [Nat.cast_zero, zero_sub, List.nil_append] at h2
    simp only [Object.Foreach, h2]
  · intro i h
    rw [foreachCalls_getElem_opt]
    simp [List.getElem?_eq_getElem h]

/-- C6 on the stream of `{"a":null,"b":true,"c":"x"}`, with a callback that
counts its calls and always returns zero. -/
theorem C6_order_preservation_witness :
    LoadObject (tokens exampleMap) = some (.ok exampleMap, [])
    ∧ (exampleMap.Foreach (recordingF (stopAt 0 0)) (0, [])).2
      = [(0, "a", .null), (1, "b", .bool true), (2, "c", .string "x")] :=
  have h := C6_order_preservation (tokens exampleMap) (tokens exampleMap).tail
    [.tok (.Delim '}')] [("a", .null), ("b", .bool true), ("c", .string "x")] rfl
    (@MapAt.next _ [("a", .null), ("b", .bool true)] _ _ _ "c" (.string "x")
      (@MapAt.next _ [("a", .null)] _ _ _ "b" (.bool true)
        (@MapAt.next _ [] _ _ _ "a" .null MapAt.start rfl rfl rfl (by simp))
        rfl rfl rfl (by simp))
      rfl rfl rfl (by simp))
    rfl (stopAt 0 0) (fun _ _ _ _ => by simp [stopAt]) 0
  ⟨h.2.1, h.2.2.1⟩

/-- C10 (`Foreach` early exit), amended. For every map and every callback,
observed through a log of its calls: if the calls for entries `0..i-1` return
zero and the call for entry `i` returns `r ≠ 0`, `Foreach` makes exactly the
calls for entries `0..i`, in insertion order, and no call after; if every call
returns zero it makes the calls for all entries in insertion order. `Foreach`
has no result: what comes back is the callback's state alone, and the status
code is dropped. -/
theorem C10_foreach_early_exit {σ : Type} (valuelist : List (String × Object))
    (valuesmap : List (String × Nat)) (f : Int → String → Object → σ → Int × σ) (s : σ) :
    (∀ i r, i < valuelist.length → r ≠ 0 →
      (replayF f ((foreachCalls valuelist 0).take (i + 1)) s).1 = List.replicate i 0 ++ [r] →
      (Object.map valuelist valuesmap).Foreach (recordingF f) (s, [])
        = ((replayF f ((foreachCalls valuelist 0).take (i + 1)) s).2,
            (foreachCalls valuelist 0).take (i + 1)))
    ∧ ((replayF f (foreachCalls valuelist 0) s).1 = List.replicate valuelist.length 0 →
      (Object.map valuelist valuesmap).Foreach (recordingF f) (s, [])
        = ((replayF f (foreachCalls valuelist 0) s).2, foreachCalls valuelist 0)) := by
  refine ⟨?_, ?_⟩
  · intro i r hi hr h
    have h2 := mapForeachLoop_stop f valuelist 0 i r s [] hi hr h
    simp only [Nat.cast_zero, zero_sub, List.nil_append] at h2
    simp only [Object.Foreach, h2]
  · intro h
    have h2 := mapForeachLoop_all f valuelist 0 s [] h
    simp only [Nat.cast_zero, zero_sub, List.nil_append] at h2
    simp only [Object.Foreach, h2]

/-- C10 on a three-entry map: a callback whose second call returns 7 is called
on the first two entries only; one that always returns zero is called on all
three. -/
theorem C10_foreach_early_exit_witness :
    exampleMap.Foreach (recordingF (stopAt 1 7)) (0, [])
      = (2, [(0, "a", .null), (1, "b", .bool true)])
    ∧ exampleMap.Foreach (recordingF (stopAt 3 7)) (0, [])
      = (3, [(0, "a", .null), (1, "b", .bool true), (2, "c", .string "x")]) :=
  ⟨(C10_foreach_early_exit _ _ (stopAt 1 7) 0).1 1 7 (by decide) (by decide) rfl,
   (C10_foreach_early_exit _ _ (stopAt 3 7) 0).2 rfl⟩

/-- C10 as stated fails: `Foreach` does not hand the first non-zero status
code to its caller. Two callbacks whose first non-zero codes are 1 and 2 leave
the caller with the same thing. -/
theorem C10_counterexample :
    (replayF (constantCallback 1) ((foreachCalls [("a", Object.null)] 0).take 1) ()).1 = [1]
    ∧ (replayF (constantCallback 2) ((foreachCalls [("a", Object.null)] 0).take 1) ()).1 = [2]
    ∧ (Object.map [("a", .null)] [("a", 0)]).Foreach (constantCallback 1) ()
      = (Object.map [("a", .null)] [("a", 0)]).Foreach (constantCallback 2) () :=
  ⟨rfl, rfl, rfl⟩

/-! ## Printer -/

theorem itemsText_succ (texts : List String) (i : Nat) :
    itemsText texts (i + 1) = itemsText texts 1 := by
  induction texts generalizing i with
  | nil => rfl
  | cons a rest ih =>
    simp only [itemsText, Nat.add_one_ne_zero, if_false, ih (i + 1), ih 1]

theorem itemsText_zero (texts : List String) : itemsText texts 0 = joinComma texts := by
  induction texts with
  | nil => rfl
  | cons a rest ih =>
    cases rest with
    | nil => simp [itemsText, joinComma]
    | cons b rest =>
      simp only [itemsText, if_true, joinComma, String.empty_append] at ih ⊢
      rw [itemsText_succ] at ih ⊢
      simp only [Nat.add_one_ne_zero, if_false] at ih ⊢
      rw [← ih]
      simp [String.append_assoc]

theorem printer_leaf (p : Platform) (fuel : Nat) :
    (jsonSimplePrinter p fuel).VisitNull = (fun w => (0, w ++ "null"))
    ∧ (jsonSimplePrinter p fuel).VisitBool = (fun v w => (0, w ++ boolString v))
    ∧ (jsonSimplePrinter p fuel).VisitString = (fun v w => (0, w ++ "\"" ++ v ++ "\""))
    ∧ (jsonSimplePrinter p fuel).VisitNumber = (fun v w => (0, w ++ numberString p v))
    ∧ (jsonSimplePrinter p fuel).EnterArray = (fun _ w => (0, w ++ "["))
    ∧ (jsonSimplePrinter p fuel).LeaveArray = (fun _ w => (0, w ++ "]"))
    ∧ (jsonSimplePrinter p fuel).EnterMap = (fun _ w => (0, w ++ "\x7b"))
    ∧ (jsonSimplePrinter p fuel).LeaveMap = (fun _ w => (0, w ++ "\x7d")) := by
  cases fuel <;> exact ⟨rfl, rfl, rfl, rfl, rfl, rfl, rfl, rfl⟩

theorem printer_VisitArrayItem (p : Platform) (fuel : Nat) (index : Int) (value : Object)
    (w : String) :
    (jsonSimplePrinter p (fuel + 1)).VisitArrayItem index value w =
      (0, (Accept value (jsonSimplePrinter p fuel) (if 0 ≠ index then w ++ "," else w)).2) :=
  rfl

theorem printer_VisitMapItem (p : Platform) (fuel : Nat) (index : Int) (key : String)
    (value : Object) (w : String) :
    (jsonSimplePrinter p (fuel + 1)).VisitMapItem index key value w =
      (0, (Accept value (jsonSimplePrinter p fuel)
        ((if 0 ≠ index then w ++ "," else w) ++ "\"" ++ key ++ "\":")).2) :=
  rfl

mutual
/-- The printer on a tree, given fuel for its depth: it returns 0 and appends
the compact text. -/
theorem printer_accept (p : Platform) : (v : Object) → ∀ (fuel : Nat) (w : String),
    depth v ≤ fuel → Accept v (jsonSimplePrinter p fuel) w = (0, w ++ compact p v)
  | .null, fuel, w, _ => by
    simp only [Accept, (printer_leaf p fuel).1, compact]
  | .bool value, fuel, w, _ => by
    simp only [Accept, (printer_leaf p fuel).2.1, compact, boolString]
  | .string value, fuel, w, _ => by
    simp only [Accept, (printer_leaf p fuel).2.2.1, compact, String.append_assoc]
  | .number value, fuel, w, _ => by
    simp only [Accept, (printer_leaf p fuel).2.2.2.1, compact]
  | .array values, fuel, w, h => by
    simp only [depth] at h
    obtain ⟨f, rfl⟩ : ∃ f, fuel = f + 1 := ⟨fuel - 1, by omega⟩
    have h2 := printer_values p values f ((jsonSimplePrinter p (f + 1)).LeaveArray (.array values))
      0 (w ++ "[") (by omega)
    simp only [Nat.cast_zero] at h2
    simp only [Accept, (printer_leaf p (f + 1)).2.2.2.2.1, ne_eq, not_true_eq_false, if_false]
    rw [h2]
    simp only [(printer_leaf p (f + 1)).2.2.2.2.2.1, compact, itemsText_zero,
      String.append_assoc]
  | .map valuelist valuesmap, fuel, w, h => by
    simp only [depth] at h
    obtain ⟨f, rfl⟩ : ∃ f, fuel = f + 1 := ⟨fuel - 1, by omega⟩
    have h2 := printer_entries p valuelist f
      ((jsonSimplePrinter p (f + 1)).LeaveMap (.map valuelist valuesmap)) 0 (w ++ "\x7b") (by omega)
    simp only [Nat.cast_zero, zero_sub] at h2
    simp only [Accept, (printer_leaf p (f + 1)).2.2.2.2.2.2.1, ne_eq, not_true_eq_false,
      if_false]
    rw [h2]
    simp only [(printer_leaf p (f + 1)).2.2.2.2.2.2.2, compact, itemsText_zero,
      String.append_assoc]
/-- The array loop of the printer: the elements' texts, comma-separated. -/
theorem printer_values (p : Platform) : (values : List Object) → ∀ (f : Nat)
    (leave : String → Int × String) (i : Nat) (w : String), depthOfValues values ≤ f →
    arrayAcceptLoop (jsonSimplePrinter p (f + 1)).VisitArrayItem leave values (i : Int) w
      = leave (w ++ itemsText (compactValues p values) i)
  | [], f, leave, i, w, _ => by
    simp [arrayAcceptLoop, compactValues, itemsText]
  | v :: rest, f, leave, i, w, h => by
    simp only [depthOfValues] at h
    have h1 := printer_accept p v f (if 0 ≠ (i : Int) then w ++ "," else w) (by omega)
    have h2 := printer_values p rest f leave (i + 1)
      ((if 0 ≠ (i : Int) then w ++ "," else w) ++ compact p v) (by omega)
    rw [arrayAcceptLoop_cons, printer_VisitArrayItem, h1]
    simp only [ne_eq, not_true_eq_false, if_false]
    push_cast at h2
    rw [h2]
    congr 1
    by_cases hi : i = 0
    · subst hi
      simp only [compactValues, itemsText, String.append_assoc, ↓reduceIte, ne_eq, Nat.cast_zero,
        not_true_eq_false, String.empty_append]
    · have : ¬ (0 : Int) = (i : Int) := by omega
      simp only [hi, this, compactValues, itemsText, String.append_assoc, ↓reduceIte, ne_eq,
        not_false_eq_true]
/-- The map loop of the printer: the entries' texts, comma-separated. -/
theorem printer_entries (p : Platform) : (valuelist : List (String × Object)) → ∀ (f : Nat)
    (leave : String → Int × String) (i : Nat) (w : String), depthOfEntries valuelist ≤ f →
    mapAcceptLoop (jsonSimplePrinter p (f + 1)).VisitMapItem leave valuelist ((i : Int) - 1) w
      = leave (w ++ itemsText (compactEntries p valuelist) i)
  | [], f, leave, i, w, _ => by
    simp [mapAcceptLoop, compactEntries, itemsText]
  | (k, v) :: next, f, leave, i, w, h => by
    simp only [depthOfEntries] at h
    have h1 := printer_accept p v f
      ((if 0 ≠ (i : Int) then w ++ "," else w) ++ "\"" ++ k ++ "\":") (by omega)
    have h2 := printer_entries p next f leave (i + 1)
      ((if 0 ≠ (i : Int) then w ++ "," else w) ++ "\"" ++ k ++ "\":" ++ compact p v) (by omega)
    rw [mapAcceptLoop_cons, sub_add_cancel, printer_VisitMapItem, h1]
    simp only [ne_eq, not_true_eq_false, if_false]
    have e1 : (((i + 1 : Nat) : Int) - 1) = (i : Int) := by push_cast; ring
    rw [e1] at h2
    rw [h2]
    congr 1
    by_cases hi : i = 0
    · subst hi
      simp only [compactEntries, itemsText, String.append_assoc, ↓reduceIte, ne_eq, Nat.cast_zero,
        not_true_eq_false, String.empty_append]
    · have : ¬ (0 : Int) = (i : Int) := by omega
      simp only [hi, this, compactEntries, itemsText, String.append_assoc, ↓reduceIte, ne_eq,
        not_false_eq_true]
end

/-- C7 (printer output). For every tree `v`, platform and sink content `w`:
`v.Accept(printer)`, with fuel for the depth of `v`, returns 0 and leaves the
sink holding `w` followed by `compact v` and nothing else, where `compact` is
`null`, `true`/`false`, the string between double quotes and otherwise
verbatim, the number's `String()`, `[`..`]` around the elements' texts joined
by single commas, `{`..`}` around the entries `"key":value` joined by single
commas in list order. The empty array and the empty map print as `[]` and `{}`. -/
theorem C7_printer_output (p : Platform) (v : Object) (fuel : Nat) (w : String)
    (h : depth v ≤ fuel) :
    Accept v (jsonSimplePrinter p fuel) w = (0, w ++ compact p v)
    ∧ compact p (.array []) = "[]" ∧ compact p (.map [] []) = "\x7b\x7d" :=
  ⟨printer_accept p v fuel w h, rfl, rfl⟩

/-- C7 on the tree of `{"a":1,"b":[true,null,"x"]}`. -/
theorem C7_printer_output_witness :
    depth exampleDoc ≤ 2
    ∧ Accept exampleDoc (jsonSimplePrinter examplePlatform 2) ""
      = (0, "\x7b\"a\":1,\"b\":[true,null,\"x\"]\x7d") :=
  ⟨by decide, (C7_printer_output examplePlatform exampleDoc 2 "" (by decide)).1⟩

/-! ## Errors at the closing delimiter -/

/-- C9 at the failing inputs. On the cut-off text `[1` the read of the closing
`]` fails with the end of the input, and on streams whose closing read yields
an error item it fails with that error; `readArray` and `readMap` drop the
result of that `Token` call, and the build succeeds with the array `[1]` or
the map `{"a":1}`. -/
theorem C9_closing_error_ignored :
    Decoder.Token [] = (.error (.decoder "EOF"), [])
    ∧ LoadObject [.tok (.Delim '['), .tok (.float64 one)]
      = some (.ok (.array [.number one]), [])
    ∧ LoadObject [.tok (.Delim '['), .tok (.float64 one), .err "unexpected EOF" false]
      = some (.ok (.array [.number one]), [])
    ∧ LoadObject [.tok (.Delim '{'), .tok (.string "a"), .tok (.float64 one),
        .err "unexpected EOF" false]
      = some (.ok (.map [("a", .number one)] [("a", 0)]), []) :=
  ⟨rfl, rfl, rfl, rfl⟩

/-! ## Numbers -/

theorem log2Fuel_spec : ∀ (fuel n : Nat), n ≤ fuel → n ≠ 0 →
    2 ^ log2Fuel fuel n ≤ n ∧ n < 2 ^ (log2Fuel fuel n + 1) := by
  intro fuel
  induction fuel with
  | zero => intro n h h0; omega
  | succ fuel ih =>
    intro n h h0
    by_cases h2 : n < 2
    · have : n = 1 := by omega
      subst this
      simp [log2Fuel]
    · have hd : n / 2 ≤ fuel := by omega
      have hd0 : n / 2 ≠ 0 := by omega
      obtain ⟨h3, h4⟩ := ih (n / 2) hd hd0
      simp only [log2Fuel, h2, if_false]
      constructor
      · rw [pow_succ]; omega
      · rw [pow_succ]; omega

theorem log2_spec (n : Nat) (h0 : n ≠ 0) : 2 ^ log2 n ≤ n ∧ n < 2 ^ (log2 n + 1) :=
  log2Fuel_spec n n (le_refl n) h0

theorem log2_unique (n L : Nat) (h1 : 2 ^ L ≤ n) (h2 : n < 2 ^ (L + 1)) : log2 n = L := by
  have h0 : n ≠ 0 := by
    have := pow_pos (by norm_num : (0 : Nat) < 2) L
    omega
  obtain ⟨h3, h4⟩ := log2_spec n h0
  have a : log2 n < L + 1 := by
    by_contra hc
    have := Nat.pow_le_pow_right (n := 2) (by norm_num) (Nat.le_of_not_lt hc)
    omega
  have b : L < log2 n + 1 := by
    by_contra hc
    have := Nat.pow_le_pow_right (n := 2) (by norm_num) (Nat.le_of_not_lt hc)
    omega
  omega

theorem log2_mul_pow (n j : Nat) (h0 : n ≠ 0) : log2 (n * 2 ^ j) = log2 n + j := by
  obtain ⟨h1, h2⟩ := log2_spec n h0
  apply log2_unique
  · rw [pow_add]; exact Nat.mul_le_mul_right _ h1
  · have : 2 ^ (log2 n + j + 1) = 2 ^ (log2 n + 1) * 2 ^ j := by ring
    rw [this]
    exact Nat.mul_lt_mul_of_pos_right h2 (pow_pos (by norm_num) j)

theorem pack_subnormal (s : Bool) (m : Nat) (e : Int) (h : m < 4503599627370496) :
    pack s m e = ⟨s, 0, (m : Fin 4503599627370496)⟩
    ∧ (pack s m e).mantissa = m ∧ (pack s m e).exponent = -1074
    ∧ (pack s m e).sign = s ∧ (pack s m e).isFinite = true := by
  have h1 : pack s m e = ⟨s, 0, (m : Fin 4503599627370496)⟩ := by simp [pack, h]
  refine ⟨h1, ?_, ?_, ?_, ?_⟩ <;> rw [h1]
  · simp [Float64.mantissa, Fin.val_cast_of_lt h]
  · simp [Float64.exponent]
  · simp [Float64.isFinite]

theorem pack_normal (s : Bool) (m : Nat) (e : Int) (h1 : 4503599627370496 ≤ m)
    (h2 : m < 9007199254740992) (h3 : -1074 ≤ e) (h4 : e ≤ 971) :
    (pack s m e).mantissa = m ∧ (pack s m e).exponent = e
    ∧ (pack s m e).sign = s ∧ (pack s m e).isFinite = true
    ∧ (pack s m e).expo.val = (e + 1075).toNat
    ∧ (pack s m e).frac.val = m - 4503599627370496 := by
  have hm : ¬ m < 4503599627370496 := by omega
  have hm2 : ¬ m = 9007199254740992 := by omega
  have he : ¬ (2047 : Int) ≤ e + 1075 := by omega
  have hp : pack s m e = ⟨s, ((e + 1075).toNat : Fin 2048),
      ((m - 4503599627370496 : Nat) : Fin 4503599627370496)⟩ := by
    unfold pack
    rw [if_neg hm]
    simp only [hm2, if_false]
    rw [if_neg he]
  have hx : (e + 1075).toNat < 2048 := by omega
  have hf : m - 4503599627370496 < 4503599627370496 := by omega
  have hx0 : (e + 1075).toNat ≠ 0 := by omega
  rw [hp]
  refine ⟨?_, ?_, rfl, ?_, ?_, ?_⟩
  · simp only [Float64.mantissa, Fin.val_cast_of_lt hx, Fin.val_cast_of_lt hf, hx0, if_false]
    omega
  · simp only [Float64.exponent, Fin.val_cast_of_lt hx, hx0, if_false]
    omega
  · simp only [Float64.isFinite, Fin.val_cast_of_lt hx, decide_eq_true_eq]
    omega
  · exact Fin.val_cast_of_lt hx
  · exact Fin.val_cast_of_lt hf

theorem Float64.representable (d : Float64) (h : d.isFinite = true) :
    Representable d.mantissa d.exponent := by
  have hf := d.frac.isLt
  simp only [Float64.isFinite, decide_eq_true_eq] at h
  by_cases h0 : d.expo.val = 0
  · right
    simp only [Float64.mantissa, Float64.exponent, h0, if_true]
    exact ⟨hf, trivial⟩
  · left
    simp only [Float64.mantissa, Float64.exponent, h0, if_false]
    omega

theorem Float64.ext_val (x y : Float64) (h1 : x.sign = y.sign) (h2 : x.expo.val = y.expo.val)
    (h3 : x.frac.val = y.frac.val) : x = y := by
  obtain ⟨s, a, f⟩ := x
  obtain ⟨s2, a2, f2⟩ := y
  cases h1
  cases Fin.ext h2
  cases Fin.ext h3
  rfl

theorem pack_self (d : Float64) (h : d.isFinite = true) :
    pack d.sign d.mantissa d.exponent = d := by
  have hf := d.frac.isLt
  simp only [Float64.isFinite, decide_eq_true_eq] at h
  by_cases h0 : d.expo.val = 0
  · have hm : d.mantissa = d.frac.val := by simp [Float64.mantissa, h0]
    rw [hm, (pack_subnormal d.sign d.frac.val d.exponent hf).1]
    apply Float64.ext_val
    · rfl
    · exact h0.symm
    · exact Fin.val_cast_of_lt hf
  · have hm : d.mantissa = 4503599627370496 + d.frac.val := by simp [Float64.mantissa, h0]
    have he : d.exponent = (d.expo.val : Int) - 1075 := by simp [Float64.exponent, h0]
    obtain ⟨_, _, h3, _, h5, h6⟩ := pack_normal d.sign d.mantissa d.exponent
      (by omega) (by omega) (by omega) (by omega)
    apply Float64.ext_val
    · exact h3
    · rw [h5, he]; omega
    · rw [h6, hm]; omega

theorem log2_representable (m : Nat) (e : Int) (h : Representable m e) (h0 : m ≠ 0) :
    max (e + (log2 m : Int) - 52) (-1074) = e := by
  rcases h with ⟨h1, h2, h3, h4⟩ | ⟨h1, h2⟩
  · have : log2 m = 52 := log2_unique m 52 (by norm_num; exact h1) (by norm_num; exact h2)
    rw [this]
    omega
  · have hl : log2 m < 52 := by
      by_contra hc
      have := Nat.pow_le_pow_right (n := 2) (by norm_num) (Nat.le_of_not_lt hc)
      have := (log2_spec m h0).1
      norm_num at *
      omega
    omega

theorem roundShift_exact (m j : Nat) : roundShift (m * 2 ^ j) j = m := by
  have hp : 0 < 2 ^ j := pow_pos (by norm_num) j
  have hh : 0 < 2 ^ (j - 1) := pow_pos (by norm_num) (j - 1)
  have hq : m * 2 ^ j / 2 ^ j = m := Nat.mul_div_cancel m hp
  have hr : m * 2 ^ j % 2 ^ j = 0 := Nat.mul_mod_left m (2 ^ j)
  simp only [roundShift, hq, hr]
  have h1 : ¬ (0 > 2 ^ (j - 1) ∨ (0 = 2 ^ (j - 1) ∧ m % 2 = 1)) := by omega
  rw [if_neg h1]

/-- Rounding an exactly representable value, written with more bits. -/
theorem roundDyadic_exact_mul (s : Bool) (m : Nat) (e : Int) (j : Nat)
    (h : Representable m e) (h0 : m ≠ 0) :
    roundDyadic s (m * 2 ^ j) (e - j) = pack s m e := by
  have hn : m * 2 ^ j ≠ 0 := Nat.mul_ne_zero h0 (pow_pos (by norm_num : 0 < 2) j).ne'
  have he2 : max (e - (j : Int) + ((log2 (m * 2 ^ j) : Nat) : Int) - 52) (-1074) = e := by
    rw [log2_mul_pow m j h0]
    have := log2_representable m e h h0
    push_cast
    have e1 : e - (j : Int) + ((log2 m : Int) + (j : Int)) - 52 = e + (log2 m : Int) - 52 := by
      ring
    rw [e1]
    exact this
  simp only [roundDyadic, hn, if_false, he2]
  by_cases hj : j = 0
  · subst hj
    simp
  · have h1 : ¬ (e ≤ e - (j : Int)) := by omega
    have h2 : (e - (e - (j : Int))).toNat = j := by
      have : e - (e - (j : Int)) = (j : Int) := by ring
      rw [this]
      simp
    rw [if_neg h1, h2, roundShift_exact m j]

/-- Rounding an exactly representable value, written with fewer bits. -/
theorem roundDyadic_exact_div (s : Bool) (m n : Nat) (e : Int) (j : Nat)
    (h : Representable m e) (h0 : m ≠ 0) (hm : m = n * 2 ^ j) :
    roundDyadic s n (e + j) = pack s m e := by
  have hn : n ≠ 0 := by
    rintro rfl
    simp at hm
    exact h0 hm
  have he2 : max (e + (j : Int) + ((log2 n : Nat) : Int) - 52) (-1074) = e := by
    have := log2_representable m e h h0
    rw [hm, log2_mul_pow n j hn] at this
    push_cast at this
    have e1 : e + (j : Int) + (log2 n : Int) - 52 = e + ((log2 n : Int) + (j : Int)) - 52 := by
      ring
    rw [e1]
    exact this
  simp only [roundDyadic, hn, if_false, he2]
  have h1 : e ≤ e + (j : Int) := by omega
  have h2 : (e + (j : Int) - e).toNat = j := by
    have : e + (j : Int) - e = (j : Int) := by ring
    rw [this]
    simp
  rw [if_pos h1, h2, ← hm]

theorem Float64.finite_not_nan (x : Float64) (h : x.isFinite = true) : x.isNaN = false := by
  simp only [Float64.isFinite, decide_eq_true_eq] at h
  have : ¬ x.expo.val = 2047 := by omega
  simp [Float64.isNaN, this]

/-- The difference of two finite doubles with equal scaled significands is a
zero. -/
theorem sub_ne_zero_false (x y : Float64) (hx : x.isFinite = true) (hy : y.isFinite = true)
    (h : x.signed * 2 ^ (x.exponent - min x.exponent y.exponent).toNat
      - y.signed * 2 ^ (y.exponent - min x.exponent y.exponent).toNat = 0) :
    (x.sub y).ne Float64.zero = false := by
  have h1 : x.sub y = ⟨x.sign && !y.sign, 0, 0⟩ := by
    simp only [Float64.sub, Float64.finite_not_nan x hx, Float64.finite_not_nan y hy, hx, hy,
      Bool.or_self, Bool.false_eq_true, if_false, Bool.not_true, h, if_true]
  rw [h1]
  simp [Float64.ne, Float64.isNaN, Float64.isFinite, Float64.mantissa, Float64.zero]

theorem float64_zero : float64 0 = ⟨false, 0, 0⟩ := by
  simp [float64, roundDyadic]

theorem Float64.mantissa_zero_exponent (d : Float64) (h0 : d.mantissa = 0) :
    d.exponent = -1074 := by
  by_cases h : d.expo.val = 0
  · simp [Float64.exponent, h]
  · simp only [Float64.mantissa, h, if_false] at h0
    omega

theorem Float64.trunc_natAbs (d : Float64) :
    d.trunc.natAbs =
      if 0 ≤ d.exponent then d.mantissa * 2 ^ d.exponent.toNat
      else d.mantissa / 2 ^ (-d.exponent).toNat := by
  unfold Float64.trunc
  cases d.sign <;>
    simp only [Bool.false_eq_true, if_false, if_true, Int.natAbs_neg, Int.natAbs_ofNat]

theorem Float64.trunc_neg (d : Float64) (h : d.trunc ≠ 0) :
    decide (d.trunc < 0) = d.sign := by
  unfold Float64.trunc at h ⊢
  cases hs : d.sign
  · simp only [Bool.false_eq_true, if_false, decide_eq_false_iff_not, not_lt]
    omega
  · simp only [hs, if_true] at h
    simp only [if_true, decide_eq_true_eq]
    omega

/-- A finite double with zero fractional part is what its truncation converts
back to, unless it is a zero, which converts back to `+0`. -/
theorem float64_trunc (d : Float64) (hfin : d.isFinite = true)
    (hint : 0 ≤ d.exponent ∨ 2 ^ (-d.exponent).toNat ∣ d.mantissa) :
    (d.mantissa = 0 ∧ float64 d.trunc = ⟨false, 0, 0⟩) ∨ (d.mantissa ≠ 0 ∧ float64 d.trunc = d) := by
  by_cases h0 : d.mantissa = 0
  · left
    refine ⟨h0, ?_⟩
    have : d.trunc = 0 := by
      have := Float64.trunc_natAbs d
      rw [h0] at this
      simp only [zero_mul, Nat.zero_div, ite_self] at this
      exact Int.natAbs_eq_zero.mp this
    rw [this, float64_zero]
  · right
    refine ⟨h0, ?_⟩
    have hrep := Float64.representable d hfin
    have hna := Float64.trunc_natAbs d
    by_cases he : 0 ≤ d.exponent
    · rw [if_pos he] at hna
      have hne : d.trunc ≠ 0 := by
        intro hz
        rw [hz] at hna
        simp only [Int.natAbs_zero] at hna
        have := Nat.mul_ne_zero h0 (pow_pos (by norm_num : 0 < 2) d.exponent.toNat).ne'
        omega
      unfold float64
      rw [Float64.trunc_neg d hne, hna]
      have h1 := roundDyadic_exact_mul d.sign d.mantissa d.exponent d.exponent.toNat hrep h0
      have e1 : d.exponent - ((d.exponent.toNat : Nat) : Int) = 0 := by omega
      rw [e1] at h1
      rw [h1, pack_self d hfin]
    · rw [if_neg he] at hna
      have hdvd : 2 ^ (-d.exponent).toNat ∣ d.mantissa := by
        rcases hint with h | h
        · exact absurd h he
        · exact h
      have hm : d.mantissa = d.trunc.natAbs * 2 ^ (-d.exponent).toNat := by
        rw [hna]
        exact (Nat.div_mul_cancel hdvd).symm
      have hne : d.trunc ≠ 0 := by
        intro hz
        rw [hz] at hm
        simp at hm
        exact h0 hm
      unfold float64
      rw [Float64.trunc_neg d hne]
      have h1 := roundDyadic_exact_div d.sign d.mantissa d.trunc.natAbs d.exponent
        (-d.exponent).toNat hrep h0 hm
      have e1 : d.exponent + (((-d.exponent).toNat : Nat) : Int) = 0 := by omega
      rw [e1] at h1
      rw [h1, pack_self d hfin]

/-- `Number` on a finite double with zero fractional part that fits `int64`. -/
theorem Number_integer (p : Platform) (d : Float64) (hfin : d.isFinite = true)
    (hint : 0 ≤ d.exponent ∨ 2 ^ (-d.exponent).toNat ∣ d.mantissa)
    (hlo : -9223372036854775808 ≤ d.trunc) (hhi : d.trunc < 9223372036854775808) :
    Number p d = .int64 d.trunc := by
  have hi : int64 p d = d.trunc := by
    unfold int64
    rw [if_pos ⟨hfin, hlo, hhi⟩]
  have hz : (d.sub (float64 d.trunc)).ne Float64.zero = false := by
    rcases float64_trunc d hfin hint with ⟨h0, hy⟩ | ⟨_, hy⟩
    · rw [hy]
      apply sub_ne_zero_false d _ hfin (by decide)
      have hs : d.signed = 0 := by simp [Float64.signed, h0]
      have hs2 : (⟨false, 0, 0⟩ : Float64).signed = 0 := by decide
      rw [hs, hs2]
      simp
    · rw [hy]
      apply sub_ne_zero_false d d hfin hfin
      simp
  simp only [Number, hi, hz, Bool.false_eq_true, if_false]

theorem Float64.ne_zero_of_mantissa (x : Float64) (h : x.mantissa ≠ 0) :
    x.ne Float64.zero = true := by
  have hne : x ≠ Float64.zero := by
    intro hc
    rw [hc] at h
    exact h (by decide)
  simp only [Float64.ne, h, hne, decide_False, Bool.and_false, Bool.false_and, Bool.not_false,
    ne_eq, not_false_eq_true, decide_True, Bool.and_self, Bool.or_true]

theorem Float64.mantissa_ne_zero_of_expo (x : Float64) (h : x.expo.val ≠ 0) :
    x.mantissa ≠ 0 := by
  simp only [Float64.mantissa, h, if_false]
  omega

theorem pack_ne_zero (s : Bool) (m : Nat) (e : Int) (hm : m ≠ 0) (he : -1074 ≤ e) :
    (pack s m e).ne Float64.zero = true := by
  apply Float64.ne_zero_of_mantissa
  by_cases h : m < 4503599627370496
  · rw [(pack_subnormal s m e h).2.1]
    exact hm
  · apply Float64.mantissa_ne_zero_of_expo
    unfold pack
    rw [if_neg h]
    simp only
    by_cases h2 : m = 9007199254740992
    · simp only [h2, if_true]
      split
      · show (2047 : Fin 2048).val ≠ 0
        decide
      · rename_i h3
        rw [Fin.val_cast_of_lt (by omega)]
        omega
    · simp only [h2, if_false]
      split
      · show (2047 : Fin 2048).val ≠ 0
        decide
      · rename_i h3
        rw [Fin.val_cast_of_lt (by omega)]
        omega

theorem roundShift_ge (n s : Nat) : n / 2 ^ s ≤ roundShift n s := by
  unfold roundShift
  simp only
  split <;> omega

/-- Rounding a non-zero value that is no smaller than the least subnormal
does not give a zero. -/
theorem roundDyadic_ne_zero (s : Bool) (n : Nat) (E : Int) (hn : n ≠ 0) (hE : -1074 ≤ E) :
    (roundDyadic s n E).ne Float64.zero = true := by
  simp only [roundDyadic, hn, if_false]
  apply pack_ne_zero
  · split
    · exact Nat.mul_ne_zero hn (pow_pos (by norm_num : 0 < 2) _).ne'
    · rename_i h
      have hmax : max (E + (log2 n : Int) - 52) (-1074) = E + (log2 n : Int) - 52 := by
        rcases max_cases (E + (log2 n : Int) - 52) (-1074) with ⟨h1, _⟩ | ⟨h1, _⟩
        · exact h1
        · rw [h1] at h; omega
      rw [hmax] at h ⊢
      have hL : 52 < log2 n := by omega
      have e1 : (E + (log2 n : Int) - 52 - E).toNat = log2 n - 52 := by omega
      rw [e1]
      have h2 := (log2_spec n hn).1
      have h3 : 2 ^ log2 n = 2 ^ (log2 n - 52) * 2 ^ 52 := by
        rw [← pow_add]
        congr 1
        omega
      have h4 : 2 ^ 52 ≤ n / 2 ^ (log2 n - 52) := by
        rw [Nat.le_div_iff_mul_le (pow_pos (by norm_num) _)]
        rw [mul_comm]
        rw [h3] at h2
        exact h2
      have := roundShift_ge n (log2 n - 52)
      have h5 : 0 < 2 ^ 52 := by norm_num
      omega
  · exact le_max_right _ _

theorem Float64.ne_zero_of_not_finite (x : Float64) (h : x.isFinite = false) :
    x.ne Float64.zero = true := by
  have hne : x ≠ Float64.zero := by
    intro hc
    rw [hc] at h
    exact absurd h (by decide)
  simp only [Float64.ne, h, hne, Bool.false_and, Bool.not_false, ne_eq, not_false_eq_true,
    decide_True, Bool.and_self, Bool.or_true]

/-- `Number` on a NaN or an infinity: the double itself. -/
theorem Number_not_finite (p : Platform) (d : Float64) (h : d.isFinite = false) :
    Number p d = .float64 d := by
  have hz : (d.sub (float64 (int64 p d))).ne Float64.zero = true := by
    unfold Float64.sub
    split
    · decide
    · simp only [h, Bool.not_false, if_true]
      split
      · decide
      · exact Float64.ne_zero_of_not_finite d h
  simp only [Number, hz, if_true]

theorem two_zpow_toNat (k : Int) (hk : 0 ≤ k) : ((2 : ℚ) ^ k.toNat) = (2 : ℚ) ^ k := by
  rw [← zpow_natCast, Int.toNat_of_nonneg hk]

/-- The scaled difference `Float64.sub` rounds is the exact difference. -/
theorem sub_exact (x y : Float64) :
    ((x.signed * 2 ^ (x.exponent - min x.exponent y.exponent).toNat
        - y.signed * 2 ^ (y.exponent - min x.exponent y.exponent).toNat : Int) : ℚ)
      * (2 : ℚ) ^ (min x.exponent y.exponent) = x.toRat - y.toRat := by
  have h1 : 0 ≤ x.exponent - min x.exponent y.exponent := by
    have := min_le_left x.exponent y.exponent
    omega
  have h2 : 0 ≤ y.exponent - min x.exponent y.exponent := by
    have := min_le_right x.exponent y.exponent
    omega
  push_cast
  rw [two_zpow_toNat _ h1, two_zpow_toNat _ h2, sub_mul, mul_assoc, mul_assoc,
    ← zpow_add₀ (two_ne_zero), ← zpow_add₀ (two_ne_zero)]
  simp [Float64.toRat]

/-- A small integer converts to a double of exactly that value. -/
theorem float64_small (t : Int) (h : t.natAbs < 9007199254740992) :
    (float64 t).isFinite = true ∧ (float64 t).toRat = t := by
  by_cases h0 : t = 0
  · subst h0
    rw [float64_zero]
    refine ⟨by decide, ?_⟩
    simp [Float64.toRat, Float64.signed, Float64.mantissa]
  · have hn : t.natAbs ≠ 0 := by simpa using h0
    obtain ⟨h1, h2⟩ := log2_spec t.natAbs hn
    have hL : log2 t.natAbs ≤ 52 := by
      by_contra hc
      have := Nat.pow_le_pow_right (n := 2) (by norm_num) (Nat.lt_of_not_le hc)
      norm_num at this
      omega
    have hp : 2 ^ log2 t.natAbs * 2 ^ (52 - log2 t.natAbs) = 2 ^ 52 := by
      rw [← pow_add]
      congr 1
      omega
    have hp2 : 2 ^ (log2 t.natAbs + 1) * 2 ^ (52 - log2 t.natAbs) = 2 ^ 53 := by
      rw [← pow_add]
      congr 1
      omega
    have hpos : 0 < 2 ^ (52 - log2 t.natAbs) := pow_pos (by norm_num) _
    have hm1 : 4503599627370496 ≤ t.natAbs * 2 ^ (52 - log2 t.natAbs) := by
      have := Nat.mul_le_mul_right (2 ^ (52 - log2 t.natAbs)) h1
      rw [hp] at this
      norm_num at this
      exact this
    have hm2 : t.natAbs * 2 ^ (52 - log2 t.natAbs) < 9007199254740992 := by
      have := Nat.mul_lt_mul_of_pos_right h2 hpos
      rw [hp2] at this
      norm_num at this
      exact this
    have hrep : Representable (t.natAbs * 2 ^ (52 - log2 t.natAbs))
        (-((52 - log2 t.natAbs : Nat) : Int)) := by
      left
      exact ⟨hm1, hm2, by omega, by omega⟩
    have hr := roundDyadic_exact_div (decide (t < 0)) _ t.natAbs _ (52 - log2 t.natAbs) hrep
      (by omega) rfl
    have e1 : -((52 - log2 t.natAbs : Nat) : Int) + ((52 - log2 t.natAbs : Nat) : Int) = 0 := by
      omega
    rw [e1] at hr
    obtain ⟨p1, p2, p3, p4, -, -⟩ := pack_normal (decide (t < 0)) _
      (-((52 - log2 t.natAbs : Nat) : Int)) hm1 hm2 (by omega) (by omega)
    unfold float64
    rw [hr]
    refine ⟨p4, ?_⟩
    simp only [Float64.toRat, Float64.signed, p1, p2, p3]
    have hq : ((2 : ℚ) ^ (52 - log2 t.natAbs)) * (2 : ℚ) ^ (-((52 - log2 t.natAbs : Nat) : Int))
        = 1 := by
      rw [zpow_neg, zpow_natCast]
      exact mul_inv_cancel₀ (pow_ne_zero _ two_ne_zero)
    by_cases hneg : t < 0
    · have hq0 : (t : ℚ) < 0 := by exact_mod_cast hneg
      simp only [hneg, decide_True, if_true]
      push_cast
      rw [neg_mul, mul_assoc, hq, mul_one, abs_of_neg hq0]
      ring
    · have hq0 : (0 : ℚ) ≤ (t : ℚ) := by exact_mod_cast (le_of_not_lt hneg)
      simp only [hneg, decide_False, Bool.false_eq_true, if_false]
      push_cast
      rw [mul_assoc, hq, mul_one, abs_of_nonneg hq0]

theorem Float64.exponent_ge (x : Float64) : -1074 ≤ x.exponent := by
  unfold Float64.exponent
  split <;> omega

theorem Float64.signed_natAbs (x : Float64) : x.signed.natAbs = x.mantissa := by
  unfold Float64.signed
  split <;> simp

/-- A finite double whose last significand bits below the binary point are
not all zero is not an integer. -/
theorem toRat_not_int (d : Float64) (he : d.exponent < 0)
    (hnd : ¬ 2 ^ (-d.exponent).toNat ∣ d.mantissa) (z : Int) : d.toRat ≠ z := by
  intro h
  apply hnd
  have hk : ((-d.exponent).toNat : Int) = -d.exponent := Int.toNat_of_nonneg (by omega)
  have h1 : (d.signed : ℚ) = (z : ℚ) * (2 : ℚ) ^ (-d.exponent).toNat := by
    rw [← h, Float64.toRat, mul_assoc, ← zpow_natCast, hk, ← zpow_add₀ two_ne_zero]
    simp
  have h2 : d.signed = z * 2 ^ (-d.exponent).toNat := by exact_mod_cast h1
  have h3 := congrArg Int.natAbs h2
  rw [Float64.signed_natAbs, Int.natAbs_mul, Int.natAbs_pow] at h3
  rw [h3]
  exact Dvd.intro_left _ rfl

/-- A finite double with zero fractional part has the value of its truncation. -/
theorem toRat_trunc (d : Float64)
    (hint : 0 ≤ d.exponent ∨ 2 ^ (-d.exponent).toNat ∣ d.mantissa) :
    (d.trunc : ℚ) = d.toRat := by
  by_cases he : 0 ≤ d.exponent
  · have ht : d.trunc = d.signed * 2 ^ d.exponent.toNat := by
      unfold Float64.trunc Float64.signed
      simp only [he, if_true]
      split <;> push_cast <;> ring
    rw [ht, Float64.toRat]
    push_cast
    rw [two_zpow_toNat _ he]
  · have hdvd : 2 ^ (-d.exponent).toNat ∣ d.mantissa := by
      rcases hint with h | h
      · exact absurd h he
      · exact h
    obtain ⟨q, hq⟩ := hdvd
    have hk : ((-d.exponent).toNat : Int) = -d.exponent := Int.toNat_of_nonneg (by omega)
    have hpos : 0 < 2 ^ (-d.exponent).toNat := pow_pos (by norm_num) _
    have hdiv : d.mantissa / 2 ^ (-d.exponent).toNat = q := by
      rw [hq]
      exact Nat.mul_div_cancel_left q hpos
    have hpow : (2 : ℚ) ^ (-d.exponent).toNat * (2 : ℚ) ^ d.exponent = 1 := by
      rw [← zpow_natCast, hk, ← zpow_add₀ two_ne_zero]
      simp
    have ht : d.trunc = if d.sign then -(q : Int) else (q : Int) := by
      unfold Float64.trunc
      simp only [he, if_false, hdiv]
    have hs : (d.signed : ℚ) = (if d.sign then -(q : ℚ) else (q : ℚ))
        * (2 : ℚ) ^ (-d.exponent).toNat := by
      unfold Float64.signed
      rw [hq]
      split <;> push_cast <;> ring
    rw [ht, Float64.toRat, hs, mul_assoc, hpow, mul_one]
    split <;> push_cast <;> rfl

/-- `Number` on a finite double with a non-zero fractional part: the double
itself. -/
theorem Number_fraction (p : Platform) (d : Float64) (hfin : d.isFinite = true)
    (he : d.exponent < 0) (hnd : ¬ 2 ^ (-d.exponent).toNat ∣ d.mantissa) :
    Number p d = .float64 d := by
  have hm : d.mantissa < 9007199254740992 := by
    rcases Float64.representable d hfin with ⟨_, h, _, _⟩ | ⟨h, _⟩ <;> omega
  have hna : d.trunc.natAbs ≤ d.mantissa := by
    rw [Float64.trunc_natAbs, if_neg (by omega)]
    exact Nat.div_le_self _ _
  have hi : int64 p d = d.trunc := by
    unfold int64
    rw [if_pos ⟨hfin, by omega, by omega⟩]
  obtain ⟨yfin, yrat⟩ := float64_small d.trunc (by omega)
  have hr : d.signed * 2 ^ (d.exponent - min d.exponent (float64 d.trunc).exponent).toNat
      - (float64 d.trunc).signed
        * 2 ^ ((float64 d.trunc).exponent - min d.exponent (float64 d.trunc).exponent).toNat
      ≠ 0 := by
    intro h0
    have := sub_exact d (float64 d.trunc)
    rw [h0, yrat] at this
    simp only [Int.cast_zero, zero_mul] at this
    exact toRat_not_int d he hnd d.trunc (sub_eq_zero.mp this.symm)
  have hz : (d.sub (float64 d.trunc)).ne Float64.zero = true := by
    simp only [Float64.sub, Float64.finite_not_nan d hfin,
      Float64.finite_not_nan _ yfin, hfin, yfin, Bool.or_self, Bool.false_eq_true, if_false,
      Bool.not_true, hr]
    apply roundDyadic_ne_zero
    · exact Int.natAbs_ne_zero.mpr hr
    · exact le_min (Float64.exponent_ge d) (Float64.exponent_ge _)
  simp only [Number, hi, hz, if_true]

theorem five_toRat : five.toRat = 5 := by
  have h1 : five.signed = 5629499534213120 := by decide
  have h2 : five.exponent = -50 := by decide
  rw [Float64.toRat, h1, h2]
  norm_num

theorem fiveAndHalf_toRat : fiveAndHalf.toRat = 11 / 2 := by
  have h1 : fiveAndHalf.signed = 6192449487634432 := by decide
  have h2 : fiveAndHalf.exponent = -50 := by decide
  rw [Float64.toRat, h1, h2]
  norm_num

theorem twoPow63_toRat : twoPow63.toRat = 9223372036854775808 := by
  have h1 : twoPow63.signed = 4503599627370496 := by decide
  have h2 : twoPow63.exponent = 11 := by decide
  rw [Float64.toRat, h1, h2]
  norm_num

/-- C8 (numeric canonicalization), amended. For every platform and stored
double `d`: if `d` is finite, has zero fractional part and lies in
`[-2^63, 2^63)`, `Number()` returns the `int64` equal to `d` truncated, which has
the value of `d`; if `d` is finite with a non-zero fractional part, or is NaN or
infinite, `Number()` returns `d` itself. Nothing is said of integer-valued
doubles outside `[-2^63, 2^63)`, where the conversion is the platform's. -/
theorem C8_numeric_canonicalization (p : Platform) (d : Float64) :
    (d.isFinite = true → (∃ z : Int, d.toRat = z) →
      -9223372036854775808 ≤ d.toRat → d.toRat < 9223372036854775808 →
      Number p d = .int64 d.trunc ∧ (d.trunc : ℚ) = d.toRat)
    ∧ (d.isFinite = true → (¬ ∃ z : Int, d.toRat = z) → Number p d = .float64 d)
    ∧ (d.isFinite = false → Number p d = .float64 d) := by
  refine ⟨?_, ?_, Number_not_finite p d⟩
  · intro hfin ⟨z, hz⟩ hlo hhi
    have hint : 0 ≤ d.exponent ∨ 2 ^ (-d.exponent).toNat ∣ d.mantissa := by
      by_contra hc
      rw [not_or] at hc
      exact toRat_not_int d (by omega) hc.2 z hz
    have ht := toRat_trunc d hint
    rw [← ht] at hlo hhi
    have h1 : -9223372036854775808 ≤ d.trunc := by exact_mod_cast hlo
    have h2 : d.trunc < 9223372036854775808 := by exact_mod_cast hhi
    exact ⟨Number_integer p d hfin hint h1 h2, ht⟩
  · intro hfin hnz
    have he : d.exponent < 0 := by
      by_contra hc
      exact hnz ⟨d.trunc, (toRat_trunc d (Or.inl (by omega))).symm⟩
    have hnd : ¬ 2 ^ (-d.exponent).toNat ∣ d.mantissa := by
      intro hc
      exact hnz ⟨d.trunc, (toRat_trunc d (Or.inr hc)).symm⟩
    exact Number_fraction p d hfin he hnd

/-- C8 on 5.0, 5.5 and `+Inf`: integer 5, the double 5.5, the double `+Inf`. -/
theorem C8_numeric_canonicalization_witness :
    Number examplePlatform five = .int64 5
    ∧ Number examplePlatform fiveAndHalf = .float64 fiveAndHalf
    ∧ Number examplePlatform ⟨false, 2047, 0⟩ = .float64 ⟨false, 2047, 0⟩ :=
  ⟨((C8_numeric_canonicalization examplePlatform five).1 (by decide)
      ⟨5, by rw [five_toRat]; norm_num⟩ (by rw [five_toRat]; norm_num)
      (by rw [five_toRat]; norm_num)).1,
   (C8_numeric_canonicalization examplePlatform fiveAndHalf).2.1 (by decide)
      (by
        rintro ⟨z, hz⟩
        rw [fiveAndHalf_toRat] at hz
        have h1 : (11 : ℚ) = 2 * z := by linarith
        have h2 : (11 : Int) = 2 * z := by exact_mod_cast h1
        omega),
   (C8_numeric_canonicalization examplePlatform ⟨false, 2047, 0⟩).2.2 (by decide)⟩

/-- C8 as stated fails on the double `2 ^ 63`: it is finite with zero
fractional part, no `int64` equals it, and on a platform that converts what
does not fit to the least `int64` (as amd64 does) `Number()` returns the double
itself. -/
theorem C8_counterexample :
    twoPow63.isFinite = true
    ∧ twoPow63.toRat = 9223372036854775808
    ∧ Number examplePlatform twoPow63 = .float64 twoPow63 :=
  ⟨by decide, twoPow63_toRat, by decide⟩

/-! ## Round trip -/

/-- C1 as stated fails on the text `"a\"b"`: it parses to the string `a"b`,
which the printer writes between quotes without escaping, as `"a"b"`; parsing
that text gives the string `a`, which is not equal to the first tree. -/
theorem C1_counterexample :
    LoadObject (NewDecoder "\"a\\\"b\"") = some (.ok (.string "a\"b"), [])
    ∧ Print examplePlatform (.string "a\"b") = "\"a\"b\""
    ∧ LoadObject (NewDecoder "\"a\"b\"")
      = some (.ok (.string "a"), [.err "invalid value" true])
    ∧ Equal examplePlatform (.string "a\"b") (.string "a") = false :=
  ⟨rfl, rfl, rfl, rfl⟩

theorem digitChar_spec (d : Nat) (h : d < 10) :
    (digitChar d).isDigit = true ∧ (digitChar d).toNat - 48 = d
    ∧ (digitChar d = '0' ↔ d = 0) ∧ digitChar d ≠ '-' := by
  interval_cases d <;> decide

theorem decimal_lt (fuel n : Nat) : ∀ d ∈ decimal fuel n, d < 10 := by
  induction fuel generalizing n with
  | zero => simp [decimal]
  | succ fuel ih =>
    intro d hd
    simp only [decimal] at hd
    split at hd
    · simp only [List.mem_singleton] at hd
      omega
    · simp only [List.mem_append, List.mem_singleton] at hd
      rcases hd with h | h
      · exact ih _ d h
      · omega

theorem digitsValue_append (a : List Nat) (d : Nat) :
    digitsValue (a ++ [d]) = 10 * digitsValue a + d := by
  simp [digitsValue, List.foldl_append]

theorem decimal_value (fuel n : Nat) (h : n < fuel) : digitsValue (decimal fuel n) = n := by
  induction fuel generalizing n with
  | zero => omega
  | succ fuel ih =>
    simp only [decimal]
    split
    · simp [digitsValue]
    · rw [digitsValue_append, ih (n / 10) (by omega)]
      omega

theorem decimal_head (fuel n : Nat) (h : n < fuel) (h0 : 0 < n) :
    ∃ a t, decimal fuel n = a :: t ∧ 0 < a ∧ a < 10 := by
  induction fuel generalizing n with
  | zero => omega
  | succ fuel ih =>
    simp only [decimal]
    split
    · exact ⟨n, [], rfl, h0, by omega⟩
    · obtain ⟨a, t, ht, ha⟩ := ih (n / 10) (by omega) (by omega)
      exact ⟨a, t ++ [n % 10], by rw [ht]; rfl, ha⟩

theorem Closes_not_digit (c : Char) (rest : List Char) (h : Closes (c :: rest) = true) :
    c.isDigit = false ∧ c ≠ '.' ∧ c ≠ 'e' ∧ c ≠ 'E' := by
  simp only [Closes, Bool.or_eq_true, decide_eq_true_eq] at h
  rcases h with (h | h) | h <;> subst h <;> decide

theorem scanDigits_closes (rest : List Char) (h : Closes rest = true) :
    scanDigits rest = ([], rest) := by
  cases rest with
  | nil => rfl
  | cons c r => simp [scanDigits, (Closes_not_digit c r h).1]

theorem scanDigits_map (ds : List Nat) (rest : List Char) (hd : ∀ d ∈ ds, d < 10)
    (h : Closes rest = true) : scanDigits (ds.map digitChar ++ rest) = (ds, rest) := by
  induction ds with
  | nil => simpa using scanDigits_closes rest h
  | cons d ds ih =>
    have h1 := digitChar_spec d (hd d (by simp))
    have h2 := ih (fun x hx => hd x (by simp [hx]))
    simp only [List.map_cons, List.cons_append, scanDigits, h1.1, if_true, h1.2.1]
    show (d :: (scanDigits (List.map digitChar ds ++ rest)).1,
      (scanDigits (List.map digitChar ds ++ rest)).2) = (d :: ds, rest)
    rw [h2]

theorem scanExponent_closes (neg : Bool) (n : Nat) (s : Int) (rest : List Char)
    (h : Closes rest = true) : scanExponent neg n s rest = some (⟨neg, n, s⟩, rest) := by
  cases rest with
  | nil => rfl
  | cons c r =>
    have hc := Closes_not_digit c r h
    simp [scanExponent, hc.2.2.1, hc.2.2.2]

theorem scanFraction_closes (neg : Bool) (ip : List Nat) (rest : List Char)
    (h : Closes rest = true) :
    scanFraction neg ip rest = some (⟨neg, digitsValue ip, 0⟩, rest) := by
  cases rest with
  | nil => rfl
  | cons c r =>
    have hc := Closes_not_digit c r h
    simp only [scanFraction, hc.2.1, if_false]
    exact scanExponent_closes neg _ 0 (c :: r) h

theorem scanInteger_decimal (neg : Bool) (n : Nat) (rest : List Char)
    (h : Closes rest = true) :
    scanInteger neg ((decimal (n + 1) n).map digitChar ++ rest) = some (⟨neg, n, 0⟩, rest) := by
  by_cases h0 : n = 0
  · subst h0
    have : (decimal (0 + 1) 0).map digitChar = ['0'] := by decide
    rw [this]
    simp only [List.cons_append, List.nil_append, scanInteger, if_true]
    rw [scanFraction_closes neg [0] rest h]
    rfl
  · obtain ⟨a, t, ht, ha0, ha⟩ := decimal_head (n + 1) n (by omega) (by omega)
    have hlt := decimal_lt (n + 1) n
    have hsd := scanDigits_map (decimal (n + 1) n) rest hlt h
    have hv := decimal_value (n + 1) n (by omega)
    have hspec := digitChar_spec a ha
    have hne : ¬ digitChar a = '0' := by
      rw [hspec.2.2.1]
      omega
    rw [ht] at hsd hv
    rw [ht]
    simp only [List.map_cons, List.cons_append] at hsd ⊢
    simp only [scanInteger, hne, if_false, hspec.1, if_true, hsd]
    rw [scanFraction_closes neg (a :: t) rest h, hv]

theorem formatInt_data (i : Int) :
    (formatInt i).data =
      if i < 0 then '-' :: (decimal (i.natAbs + 1) i.natAbs).map digitChar
      else (decimal (i.natAbs + 1) i.natAbs).map digitChar := by
  unfold formatInt formatNat
  split <;> rfl

theorem decimal_map_head (n : Nat) :
    ∃ c t, (decimal (n + 1) n).map digitChar = c :: t ∧ c.isDigit = true ∧ c ≠ '-' := by
  by_cases h0 : n = 0
  · subst h0
    exact ⟨'0', [], by decide, by decide, by decide⟩
  · obtain ⟨a, t, ht, _, ha⟩ := decimal_head (n + 1) n (by omega) (by omega)
    have hspec := digitChar_spec a ha
    exact ⟨digitChar a, t.map digitChar, by rw [ht]; rfl, hspec.1, hspec.2.2.2⟩

/-- The printed text of an integer is a number literal that reads as that
integer. -/
theorem scanNumber_formatInt (i : Int) (rest : List Char) (h : Closes rest = true) :
    scanNumber ((formatInt i).data ++ rest) = some (⟨decide (i < 0), i.natAbs, 0⟩, rest) := by
  rw [formatInt_data]
  by_cases hi : i < 0
  · simp only [hi, if_true, List.cons_append, scanNumber, decide_True]
    exact scanInteger_decimal true _ rest h
  · obtain ⟨c, t, hct, _, hc⟩ := decimal_map_head i.natAbs
    have := scanInteger_decimal false i.natAbs rest h
    rw [hct] at this
    simp only [hi, if_false, decide_False, hct, List.cons_append, scanNumber, hc]
    exact this

theorem formatInt_start (i : Int) :
    ∃ c t, (formatInt i).data = c :: t ∧ numberStart c = true := by
  rw [formatInt_data]
  by_cases hi : i < 0
  · exact ⟨'-', (decimal (i.natAbs + 1) i.natAbs).map digitChar, by simp [hi], by decide⟩
  · obtain ⟨c, t, hct, hd, _⟩ := decimal_map_head i.natAbs
    exact ⟨c, t, by simp [hi, hct], by simp [numberStart, hd]⟩

theorem scanDigits_append (a rest : List Char) (h : Closes rest = true) :
    scanDigits (a ++ rest) = ((scanDigits a).1, (scanDigits a).2 ++ rest) := by
  induction a with
  | nil => simpa [scanDigits] using scanDigits_closes rest h
  | cons c cs ih =>
    have ih2 : scanDigits (cs.append rest) = ((scanDigits cs).1, (scanDigits cs).2 ++ rest) := ih
    simp only [List.cons_append, scanDigits]
    split
    · rw [ih2]
    · rfl

theorem scanExponent_append (neg : Bool) (n : Nat) (s : Int) (cs rest : List Char)
    (l : NumberLiteral) (r : List Char) (h : Closes rest = true)
    (hs : scanExponent neg n s cs = some (l, r)) :
    scanExponent neg n s (cs ++ rest) = some (l, r ++ rest) := by
  cases cs with
  | nil =>
    simp only [scanExponent, Option.some.injEq, Prod.mk.injEq] at hs
    obtain ⟨rfl, rfl⟩ := hs
    simpa using scanExponent_closes neg n s rest h
  | cons e rest0 =>
    simp only [List.cons_append, scanExponent] at hs ⊢
    split at hs
    · rename_i he
      rw [if_pos he]
      cases rest0 with
      | nil => simp at hs
      | cons sg rest1 =>
        simp only [List.cons_append] at hs ⊢
        have hb : (if sg = '+' ∨ sg = '-' then rest1 ++ rest else sg :: (rest1 ++ rest))
            = (if sg = '+' ∨ sg = '-' then rest1 else sg :: rest1) ++ rest := by
          split <;> rfl
        rw [hb, scanDigits_append _ rest h]
        generalize (if sg = '+' ∨ sg = '-' then rest1 else sg :: rest1) = body at hs ⊢
        by_cases hne : (scanDigits body).1 = []
        · simp [hne] at hs
        · simp only [hne, if_false, Option.some.injEq, Prod.mk.injEq] at hs ⊢
          obtain ⟨rfl, rfl⟩ := hs
          exact ⟨rfl, rfl⟩
    · rename_i he
      rw [if_neg he]
      simp only [Option.some.injEq, Prod.mk.injEq] at hs
      obtain ⟨rfl, rfl⟩ := hs
      rfl

theorem scanFraction_append (neg : Bool) (ip : List Nat) (cs rest : List Char)
    (l : NumberLiteral) (r : List Char) (h : Closes rest = true)
    (hs : scanFraction neg ip cs = some (l, r)) :
    scanFraction neg ip (cs ++ rest) = some (l, r ++ rest) := by
  cases cs with
  | nil =>
    simp only [scanFraction, Option.some.injEq, Prod.mk.injEq] at hs
    obtain ⟨rfl, rfl⟩ := hs
    simpa using scanFraction_closes neg ip rest h
  | cons c rest0 =>
    simp only [List.cons_append, scanFraction] at hs ⊢
    split at hs
    · rename_i hc
      rw [if_pos hc, scanDigits_append _ rest h]
      split at hs
      · simp at hs
      · rename_i hne
        simp only [hne, if_false]
        exact scanExponent_append _ _ _ _ rest l r h hs
    · rename_i hc
      rw [if_neg hc]
      exact scanExponent_append _ _ _ (c :: rest0) rest l r h hs

theorem scanInteger_append (neg : Bool) (cs rest : List Char)
    (l : NumberLiteral) (r : List Char) (h : Closes rest = true)
    (hs : scanInteger neg cs = some (l, r)) :
    scanInteger neg (cs ++ rest) = some (l, r ++ rest) := by
  cases cs with
  | nil => simp [scanInteger] at hs
  | cons c rest0 =>
    simp only [List.cons_append, scanInteger] at hs ⊢
    split at hs
    · rename_i hc
      rw [if_pos hc]
      exact scanFraction_append _ _ _ rest l r h hs
    · rename_i hc
      rw [if_neg hc]
      split at hs
      · rename_i hd
        rw [if_pos hd]
        have := scanDigits_append (c :: rest0) rest h
        simp only [List.cons_append] at this
        rw [this]
        exact scanFraction_append _ _ _ rest l r h hs
      · simp at hs

/-- A number literal that takes a whole text is read the same when the text
goes on with a comma or a closing delimiter. -/
theorem scanNumber_append (cs rest : List Char) (l : NumberLiteral) (r : List Char)
    (h : Closes rest = true) (hs : scanNumber cs = some (l, r)) :
    scanNumber (cs ++ rest) = some (l, r ++ rest) := by
  cases cs with
  | nil => simp [scanNumber] at hs
  | cons c rest0 =>
    simp only [List.cons_append, scanNumber] at hs ⊢
    split at hs
    · rename_i hc
      rw [if_pos hc]
      exact scanInteger_append _ _ rest l r h hs
    · rename_i hc
      rw [if_neg hc]
      exact scanInteger_append _ (c :: rest0) rest l r h hs

theorem scanNumber_start (c : Char) (cs : List Char) (l : NumberLiteral) (r : List Char)
    (hs : scanNumber (c :: cs) = some (l, r)) : numberStart c = true := by
  simp only [scanNumber] at hs
  split at hs
  · rename_i hc
    simp [numberStart, hc]
  · simp only [scanInteger] at hs
    split at hs
    · rename_i hc
      subst hc
      decide
    · split at hs
      · rename_i hd
        simp [numberStart, hd]
      · simp at hs

theorem numberStart_ne (c : Char) (h : numberStart c = true) :
    c ≠ '"' ∧ c ≠ 't' ∧ c ≠ 'f' ∧ c ≠ 'n' ∧ c ≠ '[' ∧ c ≠ ']' ∧ c ≠ '{' ∧ c ≠ '}'
    ∧ c ≠ ':' ∧ c ≠ ',' ∧ isSpace c = false := by
  refine ⟨?_, ?_, ?_, ?_, ?_, ?_, ?_, ?_, ?_, ?_, ?_⟩
  all_goals first
    | (rintro rfl; revert h; decide)
    | (simp only [numberStart, Bool.or_eq_true, decide_eq_true_eq] at h
       rcases h with h | h
       · subst h; decide
       · simp only [Char.isDigit, Bool.and_eq_true, decide_eq_true_eq] at h
         simp only [isSpace, Bool.or_eq_false_iff, decide_eq_false_iff_not]
         refine ⟨⟨⟨?_, ?_⟩, ?_⟩, ?_⟩ <;> (rintro rfl; revert h; decide))

theorem decodeValue_number (c : Char) (cs : List Char) (h : numberStart c = true) :
    decodeValue (c :: cs) =
      match scanNumber (c :: cs) with
      | none => none
      | some (l, r) => if l.toFloat64.isFinite then some (.float64 l.toFloat64, r) else none := by
  obtain ⟨h1, h2, h3, h4, -⟩ := numberStart_ne c h
  simp only [decodeValue, h1, h2, h3, h4, if_false]


/-! ## The representation invariant of built trees -/

theorem WFValues_append (a b : List Object) :
    WFValues (a ++ b) = (WFValues a && WFValues b) := by
  induction a with
  | nil => simp [WFValues]
  | cons v rest ih => simp [WFValues, ih, Bool.and_assoc]

theorem WFEntries_append (a b : List (String × Object)) :
    WFEntries (a ++ b) = (WFEntries a && WFEntries b) := by
  induction a with
  | nil => simp [WFEntries]
  | cons elem next ih =>
    obtain ⟨k, v⟩ := elem
    simp [WFEntries, ih, Bool.and_assoc]

/-- The loop of `readArray` keeps the invariant when its callee does. -/
theorem readArrayLoop_WF (ro : Decoder → Option Result)
    (hro : ∀ d t d1, ro d = some (.ok t, d1) → t.WF = true) :
    ∀ (fuel : Nat) (values : List Object) (d : Decoder) (t : Object) (d1 : Decoder),
      WFValues values = true → readArrayLoop ro fuel values d = some (.ok t, d1) →
      t.WF = true := by
  intro fuel
  induction fuel with
  | zero =>
    intro values d t d1 _ h
    simp [readArrayLoop] at h
  | succ f ih =>
    intro values d t d1 hv h
    rw [readArrayLoop_succ] at h
    split at h
    · cases hr : ro d with
      | none => simp [hr] at h
      | some r =>
        obtain ⟨res, d2⟩ := r
        cases res with
        | error e => simp [hr] at h
        | ok v =>
          simp only [hr] at h
          refine ih _ _ _ _ ?_ h
          rw [WFValues_append, hv]
          simp [WFValues, hro d v d2 hr]
    · simp only [Option.some.injEq, Prod.mk.injEq, Except.ok.injEq] at h
      obtain ⟨rfl, _⟩ := h
      simpa [Object.WF] using hv

/-- The loop of `readMap` keeps the invariant when its callee does: the keys
stay pairwise distinct and the index stays the index of the list. -/
theorem readMapLoop_WF (ro : Decoder → Option Result)
    (hro : ∀ d t d1, ro d = some (.ok t, d1) → t.WF = true) :
    ∀ (fuel : Nat) (valuelist : List (String × Object)) (d : Decoder) (t : Object)
      (d1 : Decoder), (valuelist.map Prod.fst).Nodup → WFEntries valuelist = true →
      readMapLoop ro fuel valuelist (keyIndex valuelist 0) d = some (.ok t, d1) →
      t.WF = true := by
  intro fuel
  induction fuel with
  | zero =>
    intro valuelist d t d1 _ _ h
    simp [readMapLoop] at h
  | succ f ih =>
    intro valuelist d t d1 hnd hv h
    rw [readMapLoop_succ] at h
    split at h
    · cases hk : d.Token with
      | mk res d2 =>
        cases res with
        | error e => simp [hk] at h
        | ok tk =>
          cases tk with
          | string k =>
            simp only [hk] at h
            cases hr : ro d2 with
            | none => simp [hr] at h
            | some r =>
              obtain ⟨res, d3⟩ := r
              cases res with
              | error e => simp [hr] at h
              | ok v =>
                simp only [hr] at h
                split at h
                · simp at h
                · rename_i hnew
                  have hk2 : k ∉ valuelist.map Prod.fst := by
                    intro hmem
                    exact hnew (lookup_keyIndex_isSome valuelist 0 k hmem)
                  rw [mapAssign_keyIndex valuelist k v hk2] at h
                  refine ih _ _ _ _ ?_ ?_ h
                  · rw [List.map_append, List.nodup_append]
                    refine ⟨hnd, by simp, ?_⟩
                    intro a ha hb
                    simp only [List.map_cons, List.map_nil, List.mem_singleton] at hb
                    subst hb
                    exact hk2 ha
                  · rw [WFEntries_append, hv]
                    simp [WFEntries, hro d2 v d3 hr]
          | Delim c => simp [hk] at h
          | bool b => simp [hk] at h
          | float64 x => simp [hk] at h
          | Number l => simp [hk] at h
          | nil => simp [hk] at h
    · simp only [Option.some.injEq, Prod.mk.injEq, Except.ok.injEq] at h
      obtain ⟨rfl, _⟩ := h
      simp [Object.WF, hnd, hv]

/-- Every tree `readObject` returns satisfies the representation invariant. -/
theorem readObject_WF : ∀ (fuel : Nat) (d : Decoder) (t : Object) (d1 : Decoder),
    readObject fuel d = some (.ok t, d1) → t.WF = true := by
  intro fuel
  induction fuel with
  | zero =>
    intro d t d1 h
    simp [readObject] at h
  | succ f ih =>
    intro d t d1 h
    rw [readObject_succ] at h
    cases hk : d.Token with
    | mk res d2 =>
      cases res with
      | error e => simp [hk] at h
      | ok tk =>
        cases tk with
        | Delim c =>
          simp only [hk] at h
          split at h
          · exact readMapLoop_WF _ ih f [] d2 t d1 (by simp) rfl h
          · split at h
            · exact readArrayLoop_WF _ ih f [] d2 t d1 rfl h
            · simp at h
        | string s =>
          simp only [hk, Option.some.injEq, Prod.mk.injEq, Except.ok.injEq] at h
          obtain ⟨rfl, _⟩ := h
          rfl
        | bool b =>
          simp only [hk, Option.some.injEq, Prod.mk.injEq, Except.ok.injEq] at h
          obtain ⟨rfl, _⟩ := h
          rfl
        | float64 x =>
          simp only [hk, Option.some.injEq, Prod.mk.injEq, Except.ok.injEq] at h
          obtain ⟨rfl, _⟩ := h
          rfl
        | nil =>
          simp only [hk, Option.some.injEq, Prod.mk.injEq, Except.ok.injEq] at h
          obtain ⟨rfl, _⟩ := h
          rfl
        | Number l => simp [hk] at h

theorem LoadObject_WF (d : Decoder) (t : Object) (d1 : Decoder)
    (h : LoadObject d = some (.ok t, d1)) : t.WF = true :=
  readObject_WF _ d t d1 h


/-! ## Accessors -/

/-- C11 (capability casts): for every value `v` and each of the six kinds, the
cast of that kind is present exactly when `v.Type` is the tag of the kind, and
then it is `v` itself; every cast is absent or `v`, and exactly one of the six
is present. The casts are total functions: none of them fails. -/
theorem C11_capability_casts (v : Object) :
    ((v.ToNull.isSome = true ↔ v.Type = TYPE_NULL) ∧ (v.Type = TYPE_NULL → v.ToNull = some v))
    ∧ ((v.ToBool.isSome = true ↔ v.Type = TYPE_BOOL) ∧ (v.Type = TYPE_BOOL → v.ToBool = some v))
    ∧ ((v.ToString.isSome = true ↔ v.Type = TYPE_STRING)
        ∧ (v.Type = TYPE_STRING → v.ToString = some v))
    ∧ ((v.ToNumber.isSome = true ↔ v.Type = TYPE_NUMBER)
        ∧ (v.Type = TYPE_NUMBER → v.ToNumber = some v))
    ∧ ((v.ToArray.isSome = true ↔ v.Type = TYPE_ARRAY)
        ∧ (v.Type = TYPE_ARRAY → v.ToArray = some v))
    ∧ ((v.ToMap.isSome = true ↔ v.Type = TYPE_MAP) ∧ (v.Type = TYPE_MAP → v.ToMap = some v))
    ∧ (∀ r, r ∈ casts v → r = none ∨ r = some v)
    ∧ ((casts v).filter Option.isSome).length = 1 := by
  cases v <;>
    simp [casts, Object.ToNull, Object.ToBool, Object.ToString, Object.ToNumber, Object.ToArray,
      Object.ToMap, jsonObjectImpl.ToNull, jsonObjectImpl.ToBool, jsonObjectImpl.ToString,
      jsonObjectImpl.ToNumber, jsonObjectImpl.ToArray, jsonObjectImpl.ToMap, Object.Type,
      TYPE_NULL, TYPE_BOOL, TYPE_STRING, TYPE_NUMBER, TYPE_ARRAY, TYPE_MAP]

/-- C11 on the two-entry example document, a map: `ToMap` returns it, and
`ToArray` is absent because its tag is not the array tag. -/
theorem C11_capability_casts_witness :
    exampleDoc.Type = TYPE_MAP ∧ exampleDoc.ToMap = some exampleDoc
    ∧ exampleDoc.ToArray.isSome = false :=
  ⟨rfl, (C11_capability_casts exampleDoc).2.2.2.2.2.1.2 rfl,
    by
      have h := (C11_capability_casts exampleDoc).2.2.2.2.1.1
      cases hs : exampleDoc.ToArray.isSome with
      | false => rfl
      | true => exact absurd (h.mp hs) (by decide)⟩

/-- The index of a list with pairwise distinct keys sends the key of entry
`i` to position `i`. -/
theorem lookup_keyIndex_get : ∀ (valuelist : List (String × Object)) (start i : Nat)
    (h : i < valuelist.length), (valuelist.map Prod.fst).Nodup →
    (keyIndex valuelist start).lookup (valuelist.get ⟨i, h⟩).1 = some (start + i)
  | [], _, i, h, _ => absurd h (Nat.not_lt_zero i)
  | elem :: next, start, 0, _, _ => by
    simp [keyIndex, List.lookup]
  | elem :: next, start, i + 1, h, hnd => by
    have h2 : i < next.length := by simpa using h
    have hnd2 : elem.1 ∉ next.map Prod.fst ∧ (next.map Prod.fst).Nodup := by
      simpa using hnd
    have hne : (next.get ⟨i, h2⟩).1 ≠ elem.1 := by
      intro heq
      apply hnd2.1
      rw [← heq]
      exact List.mem_map_of_mem _ (List.get_mem _ _ _)
    have ih := lookup_keyIndex_get next (start + 1) i h2 hnd2.2
    simp only [keyIndex, List.get_cons_succ, List.lookup, beq_iff_eq, hne]
    have hb : ((next.get ⟨i, h2⟩).1 == elem.1) = false := by simpa using hne
    simp only [List.get_eq_getElem] at hb ih ⊢
    rw [hb, ih, Nat.add_assoc, Nat.add_comm 1 i]

/-- What the index holds for a key is the position of an entry with that key. -/
theorem lookup_keyIndex_some : ∀ (valuelist : List (String × Object)) (start : Nat)
    (k : String) (i : Nat), (keyIndex valuelist start).lookup k = some i →
    ∃ j v, i = start + j ∧ valuelist.get? j = some (k, v)
  | [], _, _, _, h => by simp [keyIndex] at h
  | elem :: next, start, k, i, h => by
    simp only [keyIndex, List.lookup] at h
    by_cases hk : k = elem.1
    · subst hk
      simp only [beq_self_eq_true, Option.some.injEq] at h
      exact ⟨0, elem.2, by omega, by simp⟩
    · have hb : (k == elem.1) = false := by simpa using hk
      rw [hb] at h
      obtain ⟨j, v, hj, hv⟩ := lookup_keyIndex_some next (start + 1) k i h
      exact ⟨j + 1, v, by omega, by simpa using hv⟩

theorem keyIndex_length (valuelist : List (String × Object)) (start : Nat) :
    (keyIndex valuelist start).length = valuelist.length := by
  induction valuelist generalizing start with
  | nil => rfl
  | cons elem next ih => simp [keyIndex, ih]

/-- What a map that satisfies the invariant has in its three parts. -/
theorem WF_map {valuelist : List (String × Object)} {valuesmap : List (String × Nat)}
    (h : (Object.map valuelist valuesmap).WF = true) :
    (valuelist.map Prod.fst).Nodup ∧ valuesmap = keyIndex valuelist 0
      ∧ WFEntries valuelist = true := by
  simpa [Object.WF, and_assoc] using h


/-- C12 (map lookup): in every map the builder returns, with entries
`(k0,v0),...,(kn-1,vn-1)` in its list (their keys are pairwise distinct),
`Map(ki)` returns `vi` for every `i`, and `Map(k)` returns nil for every key
that is not one of the `ki`. -/
theorem C12_map_lookup (d d1 : Decoder) (valuelist : List (String × Object))
    (valuesmap : List (String × Nat))
    (h : LoadObject d = some (.ok (.map valuelist valuesmap), d1)) :
    (valuelist.map Prod.fst).Nodup
    ∧ (∀ (i : Nat) (hi : i < valuelist.length),
        jsonMapImpl.Map valuelist valuesmap (valuelist.get ⟨i, hi⟩).1
          = some (valuelist.get ⟨i, hi⟩).2)
    ∧ (∀ k, k ∉ valuelist.map Prod.fst → jsonMapImpl.Map valuelist valuesmap k = none) := by
  obtain ⟨hnd, rfl, _⟩ := WF_map (LoadObject_WF d _ d1 h)
  refine ⟨hnd, ?_, ?_⟩
  · intro i hi
    have hl := lookup_keyIndex_get valuelist 0 i hi hnd
    simp only [jsonMapImpl.Map, mapIndex, hl, Nat.zero_add]
    simp [List.getElem?_eq_getElem hi]
  · intro k hk
    simp [jsonMapImpl.Map, mapIndex, lookup_keyIndex_none valuelist 0 k hk]

/-- C12 on the map built from `{"a":null,"b":true,"c":"x"}`: `Map("b")` is
`true`, and `Map("z")` is nil. -/
theorem C12_map_lookup_witness :
    LoadObject (tokens exampleMap) = some (.ok exampleMap, [])
    ∧ jsonMapImpl.Map [("a", .null), ("b", .bool true), ("c", .string "x")]
        [("a", 0), ("b", 1), ("c", 2)] "b" = some (.bool true)
    ∧ jsonMapImpl.Map [("a", .null), ("b", .bool true), ("c", .string "x")]
        [("a", 0), ("b", 1), ("c", 2)] "z" = none :=
  ⟨rfl,
    (C12_map_lookup (tokens exampleMap) [] [("a", .null), ("b", .bool true), ("c", .string "x")]
      [("a", 0), ("b", 1), ("c", 2)] rfl).2.1 1 (by decide),
    (C12_map_lookup (tokens exampleMap) [] [("a", .null), ("b", .bool true), ("c", .string "x")]
      [("a", 0), ("b", 1), ("c", 2)] rfl).2.2 "z" (by decide)⟩

theorem countMapItems_append (a b : List Call) :
    countMapItems (a ++ b) = countMapItems a + countMapItems b := by
  induction a with
  | nil => simp [countMapItems]
  | cons c rest ih =>
    cases c <;> simp [countMapItems, ih]
    omega

theorem countMapItems_mapItemCalls (valuelist : List (String × Object)) (start : Nat) :
    countMapItems (mapItemCalls valuelist start) = valuelist.length := by
  induction valuelist generalizing start with
  | nil => rfl
  | cons elem next ih => simp [mapItemCalls, countMapItems, ih]

/-- The log of a completed `Accept` on a map: `EnterMap`, the item calls in
list order, `LeaveMap`. -/
theorem Accept_map_log {σ : Type} (visitor : Visitor σ) (s : σ)
    (valuelist : List (String × Object)) (valuesmap : List (String × Nat))
    (h : (replay visitor (.EnterMap (.map valuelist valuesmap) :: mapItemCalls valuelist 0) s).1
      = List.replicate (valuelist.length + 1) 0) :
    (Accept (.map valuelist valuesmap) (recording visitor) (s, [])).2.2
      = .EnterMap (.map valuelist valuesmap) :: mapItemCalls valuelist 0
          ++ [.LeaveMap (.map valuelist valuesmap)] := by
  simp only [replay, List.replicate_succ, List.cons.injEq, Call.run] at h
  have h2 := mapAcceptLoop_all visitor ((recording visitor).LeaveMap (.map valuelist valuesmap))
    valuelist 0 (visitor.EnterMap (.map valuelist valuesmap) s).2
    [.EnterMap (.map valuelist valuesmap)] h.2
  simp only [Nat.cast_zero, zero_sub] at h2
  have hA : Accept (.map valuelist valuesmap) (recording visitor) (s, [])
      = (recording visitor).LeaveMap (.map valuelist valuesmap)
          ((replay visitor (mapItemCalls valuelist 0)
              (visitor.EnterMap (.map valuelist valuesmap) s).2).2,
            [.EnterMap (.map valuelist valuesmap)] ++ mapItemCalls valuelist 0) := by
    simp only [Accept]
    change (if 0 ≠ (visitor.EnterMap (.map valuelist valuesmap) s).1 then _ else _) = _
    rw [if_neg (by simp [h.1])]
    exact h2
  rw [hA]
  simp [recording]

/-- C19 (map representation invariant): in every map the builder returns, the
keys of the ordered entry list are pairwise distinct, the key index holds
exactly those keys, each index entry points at the list entry that carries the
same key, and `Len()` is the number of list entries, which is the number of
`VisitMapItem` calls a completed `Accept` makes; the same holds for every map
nested in it (`WF`). -/
theorem C19_map_invariant (d d1 : Decoder) (valuelist : List (String × Object))
    (valuesmap : List (String × Nat))
    (h : LoadObject d = some (.ok (.map valuelist valuesmap), d1)) :
    (valuelist.map Prod.fst).Nodup
    ∧ (∀ k, (mapIndex valuesmap k).isSome = true ↔ k ∈ valuelist.map Prod.fst)
    ∧ (∀ k i, mapIndex valuesmap k = some i → ∃ v, valuelist.get? i = some (k, v))
    ∧ jsonMapImpl.Len valuelist valuesmap = valuelist.length
    ∧ (∀ {σ : Type} (visitor : Visitor σ) (s : σ),
        (replay visitor (.EnterMap (.map valuelist valuesmap) :: mapItemCalls valuelist 0) s).1
          = List.replicate (valuelist.length + 1) 0 →
        (countMapItems (Accept (.map valuelist valuesmap) (recording visitor) (s, [])).2.2 : Int)
          = jsonMapImpl.Len valuelist valuesmap)
    ∧ (Object.map valuelist valuesmap).WF = true := by
  have hwf := LoadObject_WF d _ d1 h
  obtain ⟨hnd, rfl, _⟩ := WF_map hwf
  refine ⟨hnd, ?_, ?_, ?_, ?_, hwf⟩
  · intro k
    constructor
    · intro hs
      by_contra hk
      rw [mapIndex, lookup_keyIndex_none valuelist 0 k hk] at hs
      simp at hs
    · exact lookup_keyIndex_isSome valuelist 0 k
  · intro k i hi
    obtain ⟨j, v, hj, hv⟩ := lookup_keyIndex_some valuelist 0 k i hi
    exact ⟨v, by rw [hj, Nat.zero_add]; exact hv⟩
  · simp [jsonMapImpl.Len, keyIndex_length]
  · intro σ visitor s hz
    rw [Accept_map_log visitor s valuelist _ hz]
    simp [jsonMapImpl.Len, keyIndex_length, countMapItems_append, countMapItems,
      countMapItems_mapItemCalls]

/-- C19 on the map built from `{"a":null,"b":true,"c":"x"}`: three distinct
keys, `Len()` is 3, and the index sends `"c"` to the third entry. -/
theorem C19_map_invariant_witness :
    LoadObject (tokens exampleMap) = some (.ok exampleMap, [])
    ∧ (["a", "b", "c"] : List String).Nodup
    ∧ jsonMapImpl.Len [("a", .null), ("b", .bool true), ("c", .string "x")]
        [("a", 0), ("b", 1), ("c", 2)] = 3
    ∧ (∃ v, [("a", Object.null), ("b", .bool true), ("c", .string "x")].get? 2
        = some ("c", v)) :=
  ⟨rfl,
    (C19_map_invariant (tokens exampleMap) [] [("a", .null), ("b", .bool true),
      ("c", .string "x")] [("a", 0), ("b", 1), ("c", 2)] rfl).1,
    (C19_map_invariant (tokens exampleMap) [] [("a", .null), ("b", .bool true),
      ("c", .string "x")] [("a", 0), ("b", 1), ("c", 2)] rfl).2.2.2.1,
    (C19_map_invariant (tokens exampleMap) [] [("a", .null), ("b", .bool true),
      ("c", .string "x")] [("a", 0), ("b", 1), ("c", 2)] rfl).2.2.1 "c" 2 rfl⟩


/-! ## What `readObject` hands to its caller -/

/-- The error half of `readObjectResults` is the error of `LoadObject`, and
its value half holds a tree exactly when there is no error. -/
theorem readObjectResults_LoadObject (d : Decoder) :
    ∃ v e d1, readObjectResults d = some ((v, e), d1)
      ∧ ((∃ t, v = .object t ∧ e = none ∧ LoadObject d = some (.ok t, d1))
        ∨ (∃ err, e = some err ∧ LoadObject d = some (.error err, d1)
            ∧ (v = .nil ∨ ∃ type, v = .nilPointer type))) := by
  obtain ⟨r, hr⟩ := LoadObject_isSome d
  rw [LoadObject_eq] at hr
  rw [LoadObject_eq]
  unfold readObjectResults
  cases hk : d.Token with
  | mk res d2 =>
    cases res with
    | error err =>
      exact ⟨.nil, some err, d2, rfl, Or.inr ⟨err, rfl, rfl, Or.inl rfl⟩⟩
    | ok tk =>
      cases tk with
      | Delim c =>
        simp only [hk] at hr ⊢
        by_cases h1 : c = '{'
        · simp only [h1, if_true] at hr ⊢
          obtain ⟨res, d3⟩ := r
          have hm : readMap LoadObject (d2.length + 1) d2 = some (res, d3) := hr
          rw [hm, hr]
          cases res with
          | ok t => exact ⟨.object t, none, d3, rfl, Or.inl ⟨t, rfl, rfl, rfl⟩⟩
          | error err =>
            exact ⟨.nilPointer TYPE_MAP, some err, d3, rfl,
              Or.inr ⟨err, rfl, rfl, Or.inr ⟨TYPE_MAP, rfl⟩⟩⟩
        · by_cases h2 : c = '['
          · simp only [h1, h2, if_true, if_false] at hr ⊢
            obtain ⟨res, d3⟩ := r
            have hm : readArray LoadObject (d2.length + 1) d2 = some (res, d3) := hr
            rw [hm, hr]
            cases res with
            | ok t => exact ⟨.object t, none, d3, rfl, Or.inl ⟨t, rfl, rfl, rfl⟩⟩
            | error err =>
              exact ⟨.nilPointer TYPE_ARRAY, some err, d3, rfl,
                Or.inr ⟨err, rfl, rfl, Or.inr ⟨TYPE_ARRAY, rfl⟩⟩⟩
          · simp only [h1, h2, if_false]
            exact ⟨.nil, _, d2, rfl, Or.inr ⟨_, rfl, rfl, Or.inl rfl⟩⟩
      | string s => exact ⟨_, _, d2, rfl, Or.inl ⟨_, rfl, rfl, rfl⟩⟩
      | bool b => exact ⟨_, _, d2, rfl, Or.inl ⟨_, rfl, rfl, rfl⟩⟩
      | float64 x => exact ⟨_, _, d2, rfl, Or.inl ⟨_, rfl, rfl, rfl⟩⟩
      | nil => exact ⟨_, _, d2, rfl, Or.inl ⟨_, rfl, rfl, rfl⟩⟩
      | Number l => exact ⟨.nil, _, d2, rfl, Or.inr ⟨_, rfl, rfl, Or.inl rfl⟩⟩

/-- C13 (no partial tree) fails on `{"a":1,"a":2}`: `readMap` returns a nil
`*jsonMapImpl` with the duplicate-key error, and `return readMap(d)` hands it
to the caller of `readObject` inside the interface `Object`, a value that is
not equal to nil. The same happens for an array whose element fails (`[tru]`),
while an error at the first token of `readObject` does come with the nil
interface. No tree is returned in any of the three. -/
theorem C13_typed_nil_returned :
    NewDecoder "\x7b\"a\":1,\"a\":2\x7d" = repeatedKeyStream
    ∧ readObjectResults repeatedKeyStream
      = some ((.nilPointer TYPE_MAP,
          some (.errorf "Item with the same key has been exist: a")), [.tok (.Delim '}')])
    ∧ (Interface.nilPointer TYPE_MAP).isNil = false
    ∧ readObjectResults (NewDecoder "[tru]")
      = some ((.nilPointer TYPE_ARRAY, some (.decoder "invalid value")), [])
    ∧ (Interface.nilPointer TYPE_ARRAY).isNil = false
    ∧ readObjectResults (NewDecoder "tru") = some ((.nil, some (.decoder "invalid value")), []) :=
  ⟨rfl, rfl, rfl, rfl, rfl, rfl⟩

/-! ## The closing delimiter -/

/-- C14 (mismatched delimiter) fails: the loops of `readArray` and `readMap`
end as soon as `More` answers false, and the item then read as the close is
dropped unseen. An array closed by a brace and a map closed by a bracket are
returned as trees; on the texts `[1}` and `{"a":1]`, where the decoder answers
the wrong delimiter with an error, the trees `[1]` and `{"a":1}` are returned
with no error. -/
theorem C14_mismatched_delimiter_accepted :
    (∀ rest : Decoder, LoadObject (.tok (.Delim '[') :: .tok (.Delim '}') :: rest)
      = some (.ok (.array []), rest))
    ∧ (∀ rest : Decoder, LoadObject (.tok (.Delim '{') :: .tok (.Delim ']') :: rest)
      = some (.ok (.map [] []), rest))
    ∧ LoadObject (NewDecoder "[1\x7d")
      = some (.ok (.array [.number one]), [.err "invalid character \x7d" false])
    ∧ LoadObject (NewDecoder "\x7b\"a\":1]")
      = some (.ok (.map [("a", .number one)] [("a", 0)]), [.err "invalid character ]" false]) := by
  refine ⟨?_, ?_, rfl, rfl⟩
  · intro rest
    rw [LoadObject_eq]
    simp only [Decoder.Token]
    rw [if_pos trivial, arrayLoop_eq]
    simp [Decoder.More, Decoder.Token]
  · intro rest
    rw [LoadObject_eq]
    simp only [Decoder.Token]
    rw [if_pos trivial, mapLoop_eq]
    simp [Decoder.More, Decoder.Token]


/-! ## Tokens the builder refuses -/

/-- C15 (expected string key): when, inside a map, `More` answers true and the
token read at the key position is not a string, `readMap` fails with the error
`Except string` and returns no map. The decoder is left right behind that
token: no value is built for it and no further token is read. Every enclosing
build, up to the outermost `readObject` call, fails with the same error. -/
theorem C15_expected_string_key (D d1 d0 d d2 : Decoder)
    (valuelist : List (String × Object)) (t : Token)
    (hD : Builds D d1) (hopen : Decoder.Token d1 = (.ok (.Delim '{'), d0))
    (hat : MapAt d0 valuelist d) (hmore : d.More = true)
    (hkey : Decoder.Token d = (.ok t, d2)) (hns : ∀ k, t ≠ .string k) :
    readMap LoadObject (d0.length + 1) d0 = some (.error (.errorf "Except string"), d2)
    ∧ LoadObject d1 = some (.error (.errorf "Except string"), d2)
    ∧ LoadObject D = some (.error (.errorf "Except string"), d2) := by
  have h1 : mapLoop [] [] d0 = some (.error (.errorf "Except string"), d2) := by
    rw [MapAt_loop hat, mapLoop_eq, if_pos hmore, hkey]
    cases t with
    | string k => exact absurd rfl (hns k)
    | Delim c => rfl
    | bool b => rfl
    | float64 x => rfl
    | Number l => rfl
    | nil => rfl
  have h2 : LoadObject d1 = some (.error (.errorf "Except string"), d2) := by
    rw [LoadObject_open_map d1 d0 hopen, h1]
  exact ⟨h1, h2, Builds_error hD h2⟩

/-- C15 on the items of `[{"a":1,2`: the second key position of the inner map
holds the number 2. -/
theorem C15_expected_string_key_witness :
    LoadObject [.tok (.Delim '['), .tok (.Delim '{'), .tok (.string "a"), .tok (.float64 one),
        .tok (.float64 two)]
      = some (.error (.errorf "Except string"), []) :=
  (C15_expected_string_key
    [.tok (.Delim '['), .tok (.Delim '{'), .tok (.string "a"), .tok (.float64 one),
      .tok (.float64 two)]
    [.tok (.Delim '{'), .tok (.string "a"), .tok (.float64 one), .tok (.float64 two)]
    [.tok (.string "a"), .tok (.float64 one), .tok (.float64 two)]
    [.tok (.float64 two)] [] [("a", .number one)] (.float64 two)
    (@Builds.element _ _ _ _ [] .self rfl .start rfl) rfl
    (@MapAt.next _ [] _ _ _ "a" (.number one) .start rfl rfl rfl (by simp))
    rfl rfl (by intro k; simp)).2.2

/-- C16 (unexpected token at a value position): when the token `readObject`
reads is a delimiter other than the two opening ones (so a closing one), it
fails with the error `Unexpect delim: c`; when it is of a type other than
delimiter, string, bool, float64 and nil (a `json.Number`), it fails with the
error `Unexpect token`. In both cases the value result is the nil interface,
and every enclosing build fails with the same error. -/
theorem C16_unexpected_token (D d d1 : Decoder) (t : Token)
    (hD : Builds D d) (h : Decoder.Token d = (.ok t, d1)) :
    (∀ c, t = .Delim c → c ≠ '{' → c ≠ '[' →
      readObjectResults d
        = some ((.nil, some (.errorf ("Unexpect delim: " ++ c.toString))), d1)
      ∧ LoadObject d = some (.error (.errorf ("Unexpect delim: " ++ c.toString)), d1)
      ∧ LoadObject D = some (.error (.errorf ("Unexpect delim: " ++ c.toString)), d1))
    ∧ (∀ lit, t = .Number lit →
      readObjectResults d = some ((.nil, some (.errorf "Unexpect token")), d1)
      ∧ LoadObject d = some (.error (.errorf "Unexpect token"), d1)
      ∧ LoadObject D = some (.error (.errorf "Unexpect token"), d1)) := by
  constructor
  · intro c hc h1 h2
    subst hc
    have hl : LoadObject d = some (.error (.errorf ("Unexpect delim: " ++ c.toString)), d1) := by
      rw [LoadObject_eq, h]
      simp only [h1, h2, if_false]
    refine ⟨?_, hl, Builds_error hD hl⟩
    unfold readObjectResults
    rw [h]
    simp only [h1, h2, if_false]
  · intro lit hl
    subst hl
    have hl : LoadObject d = some (.error (.errorf "Unexpect token"), d1) := by
      rw [LoadObject_eq, h]
    refine ⟨?_, hl, Builds_error hD hl⟩
    unfold readObjectResults
    rw [h]

/-- C16 on the items of `[1,]` as a decoder would hand them out if it let the
closing bracket through at a value position, and on a `json.Number` token. -/
theorem C16_unexpected_token_witness :
    LoadObject [.tok (.Delim ']'), .tok (.nil)]
      = some (.error (.errorf "Unexpect delim: ]"), [.tok (.nil)])
    ∧ LoadObject [.tok (.Number "1")] = some (.error (.errorf "Unexpect token"), []) :=
  ⟨((C16_unexpected_token [.tok (.Delim ']'), .tok (.nil)] [.tok (.Delim ']'), .tok (.nil)]
      [.tok (.nil)] (.Delim ']') .self rfl).1 ']' rfl (by decide) (by decide)).2.1,
   ((C16_unexpected_token [.tok (.Number "1")] [.tok (.Number "1")] [] (.Number "1") .self
      rfl).2 "1" rfl).2.1⟩


/-! ## The printer's status codes -/

/-- Every callback of the printer returns 0, whatever its arguments. -/
theorem printer_codes (p : Platform) (fuel : Nat) (c : Call) (w : String) :
    (c.run (jsonSimplePrinter p fuel) w).1 = 0 := by
  cases c <;> cases fuel <;> rfl

theorem replay_zero {σ : Type} (visitor : Visitor σ)
    (h : ∀ (c : Call) (s : σ), (c.run visitor s).1 = 0) (cs : List Call) (s : σ) :
    (replay visitor cs s).1 = List.replicate cs.length 0 := by
  induction cs generalizing s with
  | nil => rfl
  | cons c cs ih =>
    simp only [replay, List.length_cons, List.replicate_succ, List.cons.injEq]
    exact ⟨h c s, ih _⟩

theorem arrayAcceptLoop_code {σ : Type} (item : Int → Object → σ → Int × σ)
    (leave : σ → Int × σ) (hi : ∀ i v s, (item i v s).1 = 0) (hl : ∀ s, (leave s).1 = 0)
    (values : List Object) (index : Int) (s : σ) :
    (arrayAcceptLoop item leave values index s).1 = 0 := by
  induction values generalizing index s with
  | nil => exact hl s
  | cons v rest ih =>
    rw [arrayAcceptLoop_cons]
    simp only [hi, ne_eq, not_true_eq_false, if_false]
    exact ih _ _

theorem mapAcceptLoop_code {σ : Type} (item : Int → String → Object → σ → Int × σ)
    (leave : σ → Int × σ) (hi : ∀ i k v s, (item i k v s).1 = 0) (hl : ∀ s, (leave s).1 = 0)
    (valuelist : List (String × Object)) (index : Int) (s : σ) :
    (mapAcceptLoop item leave valuelist index s).1 = 0 := by
  induction valuelist generalizing index s with
  | nil => exact hl s
  | cons elem next ih =>
    rw [mapAcceptLoop_cons]
    simp only [hi, ne_eq, not_true_eq_false, if_false]
    exact ih _ _

/-- The printer's `Accept` returns 0 on every tree, at every nesting bound. -/
theorem printer_accept_code (p : Platform) (fuel : Nat) (v : Object) (w : String) :
    (Accept v (jsonSimplePrinter p fuel) w).1 = 0 := by
  cases v with
  | null => exact printer_codes p fuel .VisitNull w
  | bool b => exact printer_codes p fuel (.VisitBool b) w
  | string s => exact printer_codes p fuel (.VisitString s) w
  | number x => exact printer_codes p fuel (.VisitNumber x) w
  | array values =>
    simp only [Accept, (printer_leaf p fuel).2.2.2.2.1, ne_eq, not_true_eq_false, if_false]
    exact arrayAcceptLoop_code _ _
      (fun i v s => printer_codes p fuel (.VisitArrayItem i v) s)
      (fun s => printer_codes p fuel (.LeaveArray (.array values)) s) _ _ _
  | map valuelist valuesmap =>
    simp only [Accept, (printer_leaf p fuel).2.2.2.2.2.2.1, ne_eq, not_true_eq_false, if_false]
    exact mapAcceptLoop_code _ _
      (fun i k v s => printer_codes p fuel (.VisitMapItem i k v) s)
      (fun s => printer_codes p fuel (.LeaveMap (.map valuelist valuesmap)) s) _ _ _

/-- The log of a completed `Accept` on an array: `EnterArray`, the item calls
in order, `LeaveArray`. -/
theorem Accept_array_log {σ : Type} (visitor : Visitor σ) (s : σ) (values : List Object)
    (h : (replay visitor (.EnterArray (.array values) :: arrayItemCalls values 0) s).1
      = List.replicate (values.length + 1) 0) :
    (Accept (.array values) (recording visitor) (s, [])).2.2
      = .EnterArray (.array values) :: arrayItemCalls values 0
          ++ [.LeaveArray (.array values)] := by
  simp only [replay, List.replicate_succ, List.cons.injEq, Call.run] at h
  have h2 := arrayAcceptLoop_all visitor ((recording visitor).LeaveArray (.array values))
    values 0 (visitor.EnterArray (.array values) s).2
    [.EnterArray (.array values)] h.2
  simp only [Nat.cast_zero] at h2
  have hA : Accept (.array values) (recording visitor) (s, [])
      = (recording visitor).LeaveArray (.array values)
          ((replay visitor (arrayItemCalls values 0)
              (visitor.EnterArray (.array values) s).2).2,
            [.EnterArray (.array values)] ++ arrayItemCalls values 0) := by
    simp only [Accept]
    change (if 0 ≠ (visitor.EnterArray (.array values) s).1 then _ else _) = _
    rw [if_neg (by simp [h.1])]
    exact h2
  rw [hA]
  simp [recording]

/-- C17 (printer never aborts): each of the printer's ten callbacks returns 0
on every argument; hence `Accept` with the printer returns 0 on every tree,
the traversal of an array or a map makes the item call of every child, in
order, between `Enter*` and `Leave*`, and (the item callbacks doing the same
for the children, as deep as the tree goes) the text of the whole tree is
written. -/
theorem C17_printer_never_aborts (p : Platform) (fuel : Nat) :
    (∀ (c : Call) (w : String), (c.run (jsonSimplePrinter p fuel) w).1 = 0)
    ∧ (∀ (v : Object) (w : String), (Accept v (jsonSimplePrinter p fuel) w).1 = 0)
    ∧ (∀ (values : List Object) (w : String),
        (Accept (.array values) (recording (jsonSimplePrinter p fuel)) (w, [])).2.2
          = .EnterArray (.array values) :: arrayItemCalls values 0
              ++ [.LeaveArray (.array values)])
    ∧ (∀ (valuelist : List (String × Object)) (valuesmap : List (String × Nat)) (w : String),
        (Accept (.map valuelist valuesmap) (recording (jsonSimplePrinter p fuel)) (w, [])).2.2
          = .EnterMap (.map valuelist valuesmap) :: mapItemCalls valuelist 0
              ++ [.LeaveMap (.map valuelist valuesmap)])
    ∧ (∀ (v : Object) (w : String), depth v ≤ fuel →
        Accept v (jsonSimplePrinter p fuel) w = (0, w ++ compact p v)) := by
  refine ⟨printer_codes p fuel, printer_accept_code p fuel, ?_, ?_, ?_⟩
  · intro values w
    apply Accept_array_log
    rw [replay_zero _ (printer_codes p fuel)]
    simp [arrayItemCalls_length]
  · intro valuelist valuesmap w
    apply Accept_map_log
    rw [replay_zero _ (printer_codes p fuel)]
    simp [mapItemCalls_length]
  · intro v w h
    exact printer_accept p v fuel w h

/-- C17 on the array `[null,true,"x"]`: status 0 and the whole text. -/
theorem C17_printer_never_aborts_witness :
    depth exampleArray ≤ 1
    ∧ Accept exampleArray (jsonSimplePrinter examplePlatform 1) "" = (0, "[null,true,\"x\"]") :=
  ⟨by decide, (C17_printer_never_aborts examplePlatform 1).2.2.2.2 exampleArray "" (by decide)⟩


/-! ## Integer rendering -/

/-- C18 (integer rendering): for every stored double `d` whose value is an
integer `z` with `-2^63 <= z < 2^63`, `String()` is the plain decimal text of
`z`, and so is what the printer writes for the number: an optional minus sign
and then decimal digits only, no fraction and no exponent, which read back as
`z`. Negative zero has the value 0 and falls under the rule (see the witness). -/
theorem C18_integer_rendering (p : Platform) (d : Float64) (z : Int)
    (hfin : d.isFinite = true) (hz : d.toRat = z)
    (hlo : -9223372036854775808 ≤ z) (hhi : z < 9223372036854775808) :
    numberString p d = formatInt z
    ∧ (∀ (fuel : Nat) (w : String),
        Accept (.number d) (jsonSimplePrinter p fuel) w = (0, w ++ formatInt z))
    ∧ (formatInt z).data
        = (if z < 0 then ['-'] else []) ++ (decimal (z.natAbs + 1) z.natAbs).map digitChar
    ∧ (∀ c ∈ (decimal (z.natAbs + 1) z.natAbs).map digitChar, c.isDigit = true)
    ∧ digitsValue (decimal (z.natAbs + 1) z.natAbs) = z.natAbs
    ∧ scanNumber (formatInt z).data = some (⟨decide (z < 0), z.natAbs, 0⟩, []) := by
  have hint : 0 ≤ d.exponent ∨ 2 ^ (-d.exponent).toNat ∣ d.mantissa := by
    by_contra hc
    rw [not_or] at hc
    exact toRat_not_int d (by omega) hc.2 z hz
  have ht : d.trunc = z := by
    have h1 := toRat_trunc d hint
    rw [hz] at h1
    exact_mod_cast h1
  have hn : Number p d = .int64 z := by
    rw [← ht]
    exact Number_integer p d hfin hint (by omega) (by omega)
  have hs : numberString p d = formatInt z := by
    simp only [numberString, hn]
  refine ⟨hs, ?_, ?_, ?_, decimal_value _ _ (by omega), ?_⟩
  · intro fuel w
    simp only [Accept, (printer_leaf p fuel).2.2.2.1, hs]
  · rw [formatInt_data]
    split <;> rfl
  · intro c hc
    obtain ⟨n, hn1, rfl⟩ := List.mem_map.mp hc
    exact (digitChar_spec n (decimal_lt _ _ n hn1)).1
  · simpa using scanNumber_formatInt z [] rfl

/-- C18 on the double 5.0, which renders as `5` (so `{"n": 5.0}` prints as
`{"n":5}`), and on negative zero, which renders as `0`. -/
theorem C18_integer_rendering_witness :
    numberString examplePlatform five = "5"
    ∧ compact examplePlatform (.map [("n", .number five)] [("n", 0)]) = "\x7b\"n\":5\x7d"
    ∧ numberString examplePlatform ⟨true, 0, 0⟩ = "0"
    ∧ numberString examplePlatform ⟨false, 0, 0⟩ = "0" :=
  ⟨(C18_integer_rendering examplePlatform five 5 (by decide)
      (by rw [five_toRat]; norm_num) (by norm_num) (by norm_num)).1,
    by
      have h := (C18_integer_rendering examplePlatform five 5 (by decide)
        (by rw [five_toRat]; norm_num) (by norm_num) (by norm_num)).1
      simp only [compact, compactEntries, joinComma, h]
      decide,
    (C18_integer_rendering examplePlatform ⟨true, 0, 0⟩ 0 (by decide)
      (by simp [Float64.toRat, Float64.signed, Float64.mantissa]) (by norm_num)
      (by norm_num)).1,
    (C18_integer_rendering examplePlatform ⟨false, 0, 0⟩ 0 (by decide)
      (by simp [Float64.toRat, Float64.signed, Float64.mantissa]) (by norm_num)
      (by norm_num)).1⟩


/-! ## Array indexing -/

/-- C20 (array indexing is total) fails on negative indexes: `Index` guards
the upper bound only, so `Index(-1)` on the array built from `[1]` evaluates
`a.values[-1]` and panics. For every index from 0 on the method behaves as
claimed: the element in parse order below `Len()`, nil from `Len()` on. -/
theorem C20_negative_index_panics :
    LoadObject (NewDecoder "[1]") = some (.ok (.array [.number one]), [])
    ∧ jsonArrayImpl.Index [.number one] (-1) = .error (.indexOutOfRange (-1) 1)
    ∧ (∀ (values : List Object) (n : Nat),
        jsonArrayImpl.Index values (-((n : Int) + 1))
          = .error (.indexOutOfRange (-((n : Int) + 1)) values.length))
    ∧ (∀ (values : List Object) (i : Nat),
        jsonArrayImpl.Index values (i : Int) = .ok (values.get? i))
    ∧ (∀ (values : List Object) (i : Nat),
        (i : Int) < jsonArrayImpl.Len values ↔ (values.get? i).isSome = true) := by
  refine ⟨rfl, rfl, ?_, ?_, ?_⟩
  · intro values n
    unfold jsonArrayImpl.Index
    rw [if_neg (by omega), if_pos (by omega)]
  · intro values i
    unfold jsonArrayImpl.Index
    by_cases h : values.length ≤ i
    · rw [if_pos (by omega)]
      simp [List.getElem?_eq_none h]
    · rw [if_neg (by omega), if_neg (by omega)]
      simp
  · intro values i
    simp only [jsonArrayImpl.Len, Nat.cast_lt]
    constructor
    · intro h
      simp [List.getElem?_eq_getElem h]
    · intro h
      by_contra hc
      simp [List.getElem?_eq_none (Nat.le_of_not_lt hc)] at h


/-! ## Integers read back -/

/-- A difference that compares equal to zero comes from two finite doubles of
the same value. -/
theorem sub_zero_finite (x y : Float64) (h : (x.sub y).ne Float64.zero = false) :
    x.isFinite = true ∧ y.isFinite = true
    ∧ x.signed * 2 ^ (x.exponent - min x.exponent y.exponent).toNat
      - y.signed * 2 ^ (y.exponent - min x.exponent y.exponent).toNat = 0 := by
  unfold Float64.sub at h
  by_cases hn : (x.isNaN || y.isNaN) = true
  · rw [if_pos hn] at h
    exact absurd h (by decide)
  · rw [if_neg hn] at h
    cases hx : x.isFinite with
    | false =>
      rw [hx] at h
      simp only [Bool.not_false, if_true] at h
      split at h
      · exact absurd h (by decide)
      · rw [Float64.ne_zero_of_not_finite x hx] at h
        cases h
    | true =>
      rw [hx] at h
      simp only [Bool.not_true, Bool.false_eq_true, if_false] at h
      cases hy : y.isFinite with
      | false =>
        rw [hy] at h
        simp only [Bool.not_false, if_true] at h
        rw [Float64.ne_zero_of_not_finite _ (by
          show decide ((2047 : Fin 2048).val < 2047) = false
          decide)] at h
        cases h
      | true =>
        rw [hy] at h
        simp only [Bool.not_true, Bool.false_eq_true, if_false] at h
        refine ⟨rfl, rfl, ?_⟩
        by_contra hr
        rw [if_neg hr, roundDyadic_ne_zero _ _ _ (Int.natAbs_ne_zero.mpr hr)
          (le_min (Float64.exponent_ge x) (Float64.exponent_ge y))] at h
        cases h

theorem Float64.signed_eq_zero (x : Float64) : x.signed = 0 ↔ x.mantissa = 0 := by
  unfold Float64.signed
  split <;> simp

theorem Float64.signed_neg (x : Float64) (h : x.mantissa ≠ 0) :
    (x.signed < 0 ↔ x.sign = true) := by
  unfold Float64.signed
  split <;> rename_i hs <;> simp [hs]
  omega

/-- Two finite doubles of the same value are the same double, or the two zeros. -/
theorem eq_of_value_eq (x y : Float64) (hx : x.isFinite = true) (hy : y.isFinite = true)
    (h : x.signed * 2 ^ (x.exponent - min x.exponent y.exponent).toNat
      - y.signed * 2 ^ (y.exponent - min x.exponent y.exponent).toNat = 0) :
    (x.mantissa = 0 ∧ y.mantissa = 0) ∨ x = y := by
  have heq : x.signed * 2 ^ (x.exponent - min x.exponent y.exponent).toNat
      = y.signed * 2 ^ (y.exponent - min x.exponent y.exponent).toNat := by omega
  have hpa : (0 : Int) < 2 ^ (x.exponent - min x.exponent y.exponent).toNat :=
    pow_pos (by norm_num) _
  have hpb : (0 : Int) < 2 ^ (y.exponent - min x.exponent y.exponent).toNat :=
    pow_pos (by norm_num) _
  by_cases hmx : x.mantissa = 0
  · left
    refine ⟨hmx, ?_⟩
    rw [(Float64.signed_eq_zero x).mpr hmx, zero_mul] at heq
    rcases mul_eq_zero.mp heq.symm with h1 | h1
    · exact (Float64.signed_eq_zero y).mp h1
    · omega
  · have hmy : y.mantissa ≠ 0 := by
      intro h0
      rw [(Float64.signed_eq_zero y).mpr h0, zero_mul] at heq
      rcases mul_eq_zero.mp heq with h1 | h1
      · exact hmx ((Float64.signed_eq_zero x).mp h1)
      · omega
    right
    have hsign : x.sign = y.sign := by
      have h1 : x.signed < 0 ↔ y.signed < 0 := by
        constructor
        · intro hlt
          by_contra hge
          have : 0 ≤ y.signed * 2 ^ (y.exponent - min x.exponent y.exponent).toNat :=
            mul_nonneg (by omega) hpb.le
          have : x.signed * 2 ^ (x.exponent - min x.exponent y.exponent).toNat < 0 :=
            mul_neg_of_neg_of_pos hlt hpa
          omega
        · intro hlt
          by_contra hge
          have : 0 ≤ x.signed * 2 ^ (x.exponent - min x.exponent y.exponent).toNat :=
            mul_nonneg (by omega) hpa.le
          have : y.signed * 2 ^ (y.exponent - min x.exponent y.exponent).toNat < 0 :=
            mul_neg_of_neg_of_pos hlt hpb
          omega
      rw [Float64.signed_neg x hmx, Float64.signed_neg y hmy] at h1
      cases hxs : x.sign <;> cases hys : y.sign <;> simp [hxs, hys] at h1 ⊢
    have hnat := congrArg Int.natAbs heq
    rw [Int.natAbs_mul, Int.natAbs_mul, Float64.signed_natAbs, Float64.signed_natAbs,
      Int.natAbs_pow, Int.natAbs_pow] at hnat
    simp only [Int.reduceAbs, Int.natAbs_ofNat] at hnat
    have hxe : x.exponent - ((x.exponent - min x.exponent y.exponent).toNat : Int)
        = min x.exponent y.exponent := by
      rw [Int.toNat_of_nonneg (by omega)]
      omega
    have hye : y.exponent - ((y.exponent - min x.exponent y.exponent).toNat : Int)
        = min x.exponent y.exponent := by
      rw [Int.toNat_of_nonneg (by omega)]
      omega
    have h1 := roundDyadic_exact_mul x.sign x.mantissa x.exponent
      (x.exponent - min x.exponent y.exponent).toNat (Float64.representable x hx) hmx
    have h2 := roundDyadic_exact_mul y.sign y.mantissa y.exponent
      (y.exponent - min x.exponent y.exponent).toNat (Float64.representable y hy) hmy
    rw [hxe, pack_self x hx] at h1
    rw [hye, pack_self y hy] at h2
    calc x = roundDyadic x.sign
          (x.mantissa * 2 ^ (x.exponent - min x.exponent y.exponent).toNat)
          (min x.exponent y.exponent) := h1.symm
      _ = roundDyadic y.sign
          (y.mantissa * 2 ^ (y.exponent - min x.exponent y.exponent).toNat)
          (min x.exponent y.exponent) := by rw [hsign, hnat]
      _ = y := h2


theorem Float64.trunc_zero (x : Float64) (hm : x.mantissa = 0) : x.trunc = 0 := by
  have h := Float64.trunc_natAbs x
  rw [hm] at h
  simp only [zero_mul, Nat.zero_div, ite_self] at h
  exact Int.natAbs_eq_zero.mp h

theorem Number_zero (p : Platform) : Number p ⟨false, 0, 0⟩ = .int64 0 := by
  have hm : (⟨false, 0, 0⟩ : Float64).mantissa = 0 := by decide
  have ht := Float64.trunc_zero _ hm
  have h := Number_integer p ⟨false, 0, 0⟩ (by decide)
    (Or.inr (by rw [hm]; exact dvd_zero _)) (by rw [ht]; norm_num) (by rw [ht]; norm_num)
  rw [ht] at h
  exact h

/-- When `Number()` is the integer `i`, the double `float64(i)` is finite and
its `Number()` is `i` again. -/
theorem Number_int_reread (p : Platform) (x : Float64) (i : Int)
    (h : Number p x = .int64 i) :
    (float64 i).isFinite = true ∧ Number p (float64 i) = .int64 i := by
  have hN := h
  unfold Number at h
  simp only at h
  split at h
  · cases h
  · rename_i hne
    have hi : int64 p x = i := NumberValue.int64.inj h
    have hne2 : (x.sub (float64 i)).ne Float64.zero = false := by
      rw [← hi]
      simpa using hne
    obtain ⟨hx, hy, hr⟩ := sub_zero_finite _ _ hne2
    refine ⟨hy, ?_⟩
    rcases eq_of_value_eq x (float64 i) hx hy hr with ⟨hmx, _⟩ | heq
    · have ht := Float64.trunc_zero x hmx
      have hi0 : i = 0 := by
        rw [← hi]
        unfold int64
        rw [if_pos ⟨hx, by rw [ht]; norm_num, by rw [ht]; norm_num⟩]
        exact ht
      subst hi0
      rw [float64_zero]
      exact Number_zero p
    · rw [← heq]
      exact hN

theorem toFloat64_integer (i : Int) :
    NumberLiteral.toFloat64 ⟨decide (i < 0), i.natAbs, 0⟩ = float64 i := by
  simp [NumberLiteral.toFloat64, float64]

/-! ## Printed values as the decoder reads them -/

theorem plainChar_spec (c : Char) (h : plainChar c = true) :
    c ≠ '"' ∧ c ≠ '\\' ∧ ¬ c.toNat < 32 := by
  simp only [plainChar, Bool.and_eq_true, decide_eq_true_eq, bne_iff_ne, ne_eq,
    Bool.not_eq_true', decide_eq_false_iff_not] at h
  exact ⟨by simpa using h.1.1, by simpa using h.1.2, by omega⟩

/-- A text of plain characters, then a double quote: the string literal ends
at that quote and its content is the text. -/
theorem scanStringFuel_plain (s rest : List Char) (hs : s.all plainChar = true) :
    ∀ fuel, s.length < fuel → scanStringFuel fuel (s ++ '"' :: rest) = some (s, rest) := by
  induction s with
  | nil =>
    intro fuel hf
    obtain ⟨f, rfl⟩ : ∃ f, fuel = f + 1 := ⟨fuel - 1, by simp at hf; omega⟩
    simp [scanStringFuel]
  | cons c cs ih =>
    intro fuel hf
    obtain ⟨f, rfl⟩ : ∃ f, fuel = f + 1 := ⟨fuel - 1, by simp at hf; omega⟩
    simp only [List.all_cons, Bool.and_eq_true] at hs
    obtain ⟨h1, h2, h3⟩ := plainChar_spec c hs.1
    simp only [List.cons_append, scanStringFuel, h1, h2, h3, if_false]
    have ih2 : scanStringFuel f (cs.append ('"' :: rest)) = some (cs, rest) :=
      ih hs.2 f (by simp at hf; omega)
    rw [ih2]
    rfl

theorem scanString_plain (s rest : List Char) (hs : s.all plainChar = true) :
    scanString (s ++ '"' :: rest) = some (s, rest) :=
  scanStringFuel_plain s rest hs _ (by simp)

theorem decodeValue_string (s : String) (rest : List Char)
    (hs : s.data.all plainChar = true) :
    decodeValue ('"' :: (s.data ++ '"' :: rest)) = some (.string s, rest) := by
  simp [decodeValue, scanString_plain s.data rest hs]

theorem decodeValue_null (rest : List Char) :
    decodeValue ('n' :: 'u' :: 'l' :: 'l' :: rest) = some (.nil, rest) := by
  simp [decodeValue, dropLiteral]

theorem decodeValue_true (rest : List Char) :
    decodeValue ('t' :: 'r' :: 'u' :: 'e' :: rest) = some (.bool true, rest) := by
  simp [decodeValue, dropLiteral]

theorem decodeValue_false (rest : List Char) :
    decodeValue ('f' :: 'a' :: 'l' :: 's' :: 'e' :: rest) = some (.bool false, rest) := by
  simp [decodeValue, dropLiteral]

/-- The text the printer writes for a printable number is a number literal,
and the decoder reads it as the double of the tree read back. -/
theorem decodeValue_number_printed (p : Platform) (value : Float64) (rest : List Char)
    (hp : Printable p (.number value) = true) (hc : Closes rest = true) :
    ∃ c t x, (numberString p value).data = c :: t ∧ numberStart c = true
      ∧ reread p (.number value) = .number x
      ∧ decodeValue (c :: (t ++ rest)) = some (.float64 x, rest) := by
  cases hN : Number p value with
  | int64 i =>
    obtain ⟨c, t, hct, hstart⟩ := formatInt_start i
    obtain ⟨hfin, _⟩ := Number_int_reread p value i hN
    refine ⟨c, t, float64 i, ?_, hstart, ?_, ?_⟩
    · simp only [numberString, hN, hct]
    · simp only [reread, hN]
    · have hs := scanNumber_formatInt i rest hc
      rw [hct, List.cons_append] at hs
      rw [decodeValue_number c _ hstart, hs]
      simp only [toFloat64_integer, hfin, if_true]
  | float64 f =>
    have hfr : floatRereads p f = true := by
      simpa only [Printable, hN] using hp
    unfold floatRereads at hfr
    split at hfr
    · rename_i l hs
      simp only [Bool.and_eq_true, decide_eq_true_eq] at hfr
      cases htext : (p.formatFloat f).data with
      | nil =>
        rw [htext] at hs
        simp [scanNumber] at hs
      | cons c t =>
        rw [htext] at hs
        have hstart := scanNumber_start c t l [] hs
        have hs2 := scanNumber_append (c :: t) rest l [] hc hs
        rw [List.cons_append, List.nil_append] at hs2
        refine ⟨c, t, f, ?_, hstart, ?_, ?_⟩
        · simp only [numberString, hN, htext]
        · simp only [reread, hN]
        · rw [decodeValue_number c _ hstart, hs2]
          simp only [hfr.1, hfr.2, if_true]
    · cases hfr


/-! ## One step of the decoder -/

theorem lex_open_array (fuel : Nat) (state : TokenState) (stack : List TokenState)
    (sep : Bool) (cs : List Char) (h : state.valueAllowed = true) :
    lex (fuel + 1) state stack sep ('[' :: cs)
      = .tok (.Delim '[') :: lex fuel .ArrayStart (state :: stack) false cs := by
  simp [lex, skipSpace, isSpace, h]

theorem lex_close_array (fuel : Nat) (state : TokenState) (stack : List TokenState)
    (sep : Bool) (cs : List Char) (h : state = .ArrayStart ∨ state = .ArrayComma) :
    lex (fuel + 1) state stack sep (']' :: cs)
      = .tok (.Delim ']') :: lex fuel (stack.headD .TopValue).valueEnd stack.tail false cs := by
  simp [lex, skipSpace, isSpace, h]

theorem lex_open_map (fuel : Nat) (state : TokenState) (stack : List TokenState)
    (sep : Bool) (cs : List Char) (h : state.valueAllowed = true) :
    lex (fuel + 1) state stack sep ('{' :: cs)
      = .tok (.Delim '{') :: lex fuel .ObjectStart (state :: stack) false cs := by
  simp [lex, skipSpace, isSpace, h]

theorem lex_close_map (fuel : Nat) (state : TokenState) (stack : List TokenState)
    (sep : Bool) (cs : List Char) (h : state = .ObjectStart ∨ state = .ObjectComma) :
    lex (fuel + 1) state stack sep ('}' :: cs)
      = .tok (.Delim '}') :: lex fuel (stack.headD .TopValue).valueEnd stack.tail false cs := by
  simp [lex, skipSpace, isSpace, h]

theorem lex_comma_array (fuel : Nat) (stack : List TokenState) (sep : Bool) (cs : List Char) :
    lex (fuel + 1) .ArrayComma stack sep (',' :: cs) = lex fuel .ArrayValue stack true cs := by
  simp [lex, skipSpace, isSpace]

theorem lex_comma_map (fuel : Nat) (stack : List TokenState) (sep : Bool) (cs : List Char) :
    lex (fuel + 1) .ObjectComma stack sep (',' :: cs) = lex fuel .ObjectKey stack true cs := by
  simp [lex, skipSpace, isSpace]

theorem lex_colon (fuel : Nat) (stack : List TokenState) (sep : Bool) (cs : List Char) :
    lex (fuel + 1) .ObjectColon stack sep (':' :: cs) = lex fuel .ObjectValue stack true cs := by
  simp [lex, skipSpace, isSpace]

theorem lex_key (fuel : Nat) (state : TokenState) (stack : List TokenState) (sep : Bool)
    (cs s rest : List Char) (h : state = .ObjectStart ∨ state = .ObjectKey)
    (hs : scanString cs = some (s, rest)) :
    lex (fuel + 1) state stack sep ('"' :: cs)
      = .tok (.string (String.mk s)) :: lex fuel .ObjectColon stack false rest := by
  simp [lex, skipSpace, isSpace, h, hs]

/-- A value token: the text starts with a character that is neither blank nor
a delimiter, colon or comma, in a state where a value may come. -/
theorem lex_token (fuel : Nat) (state : TokenState) (stack : List TokenState) (sep : Bool)
    (c : Char) (cs rest : List Char) (t : Token) (h : state.valueAllowed = true)
    (hc : isSpace c = false ∧ c ≠ '[' ∧ c ≠ ']' ∧ c ≠ '{' ∧ c ≠ '}' ∧ c ≠ ':' ∧ c ≠ ',')
    (hd : decodeValue (c :: cs) = some (t, rest)) :
    lex (fuel + 1) state stack sep (c :: cs)
      = .tok t :: lex fuel state.valueEnd stack false rest := by
  obtain ⟨h0, h1, h2, h3, h4, h5, h6⟩ := hc
  have hk : ¬ (c = '"' ∧ (state = .ObjectStart ∨ state = .ObjectKey)) := by
    rintro ⟨_, hs | hs⟩ <;> rw [hs] at h <;> cases h
  simp only [lex, skipSpace, h0, Bool.false_eq_true, if_false, h1, h2, h3, h4, h5, h6, hk, h,
    if_true, hd]

theorem lex_end (fuel : Nat) (state : TokenState) (stack : List TokenState) :
    lex fuel state stack false [] = [] := by
  cases fuel <;> simp [lex, skipSpace]


/-! ## The printed text as the decoder reads it -/

theorem compact_array_data (p : Platform) (values : List Object) :
    (compact p (.array values)).data
      = '[' :: ((itemsText (compactValues p values) 0).data ++ [']']) := by
  rw [itemsText_zero]
  simp only [compact, String.data_append]
  rfl

theorem compact_map_data (p : Platform) (valuelist : List (String × Object))
    (valuesmap : List (String × Nat)) :
    (compact p (.map valuelist valuesmap)).data
      = '{' :: ((itemsText (compactEntries p valuelist) 0).data ++ ['}']) := by
  rw [itemsText_zero]
  simp only [compact, String.data_append]
  rfl

theorem itemsText_cons_data (a : String) (texts : List String) (i : Nat) :
    (itemsText (a :: texts) i).data
      = (if i = 0 then [] else [',']) ++ (a.data ++ (itemsText texts (i + 1)).data) := by
  simp only [itemsText, String.data_append]
  split <;> rfl

theorem entry_data (p : Platform) (k : String) (v : Object) :
    ("\"" ++ k ++ "\":" ++ compact p v).data
      = '"' :: (k.data ++ '"' :: ':' :: (compact p v).data) := by
  simp only [String.data_append]
  show ['"'] ++ k.data ++ ['"', ':'] ++ (compact p v).data = _
  simp

/-- After the text of an array element or a map entry comes a comma or the
closing delimiter. -/
theorem Closes_items (texts : List String) (i : Nat) (c : Char) (rest : List Char)
    (hc : c = ']' ∨ c = '}') :
    Closes ((itemsText texts (i + 1)).data ++ c :: rest) = true := by
  cases texts with
  | nil =>
    show Closes (c :: rest) = true
    rcases hc with rfl | rfl <;> rfl
  | cons a texts =>
    rw [itemsText_cons_data, if_neg (Nat.succ_ne_zero i)]
    rfl


mutual
/-- On the printed text of a printable tree, in a state where a value may
come, the decoder hands out the items of the tree read back and goes on behind
the text. -/
theorem lex_value_text (p : Platform) : (t : Object) → ∀ (fuel : Nat) (state : TokenState)
    (stack : List TokenState) (sep : Bool) (rest : List Char),
    Printable p t = true → state.valueAllowed = true → Closes rest = true →
    (compact p t).data.length + rest.length < fuel →
    ∃ fuel2, rest.length < fuel2 ∧
      lex fuel state stack sep ((compact p t).data ++ rest)
        = tokens (reread p t) ++ lex fuel2 state.valueEnd stack false rest
  | .null, fuel, state, stack, sep, rest, _, hs, _, hf => by
    obtain ⟨f, rfl⟩ : ∃ f, fuel = f + 1 := ⟨fuel - 1, by omega⟩
    have hl : (compact p .null).data = ['n', 'u', 'l', 'l'] := rfl
    rw [hl] at hf ⊢
    refine ⟨f, by simp at hf; omega, ?_⟩
    exact lex_token f state stack sep 'n' _ rest .nil hs (by decide) (decodeValue_null rest)
  | .bool true, fuel, state, stack, sep, rest, _, hs, _, hf => by
    obtain ⟨f, rfl⟩ : ∃ f, fuel = f + 1 := ⟨fuel - 1, by omega⟩
    have hl : (compact p (.bool true)).data = ['t', 'r', 'u', 'e'] := rfl
    rw [hl] at hf ⊢
    refine ⟨f, by simp at hf; omega, ?_⟩
    exact lex_token f state stack sep 't' _ rest (.bool true) hs (by decide)
      (decodeValue_true rest)
  | .bool false, fuel, state, stack, sep, rest, _, hs, _, hf => by
    obtain ⟨f, rfl⟩ : ∃ f, fuel = f + 1 := ⟨fuel - 1, by omega⟩
    have hl : (compact p (.bool false)).data = ['f', 'a', 'l', 's', 'e'] := rfl
    rw [hl] at hf ⊢
    refine ⟨f, by simp at hf; omega, ?_⟩
    exact lex_token f state stack sep 'f' _ rest (.bool false) hs (by decide)
      (decodeValue_false rest)
  | .string value, fuel, state, stack, sep, rest, hp, hs, _, hf => by
    obtain ⟨f, rfl⟩ : ∃ f, fuel = f + 1 := ⟨fuel - 1, by omega⟩
    have hl : (compact p (.string value)).data = '"' :: (value.data ++ ['"']) := by
      simp only [compact, String.data_append]
      rfl
    have hpl : value.data.all plainChar = true := by simpa only [Printable] using hp
    rw [hl] at hf ⊢
    refine ⟨f, by simp at hf; omega, ?_⟩
    have hd := decodeValue_string value rest hpl
    simp only [List.cons_append, List.append_assoc, List.singleton_append]
    exact lex_token f state stack sep '"' _ rest (.string value) hs (by decide) hd
  | .number value, fuel, state, stack, sep, rest, hp, hs, hc, hf => by
    obtain ⟨f, rfl⟩ : ∃ f, fuel = f + 1 := ⟨fuel - 1, by omega⟩
    obtain ⟨c, t, x, htext, hstart, hre, hd⟩ := decodeValue_number_printed p value rest hp hc
    have hl : (compact p (.number value)).data = c :: t := by
      simp only [compact, htext]
    obtain ⟨_, _, _, _, h1, h2, h3, h4, h5, h6, h0⟩ := numberStart_ne c hstart
    rw [hl] at hf ⊢
    rw [hre]
    refine ⟨f, by simp at hf; omega, ?_⟩
    exact lex_token f state stack sep c _ rest (.float64 x) hs ⟨h0, h1, h2, h3, h4, h5, h6⟩ hd
  | .array values, fuel, state, stack, sep, rest, hp, hs, _, hf => by
    obtain ⟨f, rfl⟩ : ∃ f, fuel = f + 1 := ⟨fuel - 1, by omega⟩
    have hpv : PrintableValues p values = true := by simpa only [Printable] using hp
    rw [compact_array_data] at hf ⊢
    simp only [List.length_cons, List.length_append, List.length_nil] at hf
    obtain ⟨f2, hf2, hlex⟩ := lex_values_text p values f .ArrayStart (state :: stack) 0 rest
      hpv (fun _ => rfl) (fun h => absurd rfl h) (by omega)
    refine ⟨f2, hf2, ?_⟩
    simp only [List.cons_append, List.append_assoc, List.singleton_append, List.nil_append]
    rw [lex_open_array f state stack sep _ hs, hlex]
    simp [reread, tokens]
  | .map valuelist valuesmap, fuel, state, stack, sep, rest, hp, hs, _, hf => by
    obtain ⟨f, rfl⟩ : ∃ f, fuel = f + 1 := ⟨fuel - 1, by omega⟩
    have hpv : PrintableEntries p valuelist = true := by simpa only [Printable] using hp
    rw [compact_map_data] at hf ⊢
    simp only [List.length_cons, List.length_append, List.length_nil] at hf
    obtain ⟨f2, hf2, hlex⟩ := lex_entries_text p valuelist f .ObjectStart (state :: stack) 0 rest
      hpv (fun _ => rfl) (fun h => absurd rfl h) (by omega)
    refine ⟨f2, hf2, ?_⟩
    simp only [List.cons_append, List.append_assoc, List.singleton_append, List.nil_append]
    rw [lex_open_map f state stack sep _ hs, hlex]
    simp [reread, tokens]
/-- The elements of an array from element `idx` on, up to the closing bracket. -/
theorem lex_values_text (p : Platform) : (values : List Object) → ∀ (fuel : Nat)
    (state : TokenState) (stack : List TokenState) (idx : Nat) (rest : List Char),
    PrintableValues p values = true →
    (idx = 0 → state = .ArrayStart) → (idx ≠ 0 → state = .ArrayComma) →
    (itemsText (compactValues p values) idx).data.length + 1 + rest.length < fuel →
    ∃ fuel2, rest.length < fuel2 ∧
      lex fuel state stack false ((itemsText (compactValues p values) idx).data ++ ']' :: rest)
        = tokensOfValues (rereadValues p values)
          ++ .tok (.Delim ']') :: lex fuel2 (stack.headD .TopValue).valueEnd stack.tail false rest
  | [], fuel, state, stack, idx, rest, _, h0, h1, hf => by
    obtain ⟨f, rfl⟩ : ∃ f, fuel = f + 1 := ⟨fuel - 1, by omega⟩
    have hl : (itemsText (compactValues p []) idx).data = [] := rfl
    rw [hl] at hf ⊢
    refine ⟨f, by simp at hf; omega, ?_⟩
    have hst : state = .ArrayStart ∨ state = .ArrayComma := by
      by_cases hi : idx = 0
      · exact Or.inl (h0 hi)
      · exact Or.inr (h1 hi)
    simp only [List.nil_append, rereadValues, tokensOfValues]
    exact lex_close_array f state stack false rest hst
  | v :: vs, fuel, state, stack, idx, rest, hp, h0, h1, hf => by
    have hpv : Printable p v = true ∧ PrintableValues p vs = true := by
      simpa only [PrintableValues, Bool.and_eq_true] using hp
    have hl : (itemsText (compactValues p (v :: vs)) idx).data
        = (if idx = 0 then [] else [',']) ++ ((compact p v).data
          ++ (itemsText (compactValues p vs) (idx + 1)).data) := by
      simp only [compactValues, itemsText_cons_data]
    rw [hl] at hf ⊢
    have hcl := Closes_items (compactValues p vs) idx ']' rest (Or.inl rfl)
    by_cases hi : idx = 0
    · simp only [hi, if_true, List.nil_append, List.length_append] at hf ⊢
      rw [h0 hi]
      obtain ⟨f1, hf1, hlex1⟩ := lex_value_text p v fuel .ArrayStart stack false
        ((itemsText (compactValues p vs) (0 + 1)).data ++ ']' :: rest) hpv.1 rfl
        (by simpa [hi] using hcl) (by simp only [List.length_append, List.length_cons]; omega)
      obtain ⟨f2, hf2, hlex2⟩ := lex_values_text p vs f1 .ArrayComma stack (0 + 1) rest hpv.2
        (fun h => absurd h (by omega)) (fun _ => rfl) (by simp only [List.length_append, List.length_cons] at hf1; omega)
      refine ⟨f2, hf2, ?_⟩
      rw [List.append_assoc, hlex1,
        show TokenState.ArrayStart.valueEnd = TokenState.ArrayComma from rfl, hlex2]
      simp [rereadValues, tokensOfValues]
    · simp only [hi, if_false, List.length_append, List.length_cons, List.length_nil] at hf ⊢
      rw [h1 hi]
      obtain ⟨f, rfl⟩ : ∃ f, fuel = f + 1 := ⟨fuel - 1, by omega⟩
      obtain ⟨f1, hf1, hlex1⟩ := lex_value_text p v f .ArrayValue stack true
        ((itemsText (compactValues p vs) (idx + 1)).data ++ ']' :: rest) hpv.1 rfl
        hcl (by simp only [List.length_append, List.length_cons]; omega)
      obtain ⟨f2, hf2, hlex2⟩ := lex_values_text p vs f1 .ArrayComma stack (idx + 1) rest hpv.2
        (fun h => absurd h (by omega)) (fun _ => rfl) (by simp only [List.length_append, List.length_cons] at hf1; omega)
      refine ⟨f2, hf2, ?_⟩
      simp only [List.singleton_append, List.cons_append, List.append_assoc, List.nil_append]
      rw [lex_comma_array, hlex1,
        show TokenState.ArrayValue.valueEnd = TokenState.ArrayComma from rfl, hlex2]
      simp [rereadValues, tokensOfValues]
/-- The entries of a map from entry `idx` on, up to the closing brace. -/
theorem lex_entries_text (p : Platform) : (valuelist : List (String × Object)) →
    ∀ (fuel : Nat) (state : TokenState) (stack : List TokenState) (idx : Nat)
    (rest : List Char), PrintableEntries p valuelist = true →
    (idx = 0 → state = .ObjectStart) → (idx ≠ 0 → state = .ObjectComma) →
    (itemsText (compactEntries p valuelist) idx).data.length + 1 + rest.length < fuel →
    ∃ fuel2, rest.length < fuel2 ∧
      lex fuel state stack false
          ((itemsText (compactEntries p valuelist) idx).data ++ '}' :: rest)
        = tokensOfEntries (rereadEntries p valuelist)
          ++ .tok (.Delim '}') :: lex fuel2 (stack.headD .TopValue).valueEnd stack.tail false rest
  | [], fuel, state, stack, idx, rest, _, h0, h1, hf => by
    obtain ⟨f, rfl⟩ : ∃ f, fuel = f + 1 := ⟨fuel - 1, by omega⟩
    have hl : (itemsText (compactEntries p []) idx).data = [] := rfl
    rw [hl] at hf ⊢
    refine ⟨f, by simp at hf; omega, ?_⟩
    have hst : state = .ObjectStart ∨ state = .ObjectComma := by
      by_cases hi : idx = 0
      · exact Or.inl (h0 hi)
      · exact Or.inr (h1 hi)
    simp only [List.nil_append, rereadEntries, tokensOfEntries]
    exact lex_close_map f state stack false rest hst
  | (k, v) :: next, fuel, state, stack, idx, rest, hp, h0, h1, hf => by
    have hpv : (k.data.all plainChar = true ∧ Printable p v = true)
        ∧ PrintableEntries p next = true := by
      simpa only [PrintableEntries, Bool.and_eq_true] using hp
    have hl : (itemsText (compactEntries p ((k, v) :: next)) idx).data
        = (if idx = 0 then [] else [',']) ++ ('"' :: (k.data ++ '"' :: ':' :: ((compact p v).data
          ++ (itemsText (compactEntries p next) (idx + 1)).data))) := by
      simp only [compactEntries, itemsText_cons_data, entry_data]
      simp
    rw [hl] at hf ⊢
    have hcl := Closes_items (compactEntries p next) idx '}' rest (Or.inr rfl)
    have hkey := scanString_plain k.data (':' :: ((compact p v).data
      ++ ((itemsText (compactEntries p next) (idx + 1)).data ++ '}' :: rest))) hpv.1.1
    have hst : ∃ g, g + 2 < fuel + 2
        ∧ (compact p v).data.length
            + ((itemsText (compactEntries p next) (idx + 1)).data ++ '}' :: rest).length < g
        ∧ lex fuel state stack false
            ((if idx = 0 then [] else [',']) ++ ('"' :: (k.data ++ '"' :: ':' ::
              ((compact p v).data ++ (itemsText (compactEntries p next) (idx + 1)).data)))
              ++ '}' :: rest)
          = .tok (.string k) :: lex g .ObjectValue stack true ((compact p v).data
              ++ ((itemsText (compactEntries p next) (idx + 1)).data ++ '}' :: rest)) := by
      by_cases hi : idx = 0
      · subst hi
        simp only [↓reduceIte, List.nil_append, List.length_append, List.length_cons] at hf ⊢
        rw [h0 rfl]
        obtain ⟨f, rfl⟩ : ∃ f, fuel = f + 2 := ⟨fuel - 2, by omega⟩
        refine ⟨f, by omega, by omega, ?_⟩
        simp only [List.cons_append, List.append_assoc, List.nil_append]
        rw [lex_key (f + 1) .ObjectStart stack false _ _ _ (Or.inl rfl) hkey, lex_colon]
      · simp only [hi, if_false, List.length_append, List.length_cons, List.length_nil] at hf ⊢
        rw [h1 hi]
        obtain ⟨f, rfl⟩ : ∃ f, fuel = f + 3 := ⟨fuel - 3, by omega⟩
        refine ⟨f, by omega, by omega, ?_⟩
        simp only [List.singleton_append, List.cons_append, List.append_assoc, List.nil_append]
        rw [lex_comma_map, lex_key (f + 1) .ObjectKey stack true _ _ _ (Or.inr rfl) hkey,
          lex_colon]
    obtain ⟨g, _, hg, hlex0⟩ := hst
    obtain ⟨f1, hf1, hlex1⟩ := lex_value_text p v g .ObjectValue stack true
      ((itemsText (compactEntries p next) (idx + 1)).data ++ '}' :: rest) hpv.1.2 rfl hcl hg
    obtain ⟨f2, hf2, hlex2⟩ := lex_entries_text p next f1 .ObjectComma stack (idx + 1) rest
      hpv.2 (fun h => absurd h (by omega)) (fun _ => rfl) (by simp only [List.length_append, List.length_cons] at hf1; omega)
    refine ⟨f2, hf2, ?_⟩
    rw [hlex0, hlex1,
      show TokenState.ObjectValue.valueEnd = TokenState.ObjectComma from rfl, hlex2]
    simp [rereadEntries, tokensOfEntries]
end


/-! ## The tree read back -/

theorem Number_float_eq (p : Platform) (a f : Float64) (h : Number p a = .float64 f) :
    f = a := by
  unfold Number at h
  simp only at h
  split at h
  · exact (NumberValue.float64.inj h).symm
  · cases h

theorem rereadEntries_keys (p : Platform) (valuelist : List (String × Object)) :
    (rereadEntries p valuelist).map Prod.fst = valuelist.map Prod.fst := by
  induction valuelist with
  | nil => rfl
  | cons elem next ih =>
    obtain ⟨k, v⟩ := elem
    simp [rereadEntries, ih]

theorem rereadEntries_keyIndex (p : Platform) (valuelist : List (String × Object))
    (start : Nat) : keyIndex (rereadEntries p valuelist) start = keyIndex valuelist start := by
  induction valuelist generalizing start with
  | nil => rfl
  | cons elem next ih =>
    obtain ⟨k, v⟩ := elem
    simp [rereadEntries, keyIndex, ih]

mutual
/-- Reading back keeps the representation invariant. -/
theorem WF_reread (p : Platform) : (t : Object) → (reread p t).WF = t.WF
  | .null => rfl
  | .bool _ => rfl
  | .string _ => rfl
  | .number a => by
    cases hN : Number p a <;> simp [reread, hN, Object.WF]
  | .array values => by
    simp only [reread, Object.WF]
    exact WFValues_reread p values
  | .map valuelist valuesmap => by
    simp only [reread, Object.WF, rereadEntries_keys, rereadEntries_keyIndex,
      WFEntries_reread p valuelist]
theorem WFValues_reread (p : Platform) : (values : List Object) →
    WFValues (rereadValues p values) = WFValues values
  | [] => rfl
  | v :: rest => by
    simp only [rereadValues, WFValues, WF_reread p v, WFValues_reread p rest]
theorem WFEntries_reread (p : Platform) : (valuelist : List (String × Object)) →
    WFEntries (rereadEntries p valuelist) = WFEntries valuelist
  | [] => rfl
  | (k, v) :: next => by
    simp only [rereadEntries, WFEntries, WF_reread p v, WFEntries_reread p next]
end

theorem Equal_reread_number (p : Platform) (a : Float64) :
    Equal p (.number a) (reread p (.number a)) = true := by
  have hcases : (∃ i, Number p a = .int64 i) ∨ (∃ f, Number p a = .float64 f) := by
    cases Number p a with
    | int64 i => exact Or.inl ⟨i, rfl⟩
    | float64 f => exact Or.inr ⟨f, rfl⟩
  rcases hcases with ⟨i, hN⟩ | ⟨f, hN⟩
  · have hre : reread p (.number a) = .number (float64 i) := by
      simp only [reread, hN]
    rw [hre]
    simp only [Equal, hN, (Number_int_reread p a i hN).2, decide_True]
  · have hf := Number_float_eq p a f hN
    subst hf
    have hre : reread p (.number f) = .number f := by
      simp only [reread, hN]
    rw [hre]
    simp only [Equal, decide_True]

mutual
/-- A tree and the tree read back from its printed text are equal under
recursive equality. -/
theorem Equal_reread (p : Platform) : (t : Object) → Equal p t (reread p t) = true
  | .null => rfl
  | .bool _ => by simp [reread, Equal]
  | .string _ => by simp [reread, Equal]
  | .number a => Equal_reread_number p a
  | .array values => by
    simp only [reread, Equal]
    exact EqualValues_reread p values
  | .map valuelist valuesmap => by
    simp only [reread, Equal]
    exact EqualEntries_reread p valuelist
theorem EqualValues_reread (p : Platform) : (values : List Object) →
    EqualValues p values (rereadValues p values) = true
  | [] => rfl
  | v :: rest => by
    simp only [rereadValues, EqualValues, Equal_reread p v, EqualValues_reread p rest,
      Bool.and_self]
theorem EqualEntries_reread (p : Platform) : (valuelist : List (String × Object)) →
    EqualEntries p valuelist (rereadEntries p valuelist) = true
  | [] => rfl
  | (k, v) :: next => by
    simp only [rereadEntries, EqualEntries, Equal_reread p v, EqualEntries_reread p next,
      beq_self_eq_true, Bool.and_self]
end

/-- The decoder on the printed text of a printable tree hands out the items
of the tree read back, and nothing after them. -/
theorem NewDecoder_compact (p : Platform) (t : Object) (hp : Printable p t = true) :
    NewDecoder (compact p t) = tokens (reread p t) := by
  obtain ⟨f2, _, hlex⟩ := lex_value_text p t ((compact p t).length + 1) .TopValue [] false []
    hp rfl rfl (by
      show (compact p t).data.length + 0 < (compact p t).data.length + 1
      omega)
  rw [List.append_nil, lex_end, List.append_nil] at hlex
  exact hlex

theorem Print_eq_compact (p : Platform) (t : Object) : Print p t = compact p t := by
  unfold Print
  rw [printer_accept p t (depth t) "" (Nat.le_refl _)]
  simp


/-- A text that parses to a printable tree: the printer writes the compact
text of the tree, that text parses again with nothing left over, and the tree
it yields is equal to the first under recursive equality. -/
theorem round_trip_printable (p : Platform) (x : String) (t : Object) (d1 : Decoder)
    (hx : LoadObject (NewDecoder x) = some (.ok t, d1)) (hp : Printable p t = true) :
    Print p t = compact p t
    ∧ LoadObject (NewDecoder (Print p t)) = some (.ok (reread p t), [])
    ∧ Equal p t (reread p t) = true := by
  have hwf : (reread p t).WF = true := by
    rw [WF_reread]
    exact LoadObject_WF _ t d1 hx
  refine ⟨Print_eq_compact p t, ?_, Equal_reread p t⟩
  rw [Print_eq_compact, NewDecoder_compact p t hp]
  have h := readObject_tokens (reread p t) hwf ((tokens (reread p t)).length + 1) []
    (Nat.lt_succ_self _)
  rw [List.append_nil] at h
  exact h


/-! ## The text of a double reads back -/

theorem scanDigits_map_stop (ds : List Nat) (rest : List Char) (hd : ∀ d ∈ ds, d < 10)
    (h : scanDigits rest = ([], rest)) : scanDigits (ds.map digitChar ++ rest) = (ds, rest) := by
  induction ds with
  | nil => simpa using h
  | cons d ds ih =>
    have h1 := digitChar_spec d (hd d (by simp))
    have h2 := ih (fun x hx => hd x (by simp [hx]))
    simp only [List.map_cons, List.cons_append, scanDigits, h1.1, if_true, h1.2.1]
    show (d :: (scanDigits (List.map digitChar ds ++ rest)).1,
      (scanDigits (List.map digitChar ds ++ rest)).2) = (d :: ds, rest)
    rw [h2]

theorem decimal_ne_nil (n : Nat) : decimal (n + 1) n ≠ [] := by
  simp only [decimal]
  split
  · simp
  · simp

/-- An integer followed by a negative power of ten, as a number literal. -/
theorem scanInteger_decimal_exp (neg : Bool) (n k : Nat) (hn : n ≠ 0) :
    scanInteger neg ((decimal (n + 1) n).map digitChar
        ++ 'e' :: '-' :: (decimal (k + 1) k).map digitChar)
      = some (⟨neg, n, -(k : Int)⟩, []) := by
  obtain ⟨a, t, ht, ha0, ha⟩ := decimal_head (n + 1) n (by omega) (by omega)
  have hlt := decimal_lt (n + 1) n
  have hsd := scanDigits_map_stop (decimal (n + 1) n)
    ('e' :: '-' :: (decimal (k + 1) k).map digitChar) hlt (by simp [scanDigits])
  have hv := decimal_value (n + 1) n (by omega)
  have hk := scanDigits_map (decimal (k + 1) k) [] (decimal_lt (k + 1) k) rfl
  have hkv := decimal_value (k + 1) k (by omega)
  rw [List.append_nil] at hk
  have hspec := digitChar_spec a ha
  have hne : ¬ digitChar a = '0' := by
    rw [hspec.2.2.1]
    omega
  rw [ht] at hsd hv
  rw [ht]
  simp only [List.map_cons, List.cons_append] at hsd ⊢
  simp only [scanInteger, hne, if_false, hspec.1, if_true, hsd]
  simp only [scanFraction, scanExponent, hv]
  simp only [Char.reduceEq, if_false, true_or, or_true, if_true, zero_add,
    Option.some.injEq, Prod.mk.injEq, NumberLiteral.mk.injEq, true_and]
  rw [hk]
  simp only [decimal_ne_nil, if_false, hkv]

theorem scanNumber_int_exp (i : Int) (k : Nat) (hi : i ≠ 0) :
    scanNumber ((formatInt i).data ++ 'e' :: '-' :: (formatNat k).data)
      = some (⟨decide (i < 0), i.natAbs, -(k : Int)⟩, []) := by
  have hn : i.natAbs ≠ 0 := Int.natAbs_ne_zero.mpr hi
  have hk : (formatNat k).data = (decimal (k + 1) k).map digitChar := rfl
  rw [formatInt_data, hk]
  by_cases hneg : i < 0
  · simp only [hneg, if_true, List.cons_append, scanNumber, decide_True]
    exact scanInteger_decimal_exp true _ k hn
  · obtain ⟨c, t, hct, _, hc⟩ := decimal_map_head i.natAbs
    have := scanInteger_decimal_exp false i.natAbs k hn
    rw [hct] at this
    simp only [hneg, if_false, decide_False, hct, List.cons_append, scanNumber, hc]
    exact this

theorem le_log2_ten_pow (k : Nat) : k ≤ log2 (10 ^ k) := by
  have h10 : (10 : Nat) ^ k ≠ 0 := by positivity
  have h := (log2_spec (10 ^ k) h10).2
  have h2 : 2 ^ k ≤ 10 ^ k := Nat.pow_le_pow_left (by norm_num) k
  have h3 : 2 ^ k < 2 ^ (log2 (10 ^ k) + 1) := lt_of_le_of_lt h2 h
  have := (Nat.pow_lt_pow_iff_right (by norm_num : 1 < 2)).mp h3
  omega

/-- A double with `k` binary places, written with `k` decimal places, is read
back exactly. -/
theorem roundRatio_exact (s : Bool) (m k : Nat) (h : Representable m (-(k : Int)))
    (h0 : m ≠ 0) : roundRatio s (m * 5 ^ k) (10 ^ k) = pack s m (-(k : Int)) := by
  have hL := le_log2_ten_pow k
  have h10 : 0 < (10 : Nat) ^ k := by positivity
  obtain ⟨j, hj⟩ : ∃ j, 56 + log2 (10 ^ k) = k + j := ⟨56 + log2 (10 ^ k) - k, by omega⟩
  have hmul : m * 5 ^ k * 2 ^ (56 + log2 (10 ^ k)) = 10 ^ k * (m * 2 ^ j) := by
    rw [hj, pow_add, show (10 : Nat) = 2 * 5 from rfl, Nat.mul_pow]
    ring
  unfold roundRatio
  simp only [hmul, Nat.mul_div_cancel_left _ h10, Nat.mul_mod_right, if_true, Nat.add_zero]
  have hpow : 2 * (m * 2 ^ j) = m * 2 ^ (j + 1) := by
    rw [pow_succ]
    ring
  have hexp : (-((56 + log2 (10 ^ k) + 1 : Nat) : Int)) = -(k : Int) - ((j + 1 : Nat) : Int) := by
    rw [hj]
    push_cast
    ring
  rw [hpow, hexp]
  exact roundDyadic_exact_mul s m (-(k : Int)) (j + 1) h h0


/-- The exact value of a finite non-zero double, as a literal, reads back as
the double. -/
theorem readsBack_exactText (f : Float64) (hfin : f.isFinite = true) (h0 : f.mantissa ≠ 0) :
    readsBack (exactText f) f = true := by
  have hrep := Float64.representable f hfin
  unfold exactText
  by_cases he : 0 ≤ f.exponent
  · rw [if_pos he]
    have hpos : 0 < f.mantissa * 2 ^ f.exponent.toNat :=
      Nat.mul_pos (Nat.pos_of_ne_zero h0) (pow_pos (by norm_num) _)
    generalize hi : (if f.sign = true then -((f.mantissa * 2 ^ f.exponent.toNat : Nat) : Int)
      else ((f.mantissa * 2 ^ f.exponent.toNat : Nat) : Int)) = i
    have hsign : decide (i < 0) = f.sign := by
      rw [← hi]
      cases f.sign
      · simp
      · simp
        omega
    have habs : i.natAbs = f.mantissa * 2 ^ f.exponent.toNat := by
      rw [← hi]
      cases f.sign
      · simp only [Bool.false_eq_true, if_false]
        exact Int.natAbs_ofNat _
      · simp only [if_true]
        rw [Int.natAbs_neg]
        exact Int.natAbs_ofNat _
    have hs := scanNumber_formatInt i [] rfl
    rw [List.append_nil] at hs
    have hval : float64 i = f := by
      unfold float64
      rw [hsign, habs]
      have h1 := roundDyadic_exact_mul f.sign f.mantissa f.exponent f.exponent.toNat hrep h0
      rw [Int.toNat_of_nonneg he, sub_self] at h1
      rw [h1, pack_self f hfin]
    simp only [readsBack, hs, toFloat64_integer, hval, decide_True]
  · rw [if_neg he]
    have hk : ((-f.exponent).toNat : Int) = -f.exponent := Int.toNat_of_nonneg (by omega)
    have hpos : 0 < f.mantissa * 5 ^ (-f.exponent).toNat :=
      Nat.mul_pos (Nat.pos_of_ne_zero h0) (pow_pos (by norm_num) _)
    generalize hi : (if f.sign = true then -((f.mantissa * 5 ^ (-f.exponent).toNat : Nat) : Int)
      else ((f.mantissa * 5 ^ (-f.exponent).toNat : Nat) : Int)) = i
    have hsign : decide (i < 0) = f.sign := by
      rw [← hi]
      cases f.sign
      · simp
      · simp
        omega
    have habs : i.natAbs = f.mantissa * 5 ^ (-f.exponent).toNat := by
      rw [← hi]
      cases f.sign
      · simp only [Bool.false_eq_true, if_false]
        exact Int.natAbs_ofNat _
      · simp only [if_true]
        rw [Int.natAbs_neg]
        exact Int.natAbs_ofNat _
    have hine : i ≠ 0 := by
      intro hz
      rw [hz] at habs
      simp at habs
      omega
    have hs := scanNumber_int_exp i (-f.exponent).toNat hine
    have hkpos : 0 < (-f.exponent).toNat := by omega
    have hrep2 : Representable f.mantissa (-(((-f.exponent).toNat : Nat) : Int)) := by
      rw [hk, neg_neg]
      exact hrep
    have hval : NumberLiteral.toFloat64
        ⟨decide (i < 0), i.natAbs, -(((-f.exponent).toNat : Nat) : Int)⟩ = f := by
      unfold NumberLiteral.toFloat64
      rw [if_neg (by simp only; omega)]
      simp only [neg_neg, Int.toNat_ofNat]
      rw [hsign, habs, roundRatio_exact f.sign f.mantissa _ hrep2 h0, hk, neg_neg,
        pack_self f hfin]
    simp only [readsBack, hs, hval, decide_True]

theorem pick_sound (f : Float64) (down up : List Nat × Int) (below above even : Bool)
    (c : List Nat × Int) (h : pick f down up below above even = some c) :
    readsBack (fmtG f.sign c.1 c.2) f = true := by
  unfold pick at h
  dsimp only at h
  split_ifs at h with h1 h2 h3 h4 h5 h6 <;>
    first
    | (cases h
       simp only [Bool.and_eq_true] at h1
       first
       | exact h1.1
       | exact h1.2)
    | (cases h
       assumption)

theorem candidate_sound (f : Float64) (n : Nat) (c : List Nat × Int)
    (h : candidate f n = some c) : readsBack (fmtG f.sign c.1 c.2) f = true :=
  pick_sound f _ _ _ _ _ c h

theorem shortestFrom_sound (f : Float64) : ∀ (fuel n : Nat) (c : List Nat × Int),
    shortestFrom f fuel n = some c → readsBack (fmtG f.sign c.1 c.2) f = true := by
  intro fuel
  induction fuel with
  | zero =>
    intro n c h
    rw [shortestFrom] at h
    exact Option.noConfusion h
  | succ k ih =>
    intro n c h
    rw [shortestFrom] at h
    cases hc : candidate f n with
    | none =>
      rw [hc] at h
      exact ih _ _ h
    | some c2 =>
      rw [hc] at h
      have h2 : c2 = c := Option.some.inj h
      rw [h2] at hc
      exact candidate_sound f n _ hc

theorem Float64.eq_zero_of_mantissa (f : Float64) (h0 : f.mantissa = 0) :
    f = ⟨f.sign, 0, 0⟩ := by
  unfold Float64.mantissa at h0
  split at h0
  · rename_i he
    exact Float64.ext_val _ _ rfl he h0
  · omega

/-- The text `%v` gives for a finite double reads back as that double. -/
theorem formatV_reads (f : Float64) (hfin : f.isFinite = true) :
    readsBack (formatV f).data f = true := by
  unfold formatV
  rw [if_neg (by simp [Float64.finite_not_nan f hfin]), if_neg (by simp [hfin])]
  by_cases h0 : f.mantissa = 0
  · rw [if_pos h0, Float64.eq_zero_of_mantissa f h0]
    cases f.sign <;> decide
  · rw [if_neg h0]
    cases hs : shortestFrom f 17 1 with
    | none => exact readsBack_exactText f hfin h0
    | some c => exact shortestFrom_sound f 17 1 c hs

theorem floatRereads_platform (convert : Float64 → Int) (f : Float64)
    (hfin : f.isFinite = true) : floatRereads (platform convert) f = true := by
  have h := formatV_reads f hfin
  unfold readsBack at h
  unfold floatRereads
  show (match scanNumber (formatV f).data with
    | some (l, []) => decide (l.toFloat64 = f) && f.isFinite
    | _ => false) = true
  cases hsc : scanNumber (formatV f).data with
  | none =>
    rw [hsc] at h
    cases h
  | some r =>
    obtain ⟨l, rest⟩ := r
    rw [hsc] at h
    cases rest with
    | nil =>
      simp only at h ⊢
      rw [h, hfin]
      rfl
    | cons c cs => cases h


/-! ## Numbers of a parsed tree are finite -/

theorem decodeValue_finite (cs rest : List Char) (t : Token)
    (h : decodeValue cs = some (t, rest)) : (Item.tok t).finite = true := by
  cases cs with
  | nil => simp [decodeValue] at h
  | cons c r =>
    simp only [decodeValue] at h
    split_ifs at h with h1 h2 h3 h4
    · obtain ⟨a, _, ha⟩ := Option.map_eq_some'.mp h
      cases ha
      rfl
    · obtain ⟨a, _, ha⟩ := Option.map_eq_some'.mp h
      cases ha
      rfl
    · obtain ⟨a, _, ha⟩ := Option.map_eq_some'.mp h
      cases ha
      rfl
    · obtain ⟨a, _, ha⟩ := Option.map_eq_some'.mp h
      cases ha
      rfl
    · split at h
      · cases h
      · split_ifs at h with h5
        cases h
        exact h5

theorem tokenError_finite (c : Char) (depth : Nat) (sep : Bool) :
    ∀ it ∈ tokenError c depth sep, it.finite = true := by
  intro it hit
  unfold tokenError at hit
  split_ifs at hit
  · simp only [List.mem_singleton] at hit
    subst hit
    rfl
  · rw [List.mem_replicate] at hit
    rw [hit.2]
    rfl
  · simp only [List.mem_singleton] at hit
    subst hit
    rfl

/-- The decoder hands out no token of a NaN or an infinite double. -/
theorem lex_finite : ∀ (fuel : Nat) (state : TokenState) (stack : List TokenState)
    (sep : Bool) (cs : List Char), ∀ it ∈ lex fuel state stack sep cs, it.finite = true := by
  intro fuel
  induction fuel with
  | zero =>
    intro state stack sep cs it hit
    simp [lex] at hit
  | succ f ih =>
    intro state stack sep cs it hit
    have hcons : ∀ (t : Token) (d : Decoder), (Item.tok t).finite = true →
        (∀ x ∈ d, Item.finite x = true) → it ∈ Item.tok t :: d → it.finite = true := by
      intro t d ht hd hmem
      rcases List.mem_cons.mp hmem with rfl | hmem
      · exact ht
      · exact hd _ hmem
    simp only [lex] at hit
    split at hit
    · split_ifs at hit
      · simp only [List.mem_singleton] at hit
        subst hit
        rfl
      · cases hit
    · split_ifs at hit
      all_goals first
        | exact tokenError_finite _ _ _ it hit
        | exact ih _ _ _ _ it hit
        | (refine hcons _ _ ?_ (ih _ _ _ _) hit
           rfl)
        | (split at hit
           · simp only [List.mem_singleton] at hit
             subst hit
             rfl
           · first
             | (refine hcons _ _ ?_ (ih _ _ _ _) hit
                rfl)
             | (rename_i hd
                exact hcons _ _ (decodeValue_finite _ _ _ hd) (ih _ _ _ _) hit))


theorem FiniteValues_append (a b : List Object) :
    FiniteValues (a ++ b) = (FiniteValues a && FiniteValues b) := by
  induction a with
  | nil => simp [FiniteValues]
  | cons v rest ih => simp [FiniteValues, ih, Bool.and_assoc]

theorem FiniteEntries_append (a b : List (String × Object)) :
    FiniteEntries (a ++ b) = (FiniteEntries a && FiniteEntries b) := by
  induction a with
  | nil => simp [FiniteEntries]
  | cons elem next ih =>
    obtain ⟨k, v⟩ := elem
    simp [FiniteEntries, ih, Bool.and_assoc]

theorem Token_finite (d d2 : Decoder) (r : Except Error Token)
    (hd : ∀ it ∈ d, Item.finite it = true) (h : Decoder.Token d = (r, d2)) :
    (∀ it ∈ d2, Item.finite it = true)
    ∧ (∀ f, r = .ok (.float64 f) → f.isFinite = true) := by
  cases d with
  | nil =>
    simp only [Decoder.Token, Prod.mk.injEq] at h
    obtain ⟨rfl, rfl⟩ := h
    exact ⟨hd, fun f hf => by cases hf⟩
  | cons it rest =>
    have hrest : ∀ x ∈ rest, Item.finite x = true := fun x hx => hd x (List.mem_cons_of_mem _ hx)
    cases it with
    | tok t =>
      simp only [Decoder.Token, Prod.mk.injEq] at h
      obtain ⟨rfl, rfl⟩ := h
      refine ⟨hrest, ?_⟩
      intro f hf
      have ht : t = .float64 f := Except.ok.inj hf
      subst ht
      exact hd _ (List.mem_cons_self _ _)
    | err msg more =>
      simp only [Decoder.Token, Prod.mk.injEq] at h
      obtain ⟨rfl, rfl⟩ := h
      exact ⟨hrest, fun f hf => by cases hf⟩

theorem readArrayLoop_finite (ro : Decoder → Option Result)
    (hro : ∀ d t d1, (∀ it ∈ d, Item.finite it = true) → ro d = some (.ok t, d1) →
      Finite t = true ∧ ∀ it ∈ d1, Item.finite it = true) :
    ∀ (fuel : Nat) (values : List Object) (d : Decoder) (t : Object) (d1 : Decoder),
      FiniteValues values = true → (∀ it ∈ d, Item.finite it = true) →
      readArrayLoop ro fuel values d = some (.ok t, d1) →
      Finite t = true ∧ ∀ it ∈ d1, Item.finite it = true := by
  intro fuel
  induction fuel with
  | zero =>
    intro values d t d1 _ _ h
    simp [readArrayLoop] at h
  | succ f ih =>
    intro values d t d1 hv hd h
    rw [readArrayLoop_succ] at h
    split at h
    · cases hr : ro d with
      | none => simp [hr] at h
      | some r =>
        obtain ⟨res, d2⟩ := r
        cases res with
        | error e => simp [hr] at h
        | ok v =>
          simp only [hr] at h
          obtain ⟨hv2, hd2⟩ := hro d v d2 hd hr
          refine ih _ _ _ _ ?_ hd2 h
          rw [FiniteValues_append, hv]
          simp [FiniteValues, hv2]
    · simp only [Option.some.injEq, Prod.mk.injEq, Except.ok.injEq] at h
      obtain ⟨rfl, rfl⟩ := h
      exact ⟨by simpa [Finite] using hv, (Token_finite d _ _ hd rfl).1⟩

theorem readMapLoop_finite (ro : Decoder → Option Result)
    (hro : ∀ d t d1, (∀ it ∈ d, Item.finite it = true) → ro d = some (.ok t, d1) →
      Finite t = true ∧ ∀ it ∈ d1, Item.finite it = true) :
    ∀ (fuel : Nat) (valuelist : List (String × Object)) (valuesmap : List (String × Nat))
      (d : Decoder) (t : Object) (d1 : Decoder),
      FiniteEntries valuelist = true → (∀ it ∈ d, Item.finite it = true) →
      readMapLoop ro fuel valuelist valuesmap d = some (.ok t, d1) →
      Finite t = true ∧ ∀ it ∈ d1, Item.finite it = true := by
  intro fuel
  induction fuel with
  | zero =>
    intro valuelist valuesmap d t d1 _ _ h
    simp [readMapLoop] at h
  | succ f ih =>
    intro valuelist valuesmap d t d1 hv hd h
    rw [readMapLoop_succ] at h
    split at h
    · cases hk : d.Token with
      | mk res d2 =>
        have hd2 := (Token_finite d d2 res hd hk).1
        cases res with
        | error e => simp [hk] at h
        | ok tk =>
          cases tk with
          | string k =>
            simp only [hk] at h
            cases hr : ro d2 with
            | none => simp [hr] at h
            | some r =>
              obtain ⟨res, d3⟩ := r
              cases res with
              | error e => simp [hr] at h
              | ok v =>
                simp only [hr] at h
                obtain ⟨hv3, hd3⟩ := hro d2 v d3 hd2 hr
                split at h
                · simp at h
                · refine ih _ _ _ _ _ ?_ hd3 h
                  rw [FiniteEntries_append, hv]
                  simp [FiniteEntries, hv3]
          | Delim c => simp [hk] at h
          | bool b => simp [hk] at h
          | float64 x => simp [hk] at h
          | Number l => simp [hk] at h
          | nil => simp [hk] at h
    · simp only [Option.some.injEq, Prod.mk.injEq, Except.ok.injEq] at h
      obtain ⟨rfl, rfl⟩ := h
      exact ⟨by simpa [Finite] using hv, (Token_finite d _ _ hd rfl).1⟩

/-- From a decoder that hands out finite numbers only, `readObject` builds a
tree with finite numbers only. -/
theorem readObject_finite : ∀ (fuel : Nat) (d : Decoder) (t : Object) (d1 : Decoder),
    (∀ it ∈ d, Item.finite it = true) → readObject fuel d = some (.ok t, d1) →
    Finite t = true ∧ ∀ it ∈ d1, Item.finite it = true := by
  intro fuel
  induction fuel with
  | zero =>
    intro d t d1 _ h
    simp [readObject] at h
  | succ f ih =>
    intro d t d1 hd h
    rw [readObject_succ] at h
    cases hk : d.Token with
    | mk res d2 =>
      obtain ⟨hd2, hfl⟩ := Token_finite d d2 res hd hk
      cases res with
      | error e => simp [hk] at h
      | ok tk =>
        cases tk with
        | Delim c =>
          simp only [hk] at h
          split at h
          · exact readMapLoop_finite _ ih f [] [] d2 t d1 rfl hd2 h
          · split at h
            · exact readArrayLoop_finite _ ih f [] d2 t d1 rfl hd2 h
            · simp at h
        | string s =>
          simp only [hk, Option.some.injEq, Prod.mk.injEq, Except.ok.injEq] at h
          obtain ⟨rfl, rfl⟩ := h
          exact ⟨rfl, hd2⟩
        | bool b =>
          simp only [hk, Option.some.injEq, Prod.mk.injEq, Except.ok.injEq] at h
          obtain ⟨rfl, rfl⟩ := h
          exact ⟨rfl, hd2⟩
        | float64 x =>
          simp only [hk, Option.some.injEq, Prod.mk.injEq, Except.ok.injEq] at h
          obtain ⟨rfl, rfl⟩ := h
          exact ⟨hfl x rfl, hd2⟩
        | nil =>
          simp only [hk, Option.some.injEq, Prod.mk.injEq, Except.ok.injEq] at h
          obtain ⟨rfl, rfl⟩ := h
          exact ⟨rfl, hd2⟩
        | Number l => simp [hk] at h

/-- Every number in a tree parsed from a text is finite. -/
theorem LoadObject_NewDecoder_finite (x : String) (t : Object) (d1 : Decoder)
    (h : LoadObject (NewDecoder x) = some (.ok t, d1)) : Finite t = true :=
  (readObject_finite _ _ t d1 (lex_finite _ _ _ _ _) h).1

theorem Printable_number (convert : Float64 → Int) (value : Float64)
    (hfin : value.isFinite = true) : Printable (platform convert) (.number value) = true := by
  have hcases : (∃ i, Number (platform convert) value = .int64 i)
      ∨ (∃ f, Number (platform convert) value = .float64 f) := by
    cases Number (platform convert) value with
    | int64 i => exact Or.inl ⟨i, rfl⟩
    | float64 f => exact Or.inr ⟨f, rfl⟩
  rcases hcases with ⟨i, hN⟩ | ⟨f, hN⟩
  · simp only [Printable, hN]
  · have hf := Number_float_eq _ value f hN
    subst hf
    simp only [Printable, hN]
    exact floatRereads_platform convert f hfin

mutual
/-- A tree with plain strings and finite numbers prints to a text that
reads back. -/
theorem Printable_of (convert : Float64 → Int) : (t : Object) →
    PlainStrings t = true → Finite t = true → Printable (platform convert) t = true
  | .null, _, _ => rfl
  | .bool _, _, _ => rfl
  | .string value, hs, _ => by
    simpa only [Printable, PlainStrings] using hs
  | .number value, _, hf => Printable_number convert value (by simpa only [Finite] using hf)
  | .array values, hs, hf => by
    simp only [Printable]
    exact PrintableValues_of convert values (by simpa only [PlainStrings] using hs)
      (by simpa only [Finite] using hf)
  | .map valuelist _, hs, hf => by
    simp only [Printable]
    exact PrintableEntries_of convert valuelist (by simpa only [PlainStrings] using hs)
      (by simpa only [Finite] using hf)
theorem PrintableValues_of (convert : Float64 → Int) : (values : List Object) →
    PlainValues values = true → FiniteValues values = true →
    PrintableValues (platform convert) values = true
  | [], _, _ => rfl
  | v :: rest, hs, hf => by
    simp only [PlainValues, Bool.and_eq_true] at hs
    simp only [FiniteValues, Bool.and_eq_true] at hf
    simp only [PrintableValues, Printable_of convert v hs.1 hf.1,
      PrintableValues_of convert rest hs.2 hf.2, Bool.and_self]
theorem PrintableEntries_of (convert : Float64 → Int) : (valuelist : List (String × Object)) →
    PlainEntries valuelist = true → FiniteEntries valuelist = true →
    PrintableEntries (platform convert) valuelist = true
  | [], _, _ => rfl
  | (k, v) :: next, hs, hf => by
    simp only [PlainEntries, Bool.and_eq_true] at hs
    simp only [FiniteEntries, Bool.and_eq_true] at hf
    simp only [PrintableEntries, hs.1.1, Printable_of convert v hs.1.2 hf.1,
      PrintableEntries_of convert next hs.2 hf.2, Bool.and_self]
end


/-! ## Round trip -/

/-- C1 (round trip), amended: for every JSON text `x` that `LoadObject` parses
to a tree `t` whose strings and keys hold no double quote, backslash or
control character (the printer writes them verbatim, without escaping): the
printer writes the compact text of `t`, parsing that text again succeeds with
nothing left over, and the tree it yields (`reread`) is equal to `t` under
recursive equality: same kinds, same booleans and strings, same elements and
keys in the same order, same canonical numeric values. This holds on every Go
implementation, whatever it does where `int64(x)` is left open. -/
theorem C1_round_trip (convert : Float64 → Int) (x : String) (t : Object) (d1 : Decoder)
    (hx : LoadObject (NewDecoder x) = some (.ok t, d1)) (hs : PlainStrings t = true) :
    Print (platform convert) t = compact (platform convert) t
    ∧ LoadObject (NewDecoder (Print (platform convert) t))
      = some (.ok (reread (platform convert) t), [])
    ∧ Equal (platform convert) t (reread (platform convert) t) = true :=
  round_trip_printable (platform convert) x t d1 hx
    (Printable_of convert t hs (LoadObject_NewDecoder_finite x t d1 hx))

set_option exponentiation.threshold 2000 in
set_option maxRecDepth 100000 in
/-- C1 on the text `{"a":5.5,"b":[-0.0,"x"]}`: it prints as
`{"a":5.5,"b":[0,"x"]}`, which parses to an equal tree. -/
theorem C1_round_trip_witness :
    LoadObject (NewDecoder "\x7b\"a\":5.5,\"b\":[-0.0,\"x\"]\x7d") = some (.ok exampleNumbers, [])
    ∧ PlainStrings exampleNumbers = true
    ∧ Print (platform (fun _ => 0)) exampleNumbers = "\x7b\"a\":5.5,\"b\":[0,\"x\"]\x7d"
    ∧ LoadObject (NewDecoder (Print (platform (fun _ => 0)) exampleNumbers))
      = some (.ok (reread (platform (fun _ => 0)) exampleNumbers), [])
    ∧ Equal (platform (fun _ => 0)) exampleNumbers
        (reread (platform (fun _ => 0)) exampleNumbers) = true :=
  ⟨rfl, by decide, by decide,
    (C1_round_trip (fun _ => 0) "\x7b\"a\":5.5,\"b\":[-0.0,\"x\"]\x7d" exampleNumbers [] rfl
      (by decide)).2.1,
    (C1_round_trip (fun _ => 0) "\x7b\"a\":5.5,\"b\":[-0.0,\"x\"]\x7d" exampleNumbers [] rfl
      (by decide)).2.2⟩

end jd
